import Mathlib

/-!
# bymlplus: the BYML reader, its validator and its navigation API

A shallow embedding of `source/common/binary_reader.h`, `source/byml/container_util.h`,
`source/byml/byml.cpp` and `source/byml/value.cpp`, followed by theorems about it.

Conventions of the embedding.

* A `Buffer` is the list of its bytes; `mBuffer.size()` is the length of the list.
* The C++ code reads memory without checking. Here every byte read goes through
  `BinaryReader.byte`, which yields the fault `oob` for an offset at or past the end
  of the buffer, so that "this read is in bounds" is a statement about the result.
* Unsigned offset arithmetic goes through `add64`, `add32`, `mul32`: the exact value when it
  fits the C++ type, the fault `wrap` when the C++ operation would have wrapped.
  An `ok` result is therefore always the value the C++ code computes. The one product whose
  operand is not bounded by a 24-bit count, `4 * idx` in `util::getStringOffset`, is taken
  modulo `2 ^ 32`, as the `u32` product of the source is.
* The validator recursion `checkNode` / `checkArrayNode` / `checkHashNode` has no
  bound in the source; here it takes a recursion budget and yields the fault `fuel`
  when the budget is used up.
-/

namespace byml

/-! ## Results -/

/-- Ways a run can leave the behaviour that the embedding describes. -/
inductive Fault where
  /-- A read at an offset that is not below the buffer size. -/
  | oob
  /-- An unsigned computation whose exact value does not fit its C++ type. -/
  | wrap
  /-- The recursion budget of the validator is used up. -/
  | fuel
  deriving DecidableEq, Repr

/-- Outcome of a run: a value, or a fault. -/
inductive Res (α : Type) where
  | ok (a : α) : Res α
  | fault (f : Fault) : Res α
  deriving DecidableEq, Repr

/-- Sequencing: a fault stops the run. -/
def Res.bind {α β : Type} : Res α → (α → Res β) → Res β
  | .ok a, f => f a
  | .fault e, _ => .fault e

instance : Monad Res where
  pure := Res.ok
  bind := Res.bind

/-- `a + b` computed in `u64`. -/
def add64 (a b : Nat) : Res Nat :=
  if a + b < 2 ^ 64 then .ok (a + b) else .fault .wrap

/-- `a + b` computed in `u32`. -/
def add32 (a b : Nat) : Res Nat :=
  if a + b < 2 ^ 32 then .ok (a + b) else .fault .wrap

/-- `a * b` computed in `u32`. -/
def mul32 (a b : Nat) : Res Nat :=
  if a * b < 2 ^ 32 then .ok (a * b) else .fault .wrap

/-! ## binary_format.h -/

/-- `enum class NodeType : u8`: any byte can be cast to it, so it is the byte value. -/
abbrev NodeType := Nat

namespace NodeType
def String : NodeType := 0xa0
def Array : NodeType := 0xc0
def Hash : NodeType := 0xc1
def StringTable : NodeType := 0xc2
def Bool : NodeType := 0xd0
def Int : NodeType := 0xd1
def Float : NodeType := 0xd2
def UInt : NodeType := 0xd3
def Int64 : NodeType := 0xd4
def UInt64 : NodeType := 0xd5
def Double : NodeType := 0xd6
def Null : NodeType := 0xff
end NodeType

/-- `sizeof(ResHeader)`. -/
def sizeofResHeader : Nat := 0x10

/-! ## common/binary_reader.h -/

/-- `Buffer(data, size)`: the bytes `data[0 .. size)`. -/
abbrev Buffer := List (Fin 256)

/-- `class BinaryReader`. -/
structure BinaryReader where
  mData : Buffer
  mBigEndian : Bool
  deriving DecidableEq, Repr

/-- `mData[offset]`, one byte of memory. -/
def BinaryReader.byte (br : BinaryReader) (offset : Nat) : Res Nat :=
  match br.mData.get? offset with
  | some b => .ok b.val
  | none => .fault .oob

/-- The `n` bytes copied by `std::memcpy(&value, &mData[offset], n)`. -/
def BinaryReader.bytes (br : BinaryReader) (offset : Nat) : Nat → Res (List Nat)
  | 0 => pure []
  | n + 1 => do
    let b ← br.byte offset
    let bs ← br.bytes (offset + 1) n
    pure (b :: bs)

/-- Value of a byte sequence stored most significant byte first. -/
def fromBigEndian (bs : List Nat) : Nat :=
  bs.foldl (fun acc b => acc * 256 + b) 0

/-- Value of a byte sequence stored least significant byte first. -/
def fromLittleEndian (bs : List Nat) : Nat :=
  bs.foldr (fun b acc => b + 256 * acc) 0

/-- `BinaryReader::read<T>(offset)` for an unsigned `T` of `n` bytes: `memcpy` then
`swapIfNeeded`, that is, the bytes read in the document's byte order. -/
def BinaryReader.read (br : BinaryReader) (n : Nat) (offset : Nat) : Res Nat := do
  let bs ← br.bytes offset n
  pure (if br.mBigEndian then fromBigEndian bs else fromLittleEndian bs)

/-- `BinaryReader::readU24`. -/
def BinaryReader.readU24 (br : BinaryReader) (offset : Nat) : Res Nat := do
  let b0 ← br.byte offset
  let b1 ← br.byte (offset + 1)
  let b2 ← br.byte (offset + 2)
  if br.mBigEndian then
    pure (b0 <<< 16 ||| b1 <<< 8 ||| b2)
  else
    pure (b2 <<< 16 ||| b1 <<< 8 ||| b0)

/-- The C string a `const char*` designates: the bytes before the first NUL. -/
def cstr (mem : List (Fin 256)) : List (Fin 256) :=
  mem.takeWhile (fun b => b ≠ 0)

/-- `BinaryReader::getString(offset)`: the pointer `&mData[offset]`. A pointer into the
buffer is represented by its offset from the start of the buffer. -/
def BinaryReader.getString (_br : BinaryReader) (offset : Nat) : Nat :=
  offset

/-- Reading the C string at the pointer `p` (as `strcmp` or a caller does): the bytes
from `p` up to the first NUL; `oob` when there is no NUL before the end of the buffer. -/
def BinaryReader.cstrAt (br : BinaryReader) (p : Nat) : Res (List (Fin 256)) :=
  if (0 : Fin 256) ∈ br.mData.drop p then .ok (cstr (br.mData.drop p))
  else .fault .oob

/-- `strnlen(getString(offset), maxLen)`: scans at most `maxLen` bytes from `offset`
and stops at the first NUL; the result is the number of bytes before it, or `maxLen`. -/
def BinaryReader.strnlen (br : BinaryReader) (offset : Nat) : Nat → Res Nat
  | 0 => pure 0
  | maxLen + 1 => do
    let b ← br.byte offset
    if b = 0 then pure 0
    else do
      let n ← br.strnlen (offset + 1) maxLen
      pure (n + 1)

/-- `std::strcmp`: the sign of the first differing byte, compared as unsigned bytes,
the end of a string counting as the byte 0. -/
def strcmp : List (Fin 256) → List (Fin 256) → Int
  | [], [] => 0
  | [], b :: _ => - (b.val : Int)
  | a :: _, [] => (a.val : Int)
  | a :: as, b :: bs => if a = b then strcmp as bs else (a.val : Int) - (b.val : Int)

/-! ## common/align.h (not part of the sources at hand) -/

/-- Modelled from the spec: `common::AlignUp` of `common/align.h`, which is missing;
"`round_up(N, 4)` is the smallest multiple of 4 that is ≥ N". -/
def AlignUp (value size : Nat) : Nat :=
  (value + (size - 1)) / size * size

/-! ## include/byml/value.h: raw items -/

/-- `struct RawItemData`: the 32-bit cell (already in host order) and its type tag. -/
structure RawItemData where
  raw : Nat
  type : NodeType
  deriving DecidableEq, Repr

/-! ## container_util.h -/

namespace util

/-- `util::getStringOffset`. The product `4 * idx` is taken in `u32` and wraps around:
`ItemData::getString` passes the raw cell of an item as `idx`, which can be any `u32`. -/
def getStringOffset (br : BinaryReader) (tableOffset idx : Nat) : Res Nat := do
  let base ← add64 tableOffset 4
  let wordOffset ← add64 base ((4 * idx) % 2 ^ 32)
  let word ← br.read 4 wordOffset
  add64 tableOffset word

/-- `util::readContainerSize`. -/
def readContainerSize (br : BinaryReader) (offset : Nat) : Res Nat := do
  let at1 ← add64 offset 1
  br.readU24 at1

/-- `util::getArrayTypesOffset`. -/
def getArrayTypesOffset (offset : Nat) : Res Nat :=
  add64 offset 4

/-- `util::getArrayValuesOffset`. -/
def getArrayValuesOffset (offset numItems : Nat) : Res Nat := do
  let typesOffset ← getArrayTypesOffset offset
  add64 typesOffset (AlignUp numItems 4)

/-- `util::readArrayItem`. -/
def readArrayItem (br : BinaryReader) (typesOffset valuesOffset idx : Nat) :
    Res RawItemData := do
  let scaled ← mul32 4 idx
  let valueAt ← add64 valuesOffset scaled
  let raw ← br.read 4 valueAt
  let typeAt ← add64 typesOffset idx
  let type ← br.read 1 typeAt
  pure { raw := raw, type := type }

/-- `util::getHashItemsOffset`. -/
def getHashItemsOffset (offset : Nat) : Res Nat :=
  add64 offset 4

/-- `util::getHashItemOffset`. -/
def getHashItemOffset (offset idx : Nat) : Res Nat := do
  let itemsOffset ← getHashItemsOffset offset
  let scaled ← mul32 8 idx
  add64 itemsOffset scaled

/-- `struct util::RawHashItem`. -/
structure RawHashItem where
  keyIndex : Nat
  data : RawItemData
  deriving DecidableEq, Repr

/-- `util::readHashItemWithItemOffset`. -/
def readHashItemWithItemOffset (br : BinaryReader) (itemOffset : Nat) : Res RawHashItem := do
  let keyIndex ← br.readU24 itemOffset
  let typeAt ← add64 itemOffset 3
  let type ← br.read 1 typeAt
  let rawAt ← add64 itemOffset 4
  let rawData ← br.read 4 rawAt
  pure { keyIndex := keyIndex, data := { raw := rawData, type := type } }

/-- `util::readHashItem`. -/
def readHashItem (br : BinaryReader) (offset idx : Nat) : Res RawHashItem := do
  let itemOffset ← getHashItemOffset offset idx
  readHashItemWithItemOffset br itemOffset

end util

/-! ## byml.cpp: the validator -/

/-- `struct NodeCheckContext`. -/
structure NodeCheckContext where
  br : BinaryReader
  bufferSize : Nat := 0
  hashKeyTableLen : Nat := 0
  stringTableLen : Nat := 0
  deriving DecidableEq, Repr

/-- The loop `for (u32 i = first; i < first + count; ++i) if (!body(i)) return false;`
followed by `return true;`. -/
def forAllItems (body : Nat → Res Bool) : Nat → Nat → Res Bool
  | _, 0 => pure true
  | i, count + 1 => do
    let passed ← body i
    if !passed then pure false
    else forAllItems body (i + 1) count

/-- Body of the loop of `checkStringTable` for the string `i`. -/
def checkStringTableEntry (ctx : NodeCheckContext) (offset i : Nat) : Res Bool := do
  let stringOffset ← util.getStringOffset ctx.br offset i
  if ctx.bufferSize ≤ stringOffset then pure false
  else do
    -- Verify that all strings are null terminated.
    let maxLen := ctx.bufferSize - stringOffset
    let len ← ctx.br.strnlen (ctx.br.getString stringOffset) maxLen
    if len = maxLen then pure false
    else pure true

/-- `checkStringTable(ctx, offset, numItems)`: the returned pair is the boolean result
and the value of `*numItems` on return (`numItems` on entry when nothing was stored). -/
def checkStringTable (ctx : NodeCheckContext) (offset : Nat) (numItems : Nat) :
    Res (Bool × Nat) := do
  let headerEnd ← add64 offset 4
  if ctx.bufferSize < headerEnd then pure (false, numItems)
  else do
    let type ← ctx.br.read 1 offset
    if type ≠ NodeType.StringTable then pure (false, numItems)
    else do
      let at1 ← add64 offset 1
      let numItems ← ctx.br.readU24 at1
      let slots ← add32 numItems 1
      let words ← mul32 4 slots
      let tableEnd ← add64 headerEnd words
      if ctx.bufferSize < tableEnd then pure (false, numItems)
      else do
        let passed ← forAllItems (checkStringTableEntry ctx offset) 0 numItems
        pure (passed, numItems)

/-- `checkArrayNode(ctx, offset)`; `checkNode` is the node check it recurses into. -/
def checkArrayNode (checkNode : Nat → NodeType → Res Bool) (ctx : NodeCheckContext)
    (offset : Nat) : Res Bool := do
  let headerEnd ← add64 offset 4
  if ctx.bufferSize < headerEnd then pure false
  else do
    let type ← ctx.br.read 1 offset
    if type ≠ NodeType.Array then pure false
    else do
      let numItems ← util.readContainerSize ctx.br offset
      let typesOffset ← util.getArrayTypesOffset offset
      let valuesOffset ← util.getArrayValuesOffset offset numItems
      let scaled ← mul32 4 numItems
      let valuesEnd ← add64 valuesOffset scaled
      if ctx.bufferSize < valuesEnd then pure false
      else
        forAllItems (fun i => do
          let item ← util.readArrayItem ctx.br typesOffset valuesOffset i
          checkNode item.raw item.type) 0 numItems

/-- `checkHashNode(ctx, offset)`; `checkNode` is the node check it recurses into. -/
def checkHashNode (checkNode : Nat → NodeType → Res Bool) (ctx : NodeCheckContext)
    (offset : Nat) : Res Bool := do
  let headerEnd ← add64 offset 4
  if ctx.bufferSize < headerEnd then pure false
  else do
    let type ← ctx.br.read 1 offset
    if type ≠ NodeType.Hash then pure false
    else do
      let numItems ← util.readContainerSize ctx.br offset
      let itemsOffset ← util.getHashItemsOffset offset
      let scaled ← mul32 8 numItems
      let itemsEnd ← add64 itemsOffset scaled
      if ctx.bufferSize < itemsEnd then pure false
      else
        forAllItems (fun i => do
          let itemOffset ← util.getHashItemOffset offset i
          let item ← util.readHashItemWithItemOffset ctx.br itemOffset
          if ctx.hashKeyTableLen ≤ item.keyIndex then pure false
          else checkNode item.data.raw item.data.type) 0 numItems

/-- `checkNode(ctx, data, type)`. The first argument is the recursion budget: each
nested call of `checkNode` uses one unit. -/
def checkNode (ctx : NodeCheckContext) : Nat → Nat → NodeType → Res Bool
  | 0, _, _ => .fault .fuel
  | fuel + 1, data, type =>
    if type = NodeType.String then
      -- data is an index into the string table.
      pure (decide (data < ctx.stringTableLen))
    else if type = NodeType.Array then
      -- data is an offset to the node.
      checkArrayNode (checkNode ctx fuel) ctx data
    else if type = NodeType.Hash then
      -- data is an offset to the node.
      checkHashNode (checkNode ctx fuel) ctx data
    else if type = NodeType.Bool ∨ type = NodeType.Int ∨ type = NodeType.Float
        ∨ type = NodeType.UInt then
      -- Simple value types. Nothing to check.
      pure true
    else if type = NodeType.Int64 ∨ type = NodeType.UInt64 ∨ type = NodeType.Double then do
      -- "Big" value types. data is an offset to a 64-bit value.
      let valueEnd ← add64 data 8
      pure (decide (valueEnd < ctx.bufferSize))
    else if type = NodeType.Null then
      -- Another simple value type. Nothing to do.
      pure true
    else
      pure false

/-! ## byml.h / byml.cpp: the reader -/

/-- `class Reader`, with the defaults of its member initialisers. -/
structure Reader where
  mBuffer : Buffer
  mHashKeyTableOffset : Nat := 0
  mStringTableOffset : Nat := 0
  mRootNodeOffset : Nat := 0
  mHasValidHeader : Bool := false
  mBigEndian : Bool := false
  deriving DecidableEq, Repr

/-- `Reader::Reader(Buffer buffer)`. -/
def Reader.new (buffer : Buffer) : Res Reader := do
  let self : Reader := { mBuffer := buffer }
  if buffer.length < sizeofResHeader then pure self
  else do
    let raw : BinaryReader := { mData := buffer, mBigEndian := false }
    let c0 ← raw.byte 0
    let c1 ← raw.byte 1
    let isBigEndian := c0 = 0x42 ∧ c1 = 0x59
    let isLittleEndian := c0 = 0x59 ∧ c1 = 0x42
    if ¬ isBigEndian ∧ ¬ isLittleEndian then pure self
    else do
      let self := { self with mBigEndian := decide isBigEndian }
      let br : BinaryReader := { mData := self.mBuffer, mBigEndian := self.mBigEndian }
      let version ← br.read 2 2
      if version ≠ 2 ∧ version ≠ 3 then pure self
      else do
        let hashKeyTableOffset ← br.read 4 4
        let stringTableOffset ← br.read 4 8
        let rootNodeOffset ← br.read 4 12
        pure { self with
          mHashKeyTableOffset := hashKeyTableOffset
          mStringTableOffset := stringTableOffset
          mRootNodeOffset := rootNodeOffset
          mHasValidHeader := true }

/-- `Reader::isValid()`, with the recursion budget handed to `checkNode`. -/
def Reader.isValid (self : Reader) (fuel : Nat) : Res Bool := do
  if !self.mHasValidHeader then pure false
  else do
    let br : BinaryReader := { mData := self.mBuffer, mBigEndian := self.mBigEndian }
    if self.mBuffer.length ≤ self.mHashKeyTableOffset
        ∨ self.mBuffer.length ≤ self.mStringTableOffset
        ∨ self.mBuffer.length ≤ self.mRootNodeOffset then pure false
    else do
      let ctx : NodeCheckContext := { br := br }
      -- `ctx.bufferSize = mBuffer.size()` converts `size_t` to `u32`.
      let ctx := { ctx with bufferSize := self.mBuffer.length % 2 ^ 32 }
      let hashKeyTable ← (if self.mHashKeyTableOffset ≠ 0 then
          checkStringTable ctx self.mHashKeyTableOffset ctx.hashKeyTableLen
        else pure (true, ctx.hashKeyTableLen))
      let ctx := { ctx with hashKeyTableLen := hashKeyTable.2 }
      if !hashKeyTable.1 then pure false
      else do
        let stringTable ← (if self.mStringTableOffset ≠ 0 then
            checkStringTable ctx self.mStringTableOffset ctx.stringTableLen
          else pure (true, ctx.stringTableLen))
        let ctx := { ctx with stringTableLen := stringTable.2 }
        if !stringTable.1 then pure false
        else if self.mRootNodeOffset ≠ 0 then do
          -- Note: uint64s are used for all user controlled offsets to avoid wraparounds.
          let rootEnd ← add64 self.mRootNodeOffset 1
          if self.mBuffer.length < rootEnd then pure false
          else do
            let type ← br.read 1 self.mRootNodeOffset
            if type ≠ NodeType.Array ∧ type ≠ NodeType.Hash then pure false
            else do
              let passed ← checkNode ctx fuel self.mRootNodeOffset type
              if !passed then pure false
              else pure true
        else pure true

/-- Constructing a reader on a buffer and asking `isValid()`. -/
def isValid (buffer : Buffer) (fuel : Nat) : Res Bool := do
  let reader ← Reader.new buffer
  reader.isValid fuel

/-- `checkRootNodeType(data, offset, type)`: `offset && NodeType(data[offset]) == type`. -/
def checkRootNodeType (data : Buffer) (offset : Nat) (type : NodeType) : Res Bool :=
  if offset = 0 then pure false
  else do
    let tag ← BinaryReader.byte { mData := data, mBigEndian := false } offset
    pure (decide (tag = type))

/-- `Reader::isArray()`. -/
def Reader.isArray (self : Reader) : Res Bool :=
  checkRootNodeType self.mBuffer self.mRootNodeOffset NodeType.Array

/-- `Reader::isHash()`. -/
def Reader.isHash (self : Reader) : Res Bool :=
  checkRootNodeType self.mBuffer self.mRootNodeOffset NodeType.Hash

/-! ## value.h / value.cpp: container views and items -/

/-- `getBinaryReader(reader)`. -/
def getBinaryReader (reader : Reader) : BinaryReader :=
  { mData := reader.mBuffer, mBigEndian := reader.mBigEndian }

/-- `class ContainerBase`: the members shared by the two views. -/
structure ContainerBase where
  mReader : Reader
  mOffset : Nat
  mNumItems : Nat
  deriving DecidableEq, Repr

/-- `ContainerBase::ContainerBase(reader, offset)`. -/
def ContainerBase.new (reader : Reader) (offset : Nat) : Res ContainerBase := do
  let numItems ← util.readContainerSize (getBinaryReader reader) offset
  pure { mReader := reader, mOffset := offset, mNumItems := numItems }

/-- `ContainerBase::numItems()`. -/
def ContainerBase.numItems (self : ContainerBase) : Nat :=
  self.mNumItems

/-- `class Array`. -/
structure Array where
  base : ContainerBase
  deriving DecidableEq, Repr

/-- `class Hash`. -/
structure Hash where
  base : ContainerBase
  deriving DecidableEq, Repr

/-- `Array{reader, offset}`. -/
def Array.new (reader : Reader) (offset : Nat) : Res Array := do
  let base ← ContainerBase.new reader offset
  pure { base := base }

/-- `Hash{reader, offset}`. -/
def Hash.new (reader : Reader) (offset : Nat) : Res Hash := do
  let base ← ContainerBase.new reader offset
  pure { base := base }

/-- `struct ItemData`. -/
structure ItemData where
  reader : Reader
  raw : RawItemData
  deriving DecidableEq, Repr

/-- `struct HashItem`; `name` is a pointer into the buffer. -/
structure HashItem where
  name : Nat
  data : ItemData
  deriving DecidableEq, Repr

/-- `Reader::getArray()`. -/
def Reader.getArray (self : Reader) : Res (Option Array) := do
  let isArray ← self.isArray
  if !isArray then pure none
  else do
    let view ← Array.new self self.mRootNodeOffset
    pure (some view)

/-- `Reader::getHash()`. -/
def Reader.getHash (self : Reader) : Res (Option Hash) := do
  let isHash ← self.isHash
  if !isHash then pure none
  else do
    let view ← Hash.new self self.mRootNodeOffset
    pure (some view)

/-- `Array::getByIndexImpl(idx)`. -/
def Array.getByIndexImpl (self : Array) (idx : Nat) : Res (Option ItemData) := do
  let br := getBinaryReader self.base.mReader
  if self.base.numItems ≤ idx then pure none
  else do
    let typesOffset ← util.getArrayTypesOffset self.base.mOffset
    let valuesOffset ← util.getArrayValuesOffset self.base.mOffset self.base.numItems
    let item ← util.readArrayItem br typesOffset valuesOffset idx
    pure (some { reader := self.base.mReader, raw := item })

/-- `Container<Array, ItemData>::getByIndex(idx)`. -/
def Array.getByIndex (self : Array) (idx : Nat) : Res (Option ItemData) :=
  self.getByIndexImpl idx

/-- `hashGetByIndex(reader, br, offset, hashKeyTableOffset, idx)`. -/
def hashGetByIndex (reader : Reader) (br : BinaryReader) (offset hashKeyTableOffset idx : Nat) :
    Res HashItem := do
  let item ← util.readHashItem br offset idx
  let keyOffset ← util.getStringOffset br hashKeyTableOffset item.keyIndex
  let key := br.getString keyOffset
  pure { name := key, data := { reader := reader, raw := item.data } }

/-- `Hash::getByIndexImpl(idx)`. -/
def Hash.getByIndexImpl (self : Hash) (idx : Nat) : Res (Option HashItem) := do
  let br := getBinaryReader self.base.mReader
  if self.base.numItems ≤ idx then pure none
  else do
    let item ← hashGetByIndex self.base.mReader br self.base.mOffset
      self.base.mReader.mHashKeyTableOffset idx
    pure (some item)

/-- `Container<Hash, HashItem>::getByIndex(idx)`. -/
def Hash.getByIndex (self : Hash) (idx : Nat) : Res (Option HashItem) :=
  self.getByIndexImpl idx

/-- The loop `while (a <= b)` of `Hash::getByKey`, from the state `(a, b)`; `a`, `b` and
`m` are the `s32` variables of the source and `key` the memory at the caller's pointer. -/
def Hash.getByKeyLoop (self : Hash) (key : List (Fin 256)) (a b : Int) :
    Res (Option ItemData) :=
  if a ≤ b then do
    let br := getBinaryReader self.base.mReader
    let m := Int.tdiv (a + b) 2
    let item ← hashGetByIndex self.base.mReader br self.base.mOffset
      self.base.mReader.mHashKeyTableOffset m.toNat
    let name ← br.cstrAt item.name
    let cmp := strcmp name (cstr key)
    if cmp < 0 then self.getByKeyLoop key (m + 1) b
    else if cmp > 0 then self.getByKeyLoop key a (m - 1)
    else pure (some item.data)
  else pure none
termination_by (b + 1 - a).toNat
decreasing_by
  all_goals simp_wf
  all_goals
    have hm : a ≤ Int.tdiv (a + b) 2 ∧ Int.tdiv (a + b) 2 ≤ b := by
      rcases Int.le_total 0 (a + b) with h0 | h0
      · rw [Int.tdiv_eq_ediv h0 (by decide)]
        omega
      · have hneg : Int.tdiv (a + b) 2 = -((-(a + b)) / 2) := by
          rw [← Int.tdiv_eq_ediv (by omega) (by decide), Int.neg_tdiv, Int.neg_neg]
        omega
    omega

/-- `Hash::getByKey(key)`. -/
def Hash.getByKey (self : Hash) (key : List (Fin 256)) : Res (Option ItemData) :=
  -- Since all items are lexicographically sorted, a binary search can be performed here.
  self.getByKeyLoop key 0 ((self.base.numItems : Int) - 1)

/-- `Hash::contains(key)`. -/
def Hash.contains (self : Hash) (key : List (Fin 256)) : Res Bool := do
  let found ← self.getByKey key
  pure found.isSome

/-- `ItemData::getHash()`. -/
def ItemData.getHash (self : ItemData) : Res (Option Hash) :=
  if self.raw.type ≠ NodeType.Hash then pure none
  else do
    let view ← Hash.new self.reader self.raw.raw
    pure (some view)

/-- `ItemData::getArray()`. -/
def ItemData.getArray (self : ItemData) : Res (Option Array) :=
  if self.raw.type ≠ NodeType.Array then pure none
  else do
    let view ← Array.new self.reader self.raw.raw
    pure (some view)

/-- `ItemData::getString()`: `none` is the null pointer. -/
def ItemData.getString (self : ItemData) : Res (Option Nat) :=
  if self.raw.type ≠ NodeType.String then pure none
  else do
    let br := getBinaryReader self.reader
    let stringOffset ← util.getStringOffset br self.reader.mStringTableOffset self.raw.raw
    pure (some (br.getString stringOffset))

/-- `static_cast<s32>(raw)`: the 32-bit pattern read as a two's complement number. -/
def toS32 (raw : Nat) : Int :=
  if raw % 2 ^ 32 < 2 ^ 31 then (raw % 2 ^ 32 : Nat) else ((raw % 2 ^ 32 : Nat) : Int) - 2 ^ 32

/-- `static_cast<s64>(value)`: the 64-bit pattern read as a two's complement number. -/
def toS64 (value : Nat) : Int :=
  if value % 2 ^ 64 < 2 ^ 63 then (value % 2 ^ 64 : Nat)
  else ((value % 2 ^ 64 : Nat) : Int) - 2 ^ 64

/-- The type `f32`, represented by its bit pattern. -/
structure f32 where
  bits : Nat
  deriving DecidableEq, Repr

/-- The type `f64`: either a bit pattern, or the conversion of an `f32` to `f64`. -/
inductive f64 where
  | ofBits (bits : Nat) : f64
  | ofF32 (value : f32) : f64
  deriving DecidableEq, Repr

/-- `ItemData::getBool()`. -/
def ItemData.getBool (self : ItemData) : Option Bool :=
  if self.raw.type ≠ NodeType.Bool then none
  else some (decide (self.raw.raw ≠ 0))

/-- `ItemData::getInt()`. -/
def ItemData.getInt (self : ItemData) : Option Int :=
  if self.raw.type ≠ NodeType.Int then none
  else some (toS32 self.raw.raw)

/-- `ItemData::getUInt()`. -/
def ItemData.getUInt (self : ItemData) : Option Nat :=
  if self.raw.type = NodeType.Int then
    if toS32 self.raw.raw ≥ 0 then some self.raw.raw else none
  else if self.raw.type = NodeType.UInt then some self.raw.raw
  else none

/-- `ItemData::getFloat()`. -/
def ItemData.getFloat (self : ItemData) : Option f32 :=
  if self.raw.type ≠ NodeType.Float then none
  else some { bits := self.raw.raw }

/-- `ItemData::getInt64()`. -/
def ItemData.getInt64 (self : ItemData) : Res (Option Int) :=
  if self.raw.type = NodeType.Int then pure (some (toS32 self.raw.raw))
  else if self.raw.type = NodeType.UInt then pure (some (self.raw.raw : Int))
  else if self.raw.type = NodeType.Int64 then do
    let value ← (getBinaryReader self.reader).read 8 self.raw.raw
    pure (some (toS64 value))
  else pure none

/-- `ItemData::getUInt64()`. -/
def ItemData.getUInt64 (self : ItemData) : Res (Option Nat) :=
  match self.getUInt with
  | some value => pure (some value)
  | none =>
    if self.raw.type ≠ NodeType.Int64 ∧ self.raw.type ≠ NodeType.UInt64 then pure none
    else do
      let value ← (getBinaryReader self.reader).read 8 self.raw.raw
      if self.raw.type = NodeType.Int64 ∧ toS64 value < 0 then pure none
      else pure (some value)

/-- `ItemData::getDouble()`. -/
def ItemData.getDouble (self : ItemData) : Res (Option f64) :=
  match self.getFloat with
  | some value => pure (some (f64.ofF32 value))
  | none =>
    if self.raw.type ≠ NodeType.Double then pure none
    else do
      let rawValue ← (getBinaryReader self.reader).read 8 self.raw.raw
      pure (some (f64.ofBits rawValue))

/-- `ItemData::Variant`, the type `std::variant<Hash, Array, const char*, bool, s32, u32,
f32, s64, u64, f64>`: one alternative for each type, in that order. A `const char*` is an
offset into the buffer, `none` being the null pointer. -/
inductive Variant where
  | ofHash (value : Hash) : Variant
  | ofArray (value : Array) : Variant
  | ofString (value : Option Nat) : Variant
  | ofBool (value : Bool) : Variant
  | ofS32 (value : Int) : Variant
  | ofU32 (value : Nat) : Variant
  | ofF32 (value : f32) : Variant
  | ofS64 (value : Int) : Variant
  | ofU64 (value : Nat) : Variant
  | ofF64 (value : f64) : Variant
  deriving DecidableEq, Repr

/-- `ItemData::val()`. Each case of the `switch` applies `*` to the optional that the typed
accessor returns; `*` on an empty optional has no defined behaviour, and the result `none`
stands for a run that did so. The `default` case returns the literal `0x0badbadbadbadbad`,
whose type is that of `s64` (`byml/types.h` is not part of the sources at hand), so that
the variant holds its `s64` alternative. -/
def ItemData.val (self : ItemData) : Res (Option Variant) :=
  if self.raw.type = NodeType.Hash then do
    let value ← self.getHash
    pure (value.map Variant.ofHash)
  else if self.raw.type = NodeType.Array then do
    let value ← self.getArray
    pure (value.map Variant.ofArray)
  else if self.raw.type = NodeType.String then do
    let value ← self.getString
    pure (some (Variant.ofString value))
  else if self.raw.type = NodeType.Bool then
    pure (self.getBool.map Variant.ofBool)
  else if self.raw.type = NodeType.Int then
    pure (self.getInt.map Variant.ofS32)
  else if self.raw.type = NodeType.UInt then
    pure (self.getUInt.map Variant.ofU32)
  else if self.raw.type = NodeType.Float then
    pure (self.getFloat.map Variant.ofF32)
  else if self.raw.type = NodeType.Int64 then do
    let value ← self.getInt64
    pure (value.map Variant.ofS64)
  else if self.raw.type = NodeType.UInt64 then do
    let value ← self.getUInt64
    pure (value.map Variant.ofU64)
  else if self.raw.type = NodeType.Double then do
    let value ← self.getDouble
    pure (value.map Variant.ofF64)
  else
    -- Should never happen -- all nodes are checked by the reader.
    pure (some (Variant.ofS64 0x0badbadbadbadbad))

/-! ## Notions used to state the properties -/

/-- A run that made no read outside the buffer and no computation that wraps: it gave a
value or stopped for lack of recursion budget. -/
def Res.Safe {α : Type} (x : Res α) : Prop :=
  x ≠ .fault .oob ∧ x ≠ .fault .wrap

/-- The loop body of `checkArrayNode` for an array of `n` items at `offset`. -/
def arrayBody (chk : Nat → NodeType → Res Bool) (br : BinaryReader) (offset n : Nat)
    (i : Nat) : Res Bool := do
  let item ← util.readArrayItem br (offset + 4) (offset + 4 + AlignUp n 4) i
  chk item.raw item.type

/-- The loop body of `checkHashNode` for the map at `offset`. -/
def hashBody (chk : Nat → NodeType → Res Bool) (ctx : NodeCheckContext) (offset : Nat)
    (i : Nat) : Res Bool := do
  let itemOffset ← util.getHashItemOffset offset i
  let item ← util.readHashItemWithItemOffset ctx.br itemOffset
  if ctx.hashKeyTableLen ≤ item.keyIndex then pure false
  else chk item.data.raw item.data.type

/-- The context with which `isValid` checks the nodes, given the two lengths that the
table checks stored. -/
def Reader.checkContext (self : Reader) (hashKeyTableLen stringTableLen : Nat) :
    NodeCheckContext :=
  { br := getBinaryReader self, bufferSize := self.mBuffer.length % 2 ^ 32,
    hashKeyTableLen := hashKeyTableLen, stringTableLen := stringTableLen }

/-- What the two table checks of `isValid` establish when they pass: `ctx` is the
context of the reader with the two stored lengths, and each table is either absent,
with length 0, or a node tagged StringTable with that many NUL-terminated strings. -/
def TablesChecked (r : Reader) (ctx : NodeCheckContext) : Prop :=
  ctx = r.checkContext ctx.hashKeyTableLen ctx.stringTableLen ∧
  ((r.mHashKeyTableOffset = 0 ∧ ctx.hashKeyTableLen = 0) ∨
    (r.mHashKeyTableOffset ≠ 0 ∧
      ctx.br.readU24 (r.mHashKeyTableOffset + 1) = .ok ctx.hashKeyTableLen ∧
      r.mHashKeyTableOffset + 4 + 4 * (ctx.hashKeyTableLen + 1) ≤ ctx.bufferSize ∧
      (∀ i, i < ctx.hashKeyTableLen →
        checkStringTableEntry ctx r.mHashKeyTableOffset i = .ok true) ∧
      ctx.br.read 1 r.mHashKeyTableOffset = .ok NodeType.StringTable)) ∧
  ((r.mStringTableOffset = 0 ∧ ctx.stringTableLen = 0) ∨
    (r.mStringTableOffset ≠ 0 ∧
      ctx.br.readU24 (r.mStringTableOffset + 1) = .ok ctx.stringTableLen ∧
      r.mStringTableOffset + 4 + 4 * (ctx.stringTableLen + 1) ≤ ctx.bufferSize ∧
      (∀ i, i < ctx.stringTableLen →
        checkStringTableEntry ctx r.mStringTableOffset i = .ok true) ∧
      ctx.br.read 1 r.mStringTableOffset = .ok NodeType.StringTable))

/-- What `isValid` has checked, with the context `ctx`, when it returns `true`. -/
structure Reader.Checked (r : Reader) (fuel : Nat) (ctx : NodeCheckContext) : Prop where
  tables : TablesChecked r ctx
  offsets : r.mHashKeyTableOffset < 2 ^ 32 ∧ r.mStringTableOffset < 2 ^ 32
    ∧ r.mRootNodeOffset < 2 ^ 32
  root : r.mRootNodeOffset = 0 ∨
    ∃ type, ctx.br.read 1 r.mRootNodeOffset = .ok type ∧
      (type = NodeType.Array ∨ type = NodeType.Hash) ∧
      checkNode ctx fuel r.mRootNodeOffset type = .ok true

/-- The eleven type tags an item may carry. -/
def isKnownTag (type : NodeType) : Prop :=
  type = NodeType.String ∨ type = NodeType.Array ∨ type = NodeType.Hash
    ∨ type = NodeType.Bool ∨ type = NodeType.Int ∨ type = NodeType.Float
    ∨ type = NodeType.UInt ∨ type = NodeType.Int64 ∨ type = NodeType.UInt64
    ∨ type = NodeType.Double ∨ type = NodeType.Null

instance (type : NodeType) : Decidable (isKnownTag type) := by
  unfold isKnownTag
  infer_instance

/-- A container view: an array or a map. -/
inductive View where
  | array (a : Array) : View
  | hash (h : Hash) : View
  deriving DecidableEq, Repr

/-- Item count of a view. -/
def View.numItems : View → Nat
  | .array a => a.base.numItems
  | .hash h => h.base.numItems

/-- The item `getByIndex(idx)` gives: for a map, the `data` of the key/item pair. -/
def View.getByIndex : View → Nat → Res (Option ItemData)
  | .array a, idx => a.getByIndex idx
  | .hash h, idx => do
    let entry ← h.getByIndex idx
    pure (entry.map (fun e => e.data))

/-- The views reachable from the root of `reader`: what `getArray()` / `getHash()` of
the reader return, and what `getArray()` / `getHash()` return on an item that
`getByIndex` gives on a reachable view. -/
inductive Reachable (reader : Reader) : View → Prop where
  | rootArray {a : Array} : reader.getArray = .ok (some a) → Reachable reader (.array a)
  | rootHash {h : Hash} : reader.getHash = .ok (some h) → Reachable reader (.hash h)
  | childArray {v : View} {idx : Nat} {item : ItemData} {a : Array} :
      Reachable reader v → v.getByIndex idx = .ok (some item) →
      item.getArray = .ok (some a) → Reachable reader (.array a)
  | childHash {v : View} {idx : Nat} {item : ItemData} {h : Hash} :
      Reachable reader v → v.getByIndex idx = .ok (some item) →
      item.getHash = .ok (some h) → Reachable reader (.hash h)

/-- The key string of the entry `idx` of a map: the C string at the `name` pointer that
`hashGetByIndex` gives. -/
def Hash.keyAt (self : Hash) (idx : Nat) : Res (List (Fin 256)) := do
  let br := getBinaryReader self.base.mReader
  let item ← hashGetByIndex self.base.mReader br self.base.mOffset
    self.base.mReader.mHashKeyTableOffset idx
  br.cstrAt item.name

/-- Linear scan of the entries `first, first + 1, ..., first + count - 1` of a map for
the first one whose key string equals the C string `key`. -/
def Hash.scanFrom (self : Hash) (key : List (Fin 256)) : Nat → Nat → Res (Option ItemData)
  | _, 0 => pure none
  | first, count + 1 => do
    let br := getBinaryReader self.base.mReader
    let item ← hashGetByIndex self.base.mReader br self.base.mOffset
      self.base.mReader.mHashKeyTableOffset first
    let name ← br.cstrAt item.name
    if name = cstr key then pure (some item.data)
    else self.scanFrom key (first + 1) count

/-- Linear scan of all the entries of a map for the entry whose key equals `key`. -/
def Hash.scanByKey (self : Hash) (key : List (Fin 256)) : Res (Option ItemData) :=
  self.scanFrom key 0 self.base.numItems

/-- Whether the header and extent checks that `checkArrayNode` / `checkHashNode` make
before looking at the items pass for the node at `offset`; the result is the node's
tag and item count. -/
def Reader.containerHeader (self : Reader) (offset : Nat) : Res (Option (NodeType × Nat)) := do
  let br := getBinaryReader self
  let bufferSize := self.mBuffer.length % 2 ^ 32
  let headerEnd ← add64 offset 4
  if bufferSize < headerEnd then pure none
  else do
    let type ← br.read 1 offset
    let numItems ← util.readContainerSize br offset
    if type = NodeType.Array then do
      let valuesOffset ← util.getArrayValuesOffset offset numItems
      let scaled ← mul32 4 numItems
      let valuesEnd ← add64 valuesOffset scaled
      if bufferSize < valuesEnd then pure none else pure (some (type, numItems))
    else if type = NodeType.Hash then do
      let itemsOffset ← util.getHashItemsOffset offset
      let scaled ← mul32 8 numItems
      let itemsEnd ← add64 itemsOffset scaled
      if bufferSize < itemsEnd then pure none else pure (some (type, numItems))
    else pure none

/-- The cell `idx` of the container of tag `type` at `offset`, as the validator reads it. -/
def Reader.cellAt (self : Reader) (type : NodeType) (offset idx : Nat) : Res RawItemData := do
  let br := getBinaryReader self
  if type = NodeType.Array then do
    let numItems ← util.readContainerSize br offset
    let typesOffset ← util.getArrayTypesOffset offset
    let valuesOffset ← util.getArrayValuesOffset offset numItems
    util.readArrayItem br typesOffset valuesOffset idx
  else do
    let itemOffset ← util.getHashItemOffset offset idx
    let item ← util.readHashItemWithItemOffset br itemOffset
    pure item.data

/-- The offsets of the child containers of the container at `offset`: the raw cells of
its items of type Array or Hash. Empty when `offset` holds no container that passes the
header and extent checks. -/
def Reader.childLinks (self : Reader) (offset : Nat) : List Nat :=
  match self.containerHeader offset with
  | .ok (some (type, numItems)) =>
    (List.range numItems).filterMap (fun idx =>
      match self.cellAt type offset idx with
      | .ok cell =>
        if cell.type = NodeType.Array ∨ cell.type = NodeType.Hash then some cell.raw else none
      | .fault _ => none)
  | _ => []

/-- `child` is a child container of the container at `parent`. -/
def Reader.IsChild (self : Reader) (parent child : Nat) : Prop :=
  child ∈ self.childLinks parent

/-- The node at `offset` is the root node or one of its descendants. -/
def Reader.Reaches (self : Reader) (offset : Nat) : Prop :=
  offset = self.mRootNodeOffset ∨ Relation.TransGen self.IsChild self.mRootNodeOffset offset

/-- No container that is the root or a descendant of the root is its own descendant. -/
def Reader.Acyclic (self : Reader) : Prop :=
  ∀ offset, self.Reaches offset → ¬ Relation.TransGen self.IsChild offset offset

/-- A view of `r` whose container node the validator has checked with the context `ctx`:
the view was built on that node, and the container check returned `true` there. -/
def View.CheckedBy (v : View) (r : Reader) (ctx : NodeCheckContext) : Prop :=
  match v with
  | .array a => a.base.mReader = r ∧ a.base.mOffset < 2 ^ 32 ∧
      util.readContainerSize (getBinaryReader r) a.base.mOffset = .ok a.base.mNumItems ∧
      ∃ fuel, checkArrayNode (checkNode ctx fuel) ctx a.base.mOffset = .ok true
  | .hash h => h.base.mReader = r ∧ h.base.mOffset < 2 ^ 32 ∧
      util.readContainerSize (getBinaryReader r) h.base.mOffset = .ok h.base.mNumItems ∧
      ∃ fuel, checkHashNode (checkNode ctx fuel) ctx h.base.mOffset = .ok true

/-- The entries of a map, when all of them can be read: `entries i` is what
`hashGetByIndex` gives at index `i` and `keys i` is the C string at its `name`. -/
def Hash.HasEntries (self : Hash) (entries : Nat → HashItem) (keys : Nat → List (Fin 256)) :
    Prop :=
  ∀ i, i < self.base.mNumItems →
    hashGetByIndex self.base.mReader (getBinaryReader self.base.mReader) self.base.mOffset
      self.base.mReader.mHashKeyTableOffset i = .ok (entries i) ∧
    (getBinaryReader self.base.mReader).cstrAt (entries i).name = .ok (keys i)

/-! ## Sample documents -/

/-- A little-endian document: hash key table `a`, `b` at 16, string table `hi` at 36,
root map at 52 with `a` = string 0 and `b` = the array at 72, whose items are an Int64
stored at 88 and the Int 5. -/
def sampleDocument : Buffer := [
  0x59, 0x42, 0x02, 0x00, 0x10, 0x00, 0x00, 0x00, 0x24, 0x00, 0x00, 0x00, 0x34, 0x00, 0x00, 0x00,
  0xc2, 0x02, 0x00, 0x00, 0x10, 0x00, 0x00, 0x00, 0x12, 0x00, 0x00, 0x00, 0x14, 0x00, 0x00, 0x00,
  0x61, 0x00, 0x62, 0x00, 0xc2, 0x01, 0x00, 0x00, 0x0c, 0x00, 0x00, 0x00, 0x0f, 0x00, 0x00, 0x00,
  0x68, 0x69, 0x00, 0x00, 0xc1, 0x02, 0x00, 0x00, 0x00, 0x00, 0x00, 0xa0, 0x00, 0x00, 0x00, 0x00,
  0x01, 0x00, 0x00, 0xc0, 0x48, 0x00, 0x00, 0x00, 0xc0, 0x02, 0x00, 0x00, 0xd4, 0xd1, 0x00, 0x00,
  0x58, 0x00, 0x00, 0x00, 0x05, 0x00, 0x00, 0x00, 0xfe, 0xff, 0xff, 0xff, 0xff, 0xff, 0xff, 0xff,
  0x00]

/-- A little-endian document whose root map at 36 stores the key `b` before the key `a`. -/
def unsortedMapDocument : Buffer := [
  0x59, 0x42, 0x02, 0x00, 0x10, 0x00, 0x00, 0x00, 0x00, 0x00, 0x00, 0x00, 0x24, 0x00, 0x00, 0x00,
  0xc2, 0x02, 0x00, 0x00, 0x10, 0x00, 0x00, 0x00, 0x12, 0x00, 0x00, 0x00, 0x14, 0x00, 0x00, 0x00,
  0x61, 0x00, 0x62, 0x00, 0xc1, 0x02, 0x00, 0x00, 0x01, 0x00, 0x00, 0xd1, 0x06, 0x00, 0x00, 0x00,
  0x00, 0x00, 0x00, 0xd1, 0x05, 0x00, 0x00, 0x00]

/-- An accepted header whose root is an array that declares one item the buffer does
not hold. -/
def truncatedArrayDocument : Buffer := [
  0x59, 0x42, 0x02, 0x00, 0x00, 0x00, 0x00, 0x00, 0x00, 0x00, 0x00, 0x00, 0x10, 0x00, 0x00, 0x00,
  0xc0, 0x01, 0x00, 0x00]

/-- A root array at 16 whose only item is an array at offset 16: the root itself. -/
def selfReferentialDocument : Buffer := [
  0x59, 0x42, 0x02, 0x00, 0x00, 0x00, 0x00, 0x00, 0x00, 0x00, 0x00, 0x00, 0x10, 0x00, 0x00, 0x00,
  0xc0, 0x01, 0x00, 0x00, 0xc0, 0x00, 0x00, 0x00, 0x10, 0x00, 0x00, 0x00]


/-- The reader `Reader::Reader` builds on `sampleDocument`. -/
def sampleReader : Reader :=
  { mBuffer := sampleDocument, mHashKeyTableOffset := 16, mStringTableOffset := 36,
    mRootNodeOffset := 52, mHasValidHeader := true, mBigEndian := false }

/-- The root map of `sampleDocument`. -/
def sampleRootHash : Hash :=
  { base := { mReader := sampleReader, mOffset := 52, mNumItems := 2 } }

/-- The array stored under the key `b` in `sampleDocument`. -/
def sampleArray : Array :=
  { base := { mReader := sampleReader, mOffset := 72, mNumItems := 2 } }

/-- A buffer of header size whose magic is neither `BY` nor `YB`. -/
def wrongMagicDocument : Buffer := [
  0x58, 0x58, 0x02, 0x00, 0x00, 0x00, 0x00, 0x00, 0x00, 0x00, 0x00, 0x00, 0x10, 0x00, 0x00, 0x00,
  0xc0, 0x00, 0x00, 0x00]

/-- The reader `Reader::Reader` builds on `truncatedArrayDocument`. -/
def truncatedArrayReader : Reader :=
  { mBuffer := truncatedArrayDocument, mRootNodeOffset := 16, mHasValidHeader := true }

/-- The context with which `isValid` checks the root of `selfReferentialDocument`. -/
def selfReferentialContext : NodeCheckContext :=
  { br := { mData := selfReferentialDocument, mBigEndian := false }, bufferSize := 28 }

/-- The reader `Reader::Reader` builds on `unsortedMapDocument`. -/
def unsortedMapReader : Reader :=
  { mBuffer := unsortedMapDocument, mHashKeyTableOffset := 16, mStringTableOffset := 0,
    mRootNodeOffset := 36, mHasValidHeader := true, mBigEndian := false }

/-- The root map of `unsortedMapDocument`. -/
def unsortedRootHash : Hash :=
  { base := { mReader := unsortedMapReader, mOffset := 36, mNumItems := 2 } }

/-- The magic `BY` of a big-endian document. -/
def magicBigEndian : List (Fin 256) := [0x42, 0x59]

/-- The magic `YB` of a little-endian document. -/
def magicLittleEndian : List (Fin 256) := [0x59, 0x42]

/-- The 16-bit version field of the header: read at offset 2 in the byte order that the
magic selects. -/
def headerVersion (buffer : Buffer) : Res Nat :=
  BinaryReader.read
    { mData := buffer, mBigEndian := decide (buffer.take 2 = magicBigEndian) } 2 2

/-- The string table node at `offset` breaks one of the rules of the string table check:
its tag byte is not StringTable, or its `n + 1` offset words do not fit in the buffer, or
the string of some index below `n` starts at or past the end of the buffer or has no NUL
byte between its start and the end of the buffer. -/
def MalformedStringTable (br : BinaryReader) (offset : Nat) : Prop :=
  (∃ tag, br.byte offset = .ok tag ∧ tag ≠ NodeType.StringTable) ∨
  (∃ n, br.readU24 (offset + 1) = .ok n ∧ br.mData.length < offset + 4 + 4 * (n + 1)) ∨
  (∃ n i word, br.readU24 (offset + 1) = .ok n ∧ i < n ∧
    br.read 4 (offset + 4 + 4 * i) = .ok word ∧
    (br.mData.length ≤ offset + word ∨
      ∀ q, offset + word ≤ q → q < br.mData.length → br.byte q ≠ .ok 0))

/-- The header alone, with the three offsets zero. -/
def emptyDocument : Buffer := [
  0x59, 0x42, 0x02, 0x00, 0x00, 0x00, 0x00, 0x00, 0x00, 0x00, 0x00, 0x00, 0x00, 0x00, 0x00, 0x00]

/-- The reader `Reader::Reader` builds on `emptyDocument`. -/
def emptyReader : Reader :=
  { mBuffer := emptyDocument, mHasValidHeader := true }

/-- A header whose root offset is the buffer size, one past the end. -/
def rootPastEndDocument : Buffer := [
  0x59, 0x42, 0x02, 0x00, 0x00, 0x00, 0x00, 0x00, 0x00, 0x00, 0x00, 0x00, 0x10, 0x00, 0x00, 0x00]

/-- The reader `Reader::Reader` builds on `rootPastEndDocument`. -/
def rootPastEndReader : Reader :=
  { mBuffer := rootPastEndDocument, mRootNodeOffset := 16, mHasValidHeader := true }

/-- A document whose string table at 16 holds one string, `hi`, that runs to the end of
the buffer without a NUL. -/
def unterminatedStringDocument : Buffer := [
  0x59, 0x42, 0x02, 0x00, 0x00, 0x00, 0x00, 0x00, 0x10, 0x00, 0x00, 0x00, 0x00, 0x00, 0x00, 0x00,
  0xc2, 0x01, 0x00, 0x00, 0x0c, 0x00, 0x00, 0x00, 0x0e, 0x00, 0x00, 0x00, 0x68, 0x69]

/-- The reader `Reader::Reader` builds on `unterminatedStringDocument`. -/
def unterminatedStringReader : Reader :=
  { mBuffer := unterminatedStringDocument, mStringTableOffset := 16, mHasValidHeader := true }

/-- A little-endian document whose root array at 16 holds four scalars: the Int `-1`, the
UInt `7`, the Float `1.5` and the Bool `true`. -/
def mixedScalarsDocument : Buffer := [
  0x59, 0x42, 0x02, 0x00, 0x00, 0x00, 0x00, 0x00, 0x00, 0x00, 0x00, 0x00, 0x10, 0x00, 0x00, 0x00,
  0xc0, 0x04, 0x00, 0x00, 0xd1, 0xd3, 0xd2, 0xd0, 0xff, 0xff, 0xff, 0xff, 0x07, 0x00, 0x00, 0x00,
  0x00, 0x00, 0xc0, 0x3f, 0x01, 0x00, 0x00, 0x00]

/-- The reader `Reader::Reader` builds on `mixedScalarsDocument`. -/
def mixedScalarsReader : Reader :=
  { mBuffer := mixedScalarsDocument, mRootNodeOffset := 16, mHasValidHeader := true }

/-- The root array of `mixedScalarsDocument`. -/
def mixedScalarsArray : Array :=
  { base := { mReader := mixedScalarsReader, mOffset := 16, mNumItems := 4 } }

/-- A little-endian document whose root array at 16 holds one Int64 item; its cell is the
offset 28 of the 8 bytes `00 00 00 00 00 00 00 80`, followed by one more byte. -/
def int64MinDocument : Buffer := [
  0x59, 0x42, 0x02, 0x00, 0x00, 0x00, 0x00, 0x00, 0x00, 0x00, 0x00, 0x00, 0x10, 0x00, 0x00, 0x00,
  0xc0, 0x01, 0x00, 0x00, 0xd4, 0x00, 0x00, 0x00, 0x1c, 0x00, 0x00, 0x00, 0x00, 0x00, 0x00, 0x00,
  0x00, 0x00, 0x00, 0x80, 0x00]

/-- The reader `Reader::Reader` builds on `int64MinDocument`. -/
def int64MinReader : Reader :=
  { mBuffer := int64MinDocument, mRootNodeOffset := 16, mHasValidHeader := true }

/-- The root array of `int64MinDocument`. -/
def int64MinArray : Array :=
  { base := { mReader := int64MinReader, mOffset := 16, mNumItems := 1 } }

/-- A little-endian document whose root array at 16 holds an Int64 item and a UInt64 item
that both point at the 8 bytes `ff ff ff ff ff ff ff ff` stored at 32, followed by one
more byte. -/
def allOnesDocument : Buffer := [
  0x59, 0x42, 0x02, 0x00, 0x00, 0x00, 0x00, 0x00, 0x00, 0x00, 0x00, 0x00, 0x10, 0x00, 0x00, 0x00,
  0xc0, 0x02, 0x00, 0x00, 0xd4, 0xd5, 0x00, 0x00, 0x20, 0x00, 0x00, 0x00, 0x20, 0x00, 0x00, 0x00,
  0xff, 0xff, 0xff, 0xff, 0xff, 0xff, 0xff, 0xff, 0x00]

/-- The reader `Reader::Reader` builds on `allOnesDocument`. -/
def allOnesReader : Reader :=
  { mBuffer := allOnesDocument, mRootNodeOffset := 16, mHasValidHeader := true }

/-- The root array of `allOnesDocument`. -/
def allOnesArray : Array :=
  { base := { mReader := allOnesReader, mOffset := 16, mNumItems := 2 } }

/-- A little-endian document of 20 bytes: the header and an empty root array at 16. -/
def emptyArrayDocument : Buffer := [
  0x59, 0x42, 0x02, 0x00, 0x00, 0x00, 0x00, 0x00, 0x00, 0x00, 0x00, 0x00, 0x10, 0x00, 0x00, 0x00,
  0xc0, 0x00, 0x00, 0x00]

/-- The reader `Reader::Reader` builds on `emptyArrayDocument`. -/
def emptyArrayReader : Reader :=
  { mBuffer := emptyArrayDocument, mRootNodeOffset := 16, mHasValidHeader := true }

/-- Number of bytes that follow the document in `paddedDocument`. -/
def paddingLength : Nat := 2 ^ 32 - 1

/-- The 20 bytes of `emptyArrayDocument` at the start of a buffer of `2 ^ 32 + 19` bytes;
the rest of the buffer is zero. -/
def paddedDocument : Buffer :=
  emptyArrayDocument ++ List.replicate paddingLength 0

/-- The reader `Reader::Reader` builds on `paddedDocument`. -/
def paddedReader : Reader :=
  { mBuffer := paddedDocument, mRootNodeOffset := 16, mHasValidHeader := true }

/-- The end of the container of a view, as its count declares it: `node + 4 +
round_up(N, 4) + 4 * N` for an array and `node + 4 + 8 * N` for a map. -/
def View.extent : View → Nat
  | .array a => a.base.mOffset + 4 + AlignUp a.base.numItems 4 + 4 * a.base.numItems
  | .hash h => h.base.mOffset + 4 + 8 * h.base.numItems

/-- The `n` bytes at `offset` of `L` are the `n` bytes at `offset` of `B` in reverse
order: the field of `n` bytes at `offset` is byte-reversed between the two buffers. For
`n = 1` the two buffers hold the same byte at `offset`. -/
@[reducible] def RevAt (B L : Buffer) (offset n : Nat) : Prop :=
  (L.drop offset).take n = ((B.drop offset).take n).reverse

/-- The two buffers hold the same string at `p`: the same bytes from `p` up to and
including the first NUL of `B`, or up to the end of the buffer when there is none. -/
@[reducible] def StringSame (B L : Buffer) (p : Nat) : Prop :=
  ∀ q, q < B.length → p ≤ q → (∀ k, k < q → p ≤ k → B.get? k ≠ some 0) →
    L.get? q = B.get? q

/-- The string table node at `table` of the big-endian buffer `B` and its counterpart in
`L`: the same tag byte, the count and the offset word of every string byte-reversed, and
the same strings. -/
def TableSwapped (B L : Buffer) (table : Nat) : Prop :=
  RevAt B L table 1 ∧ RevAt B L (table + 1) 3 ∧
  ∀ n, BinaryReader.readU24 { mData := B, mBigEndian := true } (table + 1) = .ok n →
    ∀ i, i < n → RevAt B L (table + 4 + 4 * i) 4 ∧
      ∀ word, BinaryReader.read { mData := B, mBigEndian := true } 4 (table + 4 + 4 * i)
          = .ok word → StringSame B L (table + word)

/-- The container node at `offset` of the big-endian buffer `B` and its counterpart in
`L`: the same tag byte and the count byte-reversed; when the node passes the header and
extent checks, for an array the same type bytes and every value word byte-reversed, for a
map the key index and the value word of every entry byte-reversed and the same type
byte. -/
def NodeSwapped (B L : Buffer) (reader : Reader) (offset : Nat) : Prop :=
  RevAt B L offset 1 ∧ RevAt B L (offset + 1) 3 ∧
  ∀ type n, reader.containerHeader offset = .ok (some (type, n)) → ∀ i, i < n →
    (type = NodeType.Array →
      RevAt B L (offset + 4 + i) 1 ∧ RevAt B L (offset + 4 + AlignUp n 4 + 4 * i) 4) ∧
    (type = NodeType.Hash →
      RevAt B L (offset + 4 + 8 * i) 3 ∧ RevAt B L (offset + 4 + 8 * i + 3) 1 ∧
      RevAt B L (offset + 4 + 8 * i + 4) 4)

/-- The buffer `L` is the little-endian counterpart of the big-endian buffer `B`, on which
`Reader::Reader` builds `reader`: the same size, the magic swapped, and every multi-byte
field that the header, the two string tables and the containers below the root hold
byte-reversed; the tag bytes, the type bytes and the strings are the same. -/
structure Counterpart (B L : Buffer) (reader : Reader) : Prop where
  size : L.length = B.length
  magicBig : B.take 2 = magicBigEndian
  magicLittle : L.take 2 = magicLittleEndian
  version : RevAt B L 2 2
  hashKeyTableOffset : RevAt B L 4 4
  stringTableOffset : RevAt B L 8 4
  rootNodeOffset : RevAt B L 12 4
  hashKeyTable : reader.mHashKeyTableOffset ≠ 0 → TableSwapped B L reader.mHashKeyTableOffset
  stringTable : reader.mStringTableOffset ≠ 0 → TableSwapped B L reader.mStringTableOffset
  nodes : reader.mRootNodeOffset ≠ 0 → ∀ offset, reader.Reaches offset →
    NodeSwapped B L reader offset

/-- The big-endian counterpart of `sampleDocument`. -/
def sampleDocumentBE : Buffer := [
  0x42, 0x59, 0x00, 0x02, 0x00, 0x00, 0x00, 0x10, 0x00, 0x00, 0x00, 0x24, 0x00, 0x00, 0x00, 0x34,
  0xc2, 0x00, 0x00, 0x02, 0x00, 0x00, 0x00, 0x10, 0x00, 0x00, 0x00, 0x12, 0x00, 0x00, 0x00, 0x14,
  0x61, 0x00, 0x62, 0x00, 0xc2, 0x00, 0x00, 0x01, 0x00, 0x00, 0x00, 0x0c, 0x00, 0x00, 0x00, 0x0f,
  0x68, 0x69, 0x00, 0x00, 0xc1, 0x00, 0x00, 0x02, 0x00, 0x00, 0x00, 0xa0, 0x00, 0x00, 0x00, 0x00,
  0x00, 0x00, 0x01, 0xc0, 0x00, 0x00, 0x00, 0x48, 0xc0, 0x00, 0x00, 0x02, 0xd4, 0xd1, 0x00, 0x00,
  0x00, 0x00, 0x00, 0x58, 0x00, 0x00, 0x00, 0x05, 0xff, 0xff, 0xff, 0xff, 0xff, 0xff, 0xff, 0xfe,
  0x00]

/-- The reader `Reader::Reader` builds on `sampleDocumentBE`. -/
def sampleReaderBE : Reader :=
  { mBuffer := sampleDocumentBE, mHashKeyTableOffset := 16, mStringTableOffset := 36,
    mRootNodeOffset := 52, mHasValidHeader := true, mBigEndian := true }

/-- Number of bytes that follow the document in `paddedWideDocument`. -/
def widePaddingLength : Nat := 2 ^ 32 - 9

/-- The 37 bytes of `int64MinDocument` at the start of a buffer of `2 ^ 32 + 28` bytes; the
rest of the buffer is zero. The 8 bytes of the Int64 item, at 28..35, are inside it. -/
def paddedWideDocument : Buffer :=
  int64MinDocument ++ List.replicate widePaddingLength 0

/-- The reader `Reader::Reader` builds on `paddedWideDocument`. -/
def paddedWideReader : Reader :=
  { mBuffer := paddedWideDocument, mRootNodeOffset := 16, mHasValidHeader := true }

/-- A little-endian document of 36 bytes whose root array at 16 holds one Int64 item; the
8 bytes of its value, at 28..35, end exactly at the end of the buffer. -/
def wideAtEndDocument : Buffer := [
  0x59, 0x42, 0x02, 0x00, 0x00, 0x00, 0x00, 0x00, 0x00, 0x00, 0x00, 0x00, 0x10, 0x00, 0x00, 0x00,
  0xc0, 0x01, 0x00, 0x00, 0xd4, 0x00, 0x00, 0x00, 0x1c, 0x00, 0x00, 0x00, 0x00, 0x00, 0x00, 0x00,
  0x00, 0x00, 0x00, 0x80]

/-- The reader `Reader::Reader` builds on `wideAtEndDocument`. -/
def wideAtEndReader : Reader :=
  { mBuffer := wideAtEndDocument, mRootNodeOffset := 16, mHasValidHeader := true }

/-! # Lemmas -/

@[simp] theorem Res.pure_eq_ok {α : Type} (a : α) : (pure a : Res α) = Res.ok a := rfl
@[simp] theorem Res.ok_bind {α β : Type} (a : α) (f : α → Res β) : (Res.ok a >>= f) = f a := rfl
@[simp] theorem Res.fault_bind {α β : Type} (e : Fault) (f : α → Res β) :
    (Res.fault e >>= f) = Res.fault e := rfl

theorem Res.bind_eq_ok {α β : Type} {x : Res α} {f : α → Res β} {b : β} :
    (x >>= f) = Res.ok b ↔ ∃ a, x = Res.ok a ∧ f a = Res.ok b := by
  cases x <;> simp

theorem add64_eq_ok {a b c : Nat} : add64 a b = Res.ok c ↔ a + b < 2 ^ 64 ∧ c = a + b := by
  unfold add64; split <;> simp_all [eq_comm]

theorem mul32_eq_ok {a b c : Nat} : mul32 a b = Res.ok c ↔ a * b < 2 ^ 32 ∧ c = a * b := by
  unfold mul32; split <;> simp_all [eq_comm]

theorem add32_of_lt {a b : Nat} (h : a + b < 2 ^ 32) : add32 a b = Res.ok (a + b) := by
  unfold add32; rw [if_pos h]

theorem add64_of_lt {a b : Nat} (h : a + b < 2 ^ 64) : add64 a b = Res.ok (a + b) := by
  unfold add64; rw [if_pos h]

theorem mul32_of_lt {a b : Nat} (h : a * b < 2 ^ 32) : mul32 a b = Res.ok (a * b) := by
  unfold mul32; rw [if_pos h]

/-! ### Bytes -/

theorem byte_of_lt (br : BinaryReader) {o : Nat} (h : o < br.mData.length) :
    ∃ b, br.byte o = Res.ok b ∧ b < 256 := by
  unfold BinaryReader.byte
  rw [List.get?_eq_get h]
  exact ⟨_, rfl, (br.mData.get ⟨o, h⟩).isLt⟩

theorem byte_eq_ok {br : BinaryReader} {o b : Nat} (h : br.byte o = Res.ok b) :
    o < br.mData.length ∧ b < 256 := by
  unfold BinaryReader.byte at h
  cases hg : br.mData.get? o with
  | none => rw [hg] at h; cases h
  | some x =>
    rw [hg] at h
    cases h
    exact ⟨(List.get?_eq_some.mp hg).1, x.isLt⟩

theorem byte_of_ge (br : BinaryReader) {o : Nat} (h : br.mData.length ≤ o) :
    br.byte o = Res.fault Fault.oob := by
  unfold BinaryReader.byte
  rw [List.get?_eq_none.mpr h]

theorem bytes_of_le (br : BinaryReader) (n : Nat) : ∀ (o : Nat), o + n ≤ br.mData.length →
    ∃ bs, br.bytes o n = Res.ok bs ∧ bs.length = n ∧ ∀ b ∈ bs, b < 256 := by
  induction n with
  | zero => intro o _; exact ⟨[], rfl, rfl, by simp⟩
  | succ n ih =>
    intro o h
    obtain ⟨b, hb, hlt⟩ := byte_of_lt br (show o < br.mData.length by omega)
    obtain ⟨bs, hbs, hlen, hall⟩ := ih (o + 1) (by omega)
    refine ⟨b :: bs, ?_, by simp [hlen], ?_⟩
    · simp [BinaryReader.bytes, hb, hbs]
    · intro x hx
      rcases List.mem_cons.mp hx with rfl | hx
      · exact hlt
      · exact hall x hx

theorem bytes_eq_ok {br : BinaryReader} : ∀ {n o : Nat} {bs : List Nat},
    br.bytes o n = Res.ok bs →
    bs.length = n ∧ (∀ b ∈ bs, b < 256) ∧ (0 < n → o + n ≤ br.mData.length) := by
  intro n
  induction n with
  | zero =>
    intro o bs h
    simp [BinaryReader.bytes] at h
    subst h
    simp
  | succ n ih =>
    intro o bs h
    simp only [BinaryReader.bytes, Res.bind_eq_ok, Res.pure_eq_ok] at h
    obtain ⟨b, hb, bs', hbs, hcons⟩ := h
    cases hcons
    obtain ⟨hlen, hall, hle⟩ := ih hbs
    obtain ⟨hlt, hb256⟩ := byte_eq_ok hb
    refine ⟨by simp [hlen], ?_, ?_⟩
    · intro x hx
      rcases List.mem_cons.mp hx with rfl | hx
      · exact hb256
      · exact hall x hx
    · intro _
      rcases Nat.eq_zero_or_pos n with h0 | hpos
      · omega
      · have := hle hpos; omega

theorem bytes_fault {br : BinaryReader} : ∀ {n o : Nat} {f : Fault},
    br.bytes o n = Res.fault f → f = Fault.oob ∧ br.mData.length < o + n := by
  intro n
  induction n with
  | zero => intro o f h; simp [BinaryReader.bytes] at h
  | succ n ih =>
    intro o f h
    rcases Nat.lt_or_ge o br.mData.length with hlt | hge
    · obtain ⟨b, hb, _⟩ := byte_of_lt br hlt
      simp only [BinaryReader.bytes, hb, Res.ok_bind] at h
      cases hbs : br.bytes (o + 1) n with
      | ok bs => simp [hbs] at h
      | fault g =>
        simp only [hbs, Res.fault_bind] at h
        cases h
        have := ih hbs
        exact ⟨this.1, by omega⟩
    · simp only [BinaryReader.bytes, byte_of_ge br hge, Res.fault_bind] at h
      cases h
      exact ⟨rfl, by omega⟩

theorem fromBigEndian_lt : ∀ (bs : List Nat), (∀ b ∈ bs, b < 256) →
    fromBigEndian bs < 256 ^ bs.length := by
  intro bs
  unfold fromBigEndian
  suffices h : ∀ (acc k : Nat), acc < 256 ^ k → (∀ b ∈ bs, b < 256) →
      bs.foldl (fun acc b => acc * 256 + b) acc < 256 ^ (k + bs.length) by
    intro hall
    have := h 0 0 (by simp) hall
    simpa using this
  induction bs with
  | nil => intro acc k h _; simpa using h
  | cons b bs ih =>
    intro acc k h hall
    have hb : b < 256 := hall b (by simp)
    have := ih (acc * 256 + b) (k + 1) (by rw [pow_succ]; omega)
      (fun x hx => hall x (by simp [hx]))
    simp only [List.foldl_cons, List.length_cons]
    have e : k + (bs.length + 1) = k + 1 + bs.length := by omega
    rw [e]
    exact this

theorem fromLittleEndian_lt : ∀ (bs : List Nat), (∀ b ∈ bs, b < 256) →
    fromLittleEndian bs < 256 ^ bs.length := by
  intro bs
  unfold fromLittleEndian
  induction bs with
  | nil => intro _; simp
  | cons b bs ih =>
    intro hall
    have hb : b < 256 := hall b (by simp)
    have := ih (fun x hx => hall x (by simp [hx]))
    simp only [List.foldr_cons, List.length_cons]
    rw [pow_succ]
    omega

theorem read_eq_ok {br : BinaryReader} {n o v : Nat} (h : br.read n o = Res.ok v) :
    v < 256 ^ n ∧ (0 < n → o + n ≤ br.mData.length) := by
  simp only [BinaryReader.read, Res.bind_eq_ok, Res.pure_eq_ok] at h
  obtain ⟨bs, hbs, hv⟩ := h
  obtain ⟨hlen, hall, hle⟩ := bytes_eq_ok hbs
  cases hv
  refine ⟨?_, hle⟩
  split
  · simpa [hlen] using fromBigEndian_lt bs hall
  · simpa [hlen] using fromLittleEndian_lt bs hall

theorem read_of_le (br : BinaryReader) {n o : Nat} (h : o + n ≤ br.mData.length) :
    ∃ v, br.read n o = Res.ok v ∧ v < 256 ^ n := by
  obtain ⟨bs, hbs, _, _⟩ := bytes_of_le br n o h
  have : ∃ v, br.read n o = Res.ok v := by
    simp [BinaryReader.read, hbs]
  obtain ⟨v, hv⟩ := this
  exact ⟨v, hv, (read_eq_ok hv).1⟩

theorem readU24_eq_ok {br : BinaryReader} {o v : Nat} (h : br.readU24 o = Res.ok v) :
    v < 2 ^ 24 ∧ o + 3 ≤ br.mData.length := by
  simp only [BinaryReader.readU24, Res.bind_eq_ok] at h
  obtain ⟨b0, h0, b1, h1, b2, h2, hv⟩ := h
  obtain ⟨_, l0⟩ := byte_eq_ok h0
  obtain ⟨_, l1⟩ := byte_eq_ok h1
  obtain ⟨hlt, l2⟩ := byte_eq_ok h2
  refine ⟨?_, by omega⟩
  have s0 : b0 <<< 16 < 2 ^ 24 := by rw [Nat.shiftLeft_eq]; omega
  have s1 : b1 <<< 8 < 2 ^ 24 := by rw [Nat.shiftLeft_eq]; omega
  have s2 : b2 <<< 16 < 2 ^ 24 := by rw [Nat.shiftLeft_eq]; omega
  have t0 : b0 < 2 ^ 24 := by omega
  have t2 : b2 < 2 ^ 24 := by omega
  split at hv <;> cases hv
  · exact Nat.or_lt_two_pow (Nat.or_lt_two_pow s0 s1) t2
  · exact Nat.or_lt_two_pow (Nat.or_lt_two_pow s2 s1) t0

theorem readU24_of_le (br : BinaryReader) {o : Nat} (h : o + 3 ≤ br.mData.length) :
    ∃ v, br.readU24 o = Res.ok v ∧ v < 2 ^ 24 := by
  obtain ⟨b0, h0, _⟩ := byte_of_lt br (show o < br.mData.length by omega)
  obtain ⟨b1, h1, _⟩ := byte_of_lt br (show o + 1 < br.mData.length by omega)
  obtain ⟨b2, h2, _⟩ := byte_of_lt br (show o + 2 < br.mData.length by omega)
  have : ∃ v, br.readU24 o = Res.ok v := by
    simp only [BinaryReader.readU24, h0, h1, h2, Res.ok_bind]
    split <;> exact ⟨_, rfl⟩
  obtain ⟨v, hv⟩ := this
  exact ⟨v, hv, (readU24_eq_ok hv).1⟩


/-! ### Safe runs -/

theorem Res.safe_ok {α : Type} (a : α) : (Res.ok a).Safe := by
  constructor <;> intro h <;> cases h

theorem Res.safe_of_eq_ok {α : Type} {x : Res α} {a : α} (h : x = Res.ok a) : x.Safe := by
  rw [h]; exact Res.safe_ok a

theorem Res.safe_fuel {α : Type} : (Res.fault Fault.fuel : Res α).Safe := by
  constructor <;> intro h <;> cases h

theorem Res.safe_bind {α β : Type} {x : Res α} {f : α → Res β} (hx : x.Safe)
    (hf : ∀ a, x = Res.ok a → (f a).Safe) : (x >>= f).Safe := by
  cases x with
  | ok a => exact hf a rfl
  | fault e =>
    constructor
    · intro h
      simp only [Res.fault_bind] at h
      cases h
      exact hx.1 rfl
    · intro h
      simp only [Res.fault_bind] at h
      cases h
      exact hx.2 rfl

/-! ### The loop over the items -/

theorem forAllItems_eq_ok_true {body : Nat → Res Bool} : ∀ {n i : Nat},
    forAllItems body i n = Res.ok true ↔ ∀ j, i ≤ j → j < i + n → body j = Res.ok true := by
  intro n
  induction n with
  | zero => intro i; simp [forAllItems]; intro j h1 h2; omega
  | succ n ih =>
    intro i
    simp only [forAllItems]
    constructor
    · intro h j h1 h2
      cases hb : body i with
      | fault e => simp [hb] at h
      | ok b =>
        cases b with
        | false => simp [hb] at h
        | true =>
          simp only [hb, Res.ok_bind] at h
          rcases Nat.eq_or_lt_of_le h1 with rfl | hlt
          · exact hb
          · exact (ih.mp (by simpa using h)) j hlt (by omega)
    · intro h
      have hi := h i (Nat.le_refl i) (by omega)
      simp only [hi, Res.ok_bind]
      have := (ih (i := i + 1)).mpr (fun j h1 h2 => h j (by omega) (by omega))
      simpa using this

theorem forAllItems_safe {body : Nat → Res Bool} : ∀ {n i : Nat},
    (∀ j, i ≤ j → j < i + n → (body j).Safe) → (forAllItems body i n).Safe := by
  intro n
  induction n with
  | zero => intro i _; exact Res.safe_ok true
  | succ n ih =>
    intro i h
    simp only [forAllItems]
    refine Res.safe_bind (h i (Nat.le_refl i) (by omega)) ?_
    intro b _
    cases b with
    | false => exact Res.safe_ok false
    | true => simpa using ih (fun j h1 h2 => h j (by omega) (by omega))

theorem forAllItems_total {body : Nat → Res Bool} : ∀ {n i : Nat},
    (∀ j, i ≤ j → j < i + n → ∃ b, body j = Res.ok b) → ∃ b, forAllItems body i n = Res.ok b := by
  intro n
  induction n with
  | zero => intro i _; exact ⟨true, rfl⟩
  | succ n ih =>
    intro i h
    obtain ⟨b, hb⟩ := h i (Nat.le_refl i) (by omega)
    simp only [forAllItems, hb, Res.ok_bind]
    cases b with
    | false => exact ⟨false, rfl⟩
    | true => simpa using ih (fun j h1 h2 => h j (by omega) (by omega))

theorem forAllItems_mono {body body' : Nat → Res Bool} : ∀ {n i : Nat} {r : Bool},
    (∀ j b, i ≤ j → j < i + n → body j = Res.ok b → body' j = Res.ok b) →
    forAllItems body i n = Res.ok r → forAllItems body' i n = Res.ok r := by
  intro n
  induction n with
  | zero => intro i r _ h; exact h
  | succ n ih =>
    intro i r hmono h
    simp only [forAllItems] at h ⊢
    cases hb : body i with
    | fault e => simp [hb] at h
    | ok b =>
      rw [hmono i b (Nat.le_refl i) (by omega) hb]
      simp only [hb, Res.ok_bind] at h ⊢
      cases b with
      | false => exact h
      | true =>
        simp only [Bool.not_true] at h ⊢
        exact ih (fun j b h1 h2 => hmono j b (by omega) (by omega)) h

theorem AlignUp_four (n : Nat) : n ≤ AlignUp n 4 ∧ AlignUp n 4 ≤ n + 3 ∧ AlignUp n 4 % 4 = 0 := by
  unfold AlignUp
  omega


/-! ### String tables -/

theorem strnlen_total (br : BinaryReader) : ∀ (maxLen p : Nat), p + maxLen ≤ br.mData.length →
    ∃ n, br.strnlen p maxLen = Res.ok n ∧ n ≤ maxLen ∧
      (n < maxLen → br.byte (p + n) = Res.ok 0) := by
  intro maxLen
  induction maxLen with
  | zero => intro p _; exact ⟨0, rfl, Nat.le_refl 0, fun h => absurd h (Nat.lt_irrefl 0)⟩
  | succ m ih =>
    intro p h
    obtain ⟨b, hb, _⟩ := byte_of_lt br (show p < br.mData.length by omega)
    by_cases hz : b = 0
    · subst hz
      refine ⟨0, ?_, Nat.zero_le _, fun _ => hb⟩
      simp [BinaryReader.strnlen, hb]
    · obtain ⟨n, hn, hle, hnul⟩ := ih (p + 1) (by omega)
      refine ⟨n + 1, ?_, by omega, ?_⟩
      · simp [BinaryReader.strnlen, hb, hz, hn]
      · intro hlt
        have := hnul (by omega)
        rwa [show p + (n + 1) = p + 1 + n by omega]

theorem cstrAt_of_byte_zero (br : BinaryReader) {p q : Nat} (hpq : p ≤ q)
    (hq : br.byte q = Res.ok 0) : ∃ s, br.cstrAt p = Res.ok s := by
  unfold BinaryReader.cstrAt
  have hmem : (0 : Fin 256) ∈ br.mData.drop p := by
    unfold BinaryReader.byte at hq
    cases hg : br.mData.get? q with
    | none => rw [hg] at hq; cases hq
    | some x =>
      rw [hg] at hq
      have hx : x = 0 := by
        injection hq with hq
        exact Fin.ext hq
      subst hx
      have hlt : q < br.mData.length := (List.get?_eq_some.mp hg).1
      rw [List.mem_iff_get?]
      refine ⟨q - p, ?_⟩
      rw [List.get?_eq_getElem?, List.getElem?_drop, ← List.get?_eq_getElem?]
      rw [show p + (q - p) = q by omega]
      exact hg
  rw [if_pos hmem]
  exact ⟨_, rfl⟩

theorem getStringOffset_of_le (br : BinaryReader) {tableOffset idx : Nat}
    (ht : tableOffset < 2 ^ 32) (hi : idx < 2 ^ 24)
    (hle : tableOffset + 4 + 4 * idx + 4 ≤ br.mData.length) :
    ∃ w, br.read 4 (tableOffset + 4 + 4 * idx) = Res.ok w ∧ w < 2 ^ 32 ∧
      util.getStringOffset br tableOffset idx = Res.ok (tableOffset + w) := by
  obtain ⟨w, hw, hlt⟩ := read_of_le br hle
  have hlt' : w < 2 ^ 32 := by
    have : (256 : Nat) ^ 4 = 2 ^ 32 := by norm_num
    omega
  refine ⟨w, hw, hlt', ?_⟩
  unfold util.getStringOffset
  rw [add64_of_lt (by omega), Res.ok_bind, Nat.mod_eq_of_lt (show 4 * idx < 2 ^ 32 by omega),
    add64_of_lt (by omega), Res.ok_bind, hw, Res.ok_bind, add64_of_lt (by omega)]

/-- What a returned string offset says: the offset word was read inside the buffer, at the
index scaled in `u32`. -/
theorem getStringOffset_eq_ok_wrap {br : BinaryReader} {tableOffset idx p : Nat}
    (h : util.getStringOffset br tableOffset idx = Res.ok p) :
    ∃ w, br.read 4 (tableOffset + 4 + (4 * idx) % 2 ^ 32) = Res.ok w ∧ p = tableOffset + w ∧
      tableOffset + 4 + (4 * idx) % 2 ^ 32 + 4 ≤ br.mData.length := by
  simp only [util.getStringOffset, Res.bind_eq_ok, add64_eq_ok] at h
  obtain ⟨a, ⟨_, rfl⟩, c, ⟨_, rfl⟩, w, hw, _, rfl⟩ := h
  exact ⟨w, hw, rfl, (read_eq_ok hw).2 (by norm_num)⟩

theorem getStringOffset_eq_ok {br : BinaryReader} {tableOffset idx p : Nat}
    (hi : idx < 2 ^ 30) (h : util.getStringOffset br tableOffset idx = Res.ok p) :
    ∃ w, br.read 4 (tableOffset + 4 + 4 * idx) = Res.ok w ∧ p = tableOffset + w ∧
      tableOffset + 4 + 4 * idx + 4 ≤ br.mData.length := by
  have := getStringOffset_eq_ok_wrap h
  rw [Nat.mod_eq_of_lt (show 4 * idx < 2 ^ 32 by omega)] at this
  exact this

/-- The string offset is returned whenever the offset word, at the index scaled in `u32`,
is inside the buffer. -/
theorem getStringOffset_of_fit (br : BinaryReader) {tableOffset idx : Nat}
    (ht : tableOffset < 2 ^ 32)
    (hle : tableOffset + 4 + (4 * idx) % 2 ^ 32 + 4 ≤ br.mData.length) :
    ∃ w, br.read 4 (tableOffset + 4 + (4 * idx) % 2 ^ 32) = Res.ok w ∧
      util.getStringOffset br tableOffset idx = Res.ok (tableOffset + w) := by
  obtain ⟨w, hw, hlt⟩ := read_of_le br hle
  have hlt' : w < 2 ^ 32 := by
    have : (256 : Nat) ^ 4 = 2 ^ 32 := by norm_num
    omega
  have hmod := Nat.mod_lt (4 * idx) (show 0 < 2 ^ 32 by norm_num)
  refine ⟨w, hw, ?_⟩
  unfold util.getStringOffset
  rw [add64_of_lt (by omega), Res.ok_bind, add64_of_lt (by omega), Res.ok_bind, hw,
    Res.ok_bind, add64_of_lt (by omega)]

theorem checkStringTableEntry_total (ctx : NodeCheckContext) {offset i : Nat}
    (hbs : ctx.bufferSize ≤ ctx.br.mData.length)
    (ht : offset < 2 ^ 32) (hi : i < 2 ^ 24)
    (hle : offset + 4 + 4 * i + 4 ≤ ctx.br.mData.length) :
    ∃ b, checkStringTableEntry ctx offset i = Res.ok b := by
  obtain ⟨w, _, _, hp⟩ := getStringOffset_of_le ctx.br ht hi hle
  unfold checkStringTableEntry
  rw [hp, Res.ok_bind]
  split
  · exact ⟨false, rfl⟩
  · rename_i hlt
    obtain ⟨n, hn, _, _⟩ := strnlen_total ctx.br (ctx.bufferSize - (offset + w)) (offset + w)
      (by omega)
    simp only [BinaryReader.getString, hn, Res.ok_bind]
    split
    · exact ⟨false, rfl⟩
    · exact ⟨true, rfl⟩

theorem checkStringTableEntry_eq_ok_true {ctx : NodeCheckContext} {offset i : Nat}
    (hbs : ctx.bufferSize ≤ ctx.br.mData.length)
    (h : checkStringTableEntry ctx offset i = Res.ok true) :
    ∃ p, util.getStringOffset ctx.br offset i = Res.ok p ∧ p < ctx.bufferSize ∧
      ∃ q, p ≤ q ∧ q < ctx.bufferSize ∧ ctx.br.byte q = Res.ok 0 := by
  unfold checkStringTableEntry at h
  cases hp : util.getStringOffset ctx.br offset i with
  | fault e => simp [hp] at h
  | ok p =>
    simp only [hp, Res.ok_bind] at h
    split at h
    · cases h
    · rename_i hlt
      obtain ⟨n, hn, hle, hnul⟩ := strnlen_total ctx.br (ctx.bufferSize - p) p (by omega)
      simp only [BinaryReader.getString, hn, Res.ok_bind] at h
      split at h
      · cases h
      · rename_i hne
        exact ⟨p, rfl, by omega, p + n, by omega, by omega, hnul (by omega)⟩

/-- Outcome of `checkStringTable`: it always returns, and a `true` says what was checked. -/
theorem checkStringTable_spec (ctx : NodeCheckContext) {offset : Nat} (numItems : Nat)
    (hbs : ctx.bufferSize ≤ ctx.br.mData.length) (ht : offset < 2 ^ 32) :
    ∃ b n, checkStringTable ctx offset numItems = Res.ok (b, n) ∧
      (b = true → ctx.br.readU24 (offset + 1) = Res.ok n ∧ n < 2 ^ 24 ∧
        offset + 4 + 4 * (n + 1) ≤ ctx.bufferSize ∧
        (∀ i, i < n → checkStringTableEntry ctx offset i = Res.ok true) ∧
        ctx.br.read 1 offset = Res.ok NodeType.StringTable) := by
  unfold checkStringTable
  rw [add64_of_lt (by omega), Res.ok_bind]
  split
  · exact ⟨false, numItems, rfl, by simp⟩
  · rename_i h4
    obtain ⟨t, htag, _⟩ := read_of_le ctx.br (show offset + 1 ≤ ctx.br.mData.length by omega)
    rw [htag, Res.ok_bind]
    split
    · exact ⟨false, numItems, rfl, by simp⟩
    · rename_i htag'
      have htag' : t = NodeType.StringTable := by simpa using htag'
      rw [add64_of_lt (by omega), Res.ok_bind]
      obtain ⟨n, hn, hn24⟩ := readU24_of_le ctx.br
        (show offset + 1 + 3 ≤ ctx.br.mData.length by omega)
      rw [hn, Res.ok_bind, add32_of_lt (by omega), Res.ok_bind, mul32_of_lt (by omega),
        Res.ok_bind, add64_of_lt (by omega), Res.ok_bind]
      split
      · exact ⟨false, n, rfl, by simp⟩
      · rename_i hend
        obtain ⟨b, hb⟩ := @forAllItems_total (checkStringTableEntry ctx offset) n 0
          (fun j _ hj => checkStringTableEntry_total ctx hbs ht (by omega) (by omega))
        rw [hb, Res.ok_bind]
        refine ⟨b, n, rfl, ?_⟩
        intro hbt
        subst hbt
        refine ⟨rfl, hn24, by omega, ?_, by rw [htag']⟩
        intro i hi
        exact forAllItems_eq_ok_true.mp hb i (Nat.zero_le i) (by omega)


/-! ### Container nodes -/

theorem pow_256_four : (256 : Nat) ^ 4 = 2 ^ 32 := by norm_num

theorem readContainerSize_eq_ok {br : BinaryReader} {offset n : Nat}
    (h : util.readContainerSize br offset = Res.ok n) :
    br.readU24 (offset + 1) = Res.ok n ∧ n < 2 ^ 24 ∧ offset + 4 ≤ br.mData.length := by
  simp only [util.readContainerSize, Res.bind_eq_ok, add64_eq_ok] at h
  obtain ⟨a, ⟨_, rfl⟩, hn⟩ := h
  have := readU24_eq_ok hn
  exact ⟨hn, this.1, by omega⟩

theorem readContainerSize_of_le (br : BinaryReader) {offset : Nat} (ht : offset < 2 ^ 32)
    (hle : offset + 4 ≤ br.mData.length) :
    ∃ n, util.readContainerSize br offset = Res.ok n ∧ n < 2 ^ 24 := by
  obtain ⟨n, hn, hlt⟩ := readU24_of_le br (show offset + 1 + 3 ≤ br.mData.length by omega)
  refine ⟨n, ?_, hlt⟩
  unfold util.readContainerSize
  rw [add64_of_lt (by omega), Res.ok_bind, hn]

theorem readArrayItem_of_le (br : BinaryReader) {typesOffset valuesOffset idx : Nat}
    (ht : typesOffset < 2 ^ 33) (hv : valuesOffset < 2 ^ 34) (hi : idx < 2 ^ 24)
    (h1 : typesOffset + idx + 1 ≤ br.mData.length)
    (h2 : valuesOffset + 4 * idx + 4 ≤ br.mData.length) :
    ∃ item, util.readArrayItem br typesOffset valuesOffset idx = Res.ok item ∧
      item.raw < 2 ^ 32 ∧ item.type < 256 ∧
      br.read 4 (valuesOffset + 4 * idx) = Res.ok item.raw ∧
      br.read 1 (typesOffset + idx) = Res.ok item.type := by
  obtain ⟨raw, hraw, hlt⟩ := read_of_le br h2
  obtain ⟨type, htype, hlt'⟩ := read_of_le br h1
  rw [pow_256_four] at hlt
  refine ⟨{ raw := raw, type := type }, ?_, hlt, by simpa using hlt', hraw, htype⟩
  unfold util.readArrayItem
  rw [mul32_of_lt (by omega), Res.ok_bind, add64_of_lt (by omega), Res.ok_bind, hraw,
    Res.ok_bind, add64_of_lt (by omega), Res.ok_bind, htype]
  rfl

theorem readHashItemWithItemOffset_of_le (br : BinaryReader) {itemOffset : Nat}
    (ht : itemOffset < 2 ^ 34) (hle : itemOffset + 8 ≤ br.mData.length) :
    ∃ item, util.readHashItemWithItemOffset br itemOffset = Res.ok item ∧
      item.keyIndex < 2 ^ 24 ∧ item.data.raw < 2 ^ 32 ∧ item.data.type < 256 := by
  obtain ⟨k, hk, hk24⟩ := readU24_of_le br (show itemOffset + 3 ≤ br.mData.length by omega)
  obtain ⟨type, htype, hlt'⟩ := read_of_le br (show itemOffset + 3 + 1 ≤ br.mData.length by omega)
  obtain ⟨raw, hraw, hlt⟩ := read_of_le br (show itemOffset + 4 + 4 ≤ br.mData.length by omega)
  rw [pow_256_four] at hlt
  refine ⟨{ keyIndex := k, data := { raw := raw, type := type } }, ?_, hk24, hlt,
    by simpa using hlt'⟩
  unfold util.readHashItemWithItemOffset
  rw [hk, Res.ok_bind, add64_of_lt (by omega), Res.ok_bind, htype, Res.ok_bind,
    add64_of_lt (by omega), Res.ok_bind, hraw]
  rfl

theorem getHashItemOffset_of_lt {offset idx : Nat} (ht : offset < 2 ^ 32) (hi : idx < 2 ^ 24) :
    util.getHashItemOffset offset idx = Res.ok (offset + 4 + 8 * idx) := by
  unfold util.getHashItemOffset util.getHashItemsOffset
  rw [add64_of_lt (by omega), Res.ok_bind, mul32_of_lt (by omega), Res.ok_bind,
    add64_of_lt (by omega)]

theorem getArrayValuesOffset_of_lt {offset n : Nat} (ht : offset < 2 ^ 32) (hn : n < 2 ^ 24) :
    util.getArrayValuesOffset offset n = Res.ok (offset + 4 + AlignUp n 4) := by
  have := AlignUp_four n
  unfold util.getArrayValuesOffset util.getArrayTypesOffset
  rw [add64_of_lt (by omega), Res.ok_bind, add64_of_lt (by omega)]

theorem checkArrayNode_spec (ctx : NodeCheckContext)
    {offset : Nat} (hbs : ctx.bufferSize ≤ ctx.br.mData.length) (ht : offset < 2 ^ 32) :
    (∀ chk, checkArrayNode chk ctx offset = Res.ok false) ∨
    ∃ n, ctx.br.read 1 offset = Res.ok NodeType.Array ∧
      util.readContainerSize ctx.br offset = Res.ok n ∧ n < 2 ^ 24 ∧
      offset + 4 + AlignUp n 4 + 4 * n ≤ ctx.bufferSize ∧
      (∀ i, i < n → ∃ item,
        util.readArrayItem ctx.br (offset + 4) (offset + 4 + AlignUp n 4) i = Res.ok item ∧
        item.raw < 2 ^ 32 ∧ item.type < 256) ∧
      ∀ chk, checkArrayNode chk ctx offset = forAllItems (arrayBody chk ctx.br offset n) 0 n := by
  have e1 : add64 offset 4 = Res.ok (offset + 4) := add64_of_lt (by omega)
  by_cases h4 : ctx.bufferSize < offset + 4
  · left
    intro chk
    simp only [checkArrayNode, e1, Res.ok_bind, if_pos h4, Res.pure_eq_ok]
  · obtain ⟨t, htag, _⟩ := read_of_le ctx.br (show offset + 1 ≤ ctx.br.mData.length by omega)
    by_cases hA : t = NodeType.Array
    · subst hA
      obtain ⟨n, hn, hn24⟩ := readContainerSize_of_le ctx.br ht
        (show offset + 4 ≤ ctx.br.mData.length by omega)
      have hal := AlignUp_four n
      have e2 : util.getArrayTypesOffset offset = Res.ok (offset + 4) := e1
      have e3 := getArrayValuesOffset_of_lt ht hn24
      have e4 : mul32 4 n = Res.ok (4 * n) := mul32_of_lt (by omega)
      have e5 : add64 (offset + 4 + AlignUp n 4) (4 * n)
          = Res.ok (offset + 4 + AlignUp n 4 + 4 * n) := add64_of_lt (by omega)
      by_cases hend : ctx.bufferSize < offset + 4 + AlignUp n 4 + 4 * n
      · left
        intro chk
        simp only [checkArrayNode, e1, Res.ok_bind, if_neg h4, htag, ne_eq, not_true_eq_false,
          if_false, hn, e2, e3, e4, e5, if_pos hend, Res.pure_eq_ok]
      · refine Or.inr ⟨n, htag, hn, hn24, by omega, ?_, ?_⟩
        · intro i hi
          obtain ⟨item, h1, h2, h3, _⟩ := @readArrayItem_of_le ctx.br
            (offset + 4) (offset + 4 + AlignUp n 4) i
            (by omega) (by omega) (by omega) (by omega) (by omega)
          exact ⟨item, h1, h2, h3⟩
        · intro chk
          simp only [checkArrayNode, e1, Res.ok_bind, if_neg h4, htag, ne_eq, not_true_eq_false,
            if_false, hn, e2, e3, e4, e5, if_neg hend]
          rfl
    · left
      intro chk
      simp only [checkArrayNode, e1, Res.ok_bind, if_neg h4, htag, ne_eq, hA, not_false_eq_true,
        if_true, Res.pure_eq_ok]

theorem checkHashNode_spec (ctx : NodeCheckContext)
    {offset : Nat} (hbs : ctx.bufferSize ≤ ctx.br.mData.length) (ht : offset < 2 ^ 32) :
    (∀ chk, checkHashNode chk ctx offset = Res.ok false) ∨
    ∃ n, ctx.br.read 1 offset = Res.ok NodeType.Hash ∧
      util.readContainerSize ctx.br offset = Res.ok n ∧ n < 2 ^ 24 ∧
      offset + 4 + 8 * n ≤ ctx.bufferSize ∧
      (∀ i, i < n → ∃ item,
        util.readHashItemWithItemOffset ctx.br (offset + 4 + 8 * i) = Res.ok item ∧
        item.keyIndex < 2 ^ 24 ∧ item.data.raw < 2 ^ 32 ∧ item.data.type < 256) ∧
      ∀ chk, checkHashNode chk ctx offset = forAllItems (hashBody chk ctx offset) 0 n := by
  have e1 : add64 offset 4 = Res.ok (offset + 4) := add64_of_lt (by omega)
  by_cases h4 : ctx.bufferSize < offset + 4
  · left
    intro chk
    simp only [checkHashNode, e1, Res.ok_bind, if_pos h4, Res.pure_eq_ok]
  · obtain ⟨t, htag, _⟩ := read_of_le ctx.br (show offset + 1 ≤ ctx.br.mData.length by omega)
    by_cases hA : t = NodeType.Hash
    · subst hA
      obtain ⟨n, hn, hn24⟩ := readContainerSize_of_le ctx.br ht
        (show offset + 4 ≤ ctx.br.mData.length by omega)
      have e2 : util.getHashItemsOffset offset = Res.ok (offset + 4) := e1
      have e4 : mul32 8 n = Res.ok (8 * n) := mul32_of_lt (by omega)
      have e5 : add64 (offset + 4) (8 * n) = Res.ok (offset + 4 + 8 * n) :=
        add64_of_lt (by omega)
      by_cases hend : ctx.bufferSize < offset + 4 + 8 * n
      · left
        intro chk
        simp only [checkHashNode, e1, Res.ok_bind, if_neg h4, htag, ne_eq, not_true_eq_false,
          if_false, hn, e2, e4, e5, if_pos hend, Res.pure_eq_ok]
      · refine Or.inr ⟨n, htag, hn, hn24, by omega, ?_, ?_⟩
        · intro i hi
          exact readHashItemWithItemOffset_of_le ctx.br (by omega) (by omega)
        · intro chk
          simp only [checkHashNode, e1, Res.ok_bind, if_neg h4, htag, ne_eq, not_true_eq_false,
            if_false, hn, e2, e4, e5, if_neg hend]
          rfl
    · left
      intro chk
      simp only [checkHashNode, e1, Res.ok_bind, if_neg h4, htag, ne_eq, hA, not_false_eq_true,
        if_true, Res.pure_eq_ok]

/-! ### The node check -/

theorem arrayBody_eq {chk : Nat → NodeType → Res Bool} {br : BinaryReader} {offset n i : Nat}
    {item : RawItemData}
    (h : util.readArrayItem br (offset + 4) (offset + 4 + AlignUp n 4) i = Res.ok item) :
    arrayBody chk br offset n i = chk item.raw item.type := by
  simp only [arrayBody, h, Res.ok_bind]

theorem hashBody_eq {chk : Nat → NodeType → Res Bool} {ctx : NodeCheckContext} {offset i : Nat}
    {item : util.RawHashItem} (ht : offset < 2 ^ 32) (hi : i < 2 ^ 24)
    (h : util.readHashItemWithItemOffset ctx.br (offset + 4 + 8 * i) = Res.ok item) :
    hashBody chk ctx offset i =
      if ctx.hashKeyTableLen ≤ item.keyIndex then Res.ok false
      else chk item.data.raw item.data.type := by
  simp only [hashBody, getHashItemOffset_of_lt ht hi, h, Res.ok_bind, Res.pure_eq_ok]

theorem checkNode_safe (ctx : NodeCheckContext) (hbs : ctx.bufferSize ≤ ctx.br.mData.length) :
    ∀ (fuel data : Nat) (type : NodeType), data < 2 ^ 32 →
      (checkNode ctx fuel data type).Safe := by
  intro fuel
  induction fuel with
  | zero => intro data type _; exact Res.safe_fuel
  | succ fuel ih =>
    intro data type hd
    unfold checkNode
    split
    · exact Res.safe_ok _
    split
    · rcases checkArrayNode_spec ctx hbs hd with h | ⟨n, _, _, hn, _, hitems, heq⟩
      · rw [h]; exact Res.safe_ok _
      · rw [heq]
        apply forAllItems_safe
        intro j _ hj
        obtain ⟨item, hitem, hraw, _⟩ := hitems j (by omega)
        rw [arrayBody_eq hitem]
        exact ih _ _ hraw
    split
    · rcases checkHashNode_spec ctx hbs hd with h | ⟨n, _, _, hn, _, hitems, heq⟩
      · rw [h]; exact Res.safe_ok _
      · rw [heq]
        apply forAllItems_safe
        intro j _ hj
        obtain ⟨item, hitem, _, hraw, _⟩ := hitems j (by omega)
        rw [hashBody_eq hd (by omega) hitem]
        split
        · exact Res.safe_ok _
        · exact ih _ _ hraw
    split
    · exact Res.safe_ok _
    split
    · rw [add64_of_lt (by omega)]
      exact Res.safe_ok _
    split
    · exact Res.safe_ok _
    · exact Res.safe_ok _

theorem checkNode_mono (ctx : NodeCheckContext) (hbs : ctx.bufferSize ≤ ctx.br.mData.length) :
    ∀ (fuel data : Nat) (type : NodeType) (b : Bool), data < 2 ^ 32 →
      checkNode ctx fuel data type = Res.ok b → checkNode ctx (fuel + 1) data type = Res.ok b := by
  intro fuel
  induction fuel with
  | zero => intro data type b _ h; cases h
  | succ fuel ih =>
    intro data type b hd h
    unfold checkNode at h ⊢
    split
    · simpa [*] using h
    rename_i h1
    rw [if_neg h1] at h
    split
    · rename_i h2
      rw [if_pos h2] at h
      rcases checkArrayNode_spec ctx hbs hd with hf | ⟨n, _, _, hn, _, hitems, heq⟩
      · rw [hf] at h ⊢; exact h
      · rw [heq] at h ⊢
        refine forAllItems_mono ?_ h
        intro j c _ hj hc
        obtain ⟨item, hitem, hraw, _⟩ := hitems j (by omega)
        rw [arrayBody_eq hitem] at hc ⊢
        exact ih _ _ _ hraw hc
    rename_i h2
    rw [if_neg h2] at h
    split
    · rename_i h3
      rw [if_pos h3] at h
      rcases checkHashNode_spec ctx hbs hd with hf | ⟨n, _, _, hn, _, hitems, heq⟩
      · rw [hf] at h ⊢; exact h
      · rw [heq] at h ⊢
        refine forAllItems_mono ?_ h
        intro j c _ hj hc
        obtain ⟨item, hitem, _, hraw, _⟩ := hitems j (by omega)
        rw [hashBody_eq hd (by omega) hitem] at hc ⊢
        split
        · rename_i hk; rw [if_pos hk] at hc; exact hc
        · rename_i hk; rw [if_neg hk] at hc; exact ih _ _ _ hraw hc
    rename_i h3
    rw [if_neg h3] at h
    exact h

theorem checkNode_mono_le (ctx : NodeCheckContext) (hbs : ctx.bufferSize ≤ ctx.br.mData.length)
    {fuel fuel' data : Nat} {type : NodeType} {b : Bool} (hd : data < 2 ^ 32)
    (hle : fuel ≤ fuel') (h : checkNode ctx fuel data type = Res.ok b) :
    checkNode ctx fuel' data type = Res.ok b := by
  induction hle with
  | refl => exact h
  | step _ ih => exact checkNode_mono ctx hbs _ _ _ _ hd ih


/-! ### The reader -/

theorem Reader.new_spec (buffer : Buffer) :
    ∃ r, Reader.new buffer = Res.ok r ∧ r.mBuffer = buffer ∧
      r.mHashKeyTableOffset < 2 ^ 32 ∧ r.mStringTableOffset < 2 ^ 32 ∧
      r.mRootNodeOffset < 2 ^ 32 ∧
      (r.mHasValidHeader = false → r.mRootNodeOffset = 0) := by
  by_cases hlen : buffer.length < sizeofResHeader
  · refine ⟨{ mBuffer := buffer }, ?_, rfl, by norm_num, by norm_num, by norm_num, fun _ => rfl⟩
    simp only [Reader.new, if_pos hlen, Res.pure_eq_ok]
  · have h16 : 16 ≤ buffer.length := by
      simp only [sizeofResHeader] at hlen
      omega
    let raw : BinaryReader := { mData := buffer, mBigEndian := false }
    obtain ⟨c0, hc0, _⟩ := byte_of_lt raw (o := 0) (by show 0 < buffer.length; omega)
    obtain ⟨c1, hc1, _⟩ := byte_of_lt raw (o := 1) (by show 1 < buffer.length; omega)
    simp only [Reader.new, if_neg hlen, hc0, hc1, Res.ok_bind, raw]
    split
    · exact ⟨_, rfl, rfl, by norm_num, by norm_num, by norm_num, fun _ => rfl⟩
    · generalize hbe : decide (c0 = 0x42 ∧ c1 = 0x59) = be
      let br : BinaryReader := { mData := buffer, mBigEndian := be }
      obtain ⟨v, hv, _⟩ := read_of_le br (n := 2) (o := 2) (by show 2 + 2 ≤ buffer.length; omega)
      obtain ⟨a, ha, hla⟩ := read_of_le br (n := 4) (o := 4) (by show 4 + 4 ≤ buffer.length; omega)
      obtain ⟨b, hb, hlb⟩ := read_of_le br (n := 4) (o := 8) (by show 8 + 4 ≤ buffer.length; omega)
      obtain ⟨c, hc, hlc⟩ := read_of_le br (n := 4) (o := 12)
        (by show 12 + 4 ≤ buffer.length; omega)
      rw [pow_256_four] at hla hlb hlc
      simp only [br] at hv ha hb hc
      simp only [hv, ha, hb, hc, Res.ok_bind]
      split
      · exact ⟨_, rfl, rfl, by norm_num, by norm_num, by norm_num, fun _ => rfl⟩
      · exact ⟨_, rfl, rfl, hla, hlb, hlc, fun h => by simp at h⟩


theorem checkStringTable_congr (ctx ctx' : NodeCheckContext) (offset n : Nat)
    (h1 : ctx.br = ctx'.br) (h2 : ctx.bufferSize = ctx'.bufferSize) :
    checkStringTable ctx offset n = checkStringTable ctx' offset n := by
  have hentry : checkStringTableEntry ctx offset = checkStringTableEntry ctx' offset := by
    funext i
    simp only [checkStringTableEntry, h1, h2]
  simp only [checkStringTable, h1, h2, hentry]

theorem checkStringTableEntry_congr (ctx ctx' : NodeCheckContext) (offset i : Nat)
    (h1 : ctx.br = ctx'.br) (h2 : ctx.bufferSize = ctx'.bufferSize) :
    checkStringTableEntry ctx offset i = checkStringTableEntry ctx' offset i := by
  simp only [checkStringTableEntry, h1, h2]

theorem Reader.checkContext_le (r : Reader) (a b : Nat) :
    (r.checkContext a b).bufferSize ≤ (r.checkContext a b).br.mData.length := by
  simp only [Reader.checkContext, getBinaryReader]
  exact Nat.mod_le _ _

/-- The table step of `isValid`. -/
theorem tableStep_spec (r : Reader) (a b n0 : Nat) {offset : Nat} (ht : offset < 2 ^ 32) :
    ∃ ok n, (if offset ≠ 0 then checkStringTable (r.checkContext a b) offset n0
        else pure (true, n0)) = Res.ok (ok, n) ∧
      (ok = true → (offset = 0 ∧ n = n0) ∨
        (offset ≠ 0 ∧ (getBinaryReader r).readU24 (offset + 1) = Res.ok n ∧
          offset + 4 + 4 * (n + 1) ≤ r.mBuffer.length % 2 ^ 32 ∧
          (∀ i, i < n → checkStringTableEntry (r.checkContext a b) offset i = Res.ok true) ∧
          (getBinaryReader r).read 1 offset = Res.ok NodeType.StringTable)) := by
  by_cases h0 : offset = 0
  · subst h0
    exact ⟨true, n0, by simp, fun _ => Or.inl ⟨rfl, rfl⟩⟩
  · obtain ⟨ok, n, hres, hspec⟩ := checkStringTable_spec (r.checkContext a b) n0
      (r.checkContext_le a b) ht
    refine ⟨ok, n, by simp [h0, hres], ?_⟩
    intro hok
    obtain ⟨h1, _, h3, h4, h5⟩ := hspec hok
    exact Or.inr ⟨h0, h1, h3, h4, h5⟩


theorem Reader.isValid_spec (r : Reader)
    (hoff : r.mHashKeyTableOffset < 2 ^ 32 ∧ r.mStringTableOffset < 2 ^ 32
      ∧ r.mRootNodeOffset < 2 ^ 32) :
    (∀ fuel, r.isValid fuel = Res.ok false) ∨
    ∃ ctx, TablesChecked r ctx ∧
      ((r.mRootNodeOffset = 0 ∧ ∀ fuel, r.isValid fuel = Res.ok true) ∨
       (r.mRootNodeOffset ≠ 0 ∧ ∃ type, ctx.br.read 1 r.mRootNodeOffset = Res.ok type ∧
          (type = NodeType.Array ∨ type = NodeType.Hash) ∧
          ∀ fuel, r.isValid fuel = (checkNode ctx fuel r.mRootNodeOffset type >>= fun passed =>
            Res.ok passed))) := by
  obtain ⟨hh, hs, hr⟩ := hoff
  by_cases hv : r.mHasValidHeader = true
  swap
  · left
    intro fuel
    simp [Reader.isValid, hv]
  by_cases hb : r.mBuffer.length ≤ r.mHashKeyTableOffset
      ∨ r.mBuffer.length ≤ r.mStringTableOffset ∨ r.mBuffer.length ≤ r.mRootNodeOffset
  · left
    intro fuel
    simp only [Reader.isValid, hv, Bool.not_true, Bool.false_eq_true, if_false, if_pos hb,
      Res.pure_eq_ok]
  obtain ⟨ok1, n1, hres1, hspec1⟩ := tableStep_spec r 0 0 0 hh
  have step1 : ∀ fuel, r.isValid fuel = (
      let ctx := r.checkContext n1 0
      if !ok1 then pure false
      else do
        let stringTable ← (if r.mStringTableOffset ≠ 0 then
            checkStringTable ctx r.mStringTableOffset ctx.stringTableLen
          else pure (true, ctx.stringTableLen))
        let ctx := { ctx with stringTableLen := stringTable.2 }
        if !stringTable.1 then pure false
        else if r.mRootNodeOffset ≠ 0 then do
          let rootEnd ← add64 r.mRootNodeOffset 1
          if r.mBuffer.length < rootEnd then pure false
          else do
            let type ← (getBinaryReader r).read 1 r.mRootNodeOffset
            if type ≠ NodeType.Array ∧ type ≠ NodeType.Hash then pure false
            else do
              let passed ← checkNode ctx fuel r.mRootNodeOffset type
              if !passed then pure false
              else pure true
        else pure true) := by
    intro fuel
    have hres1' := hres1
    simp only [Reader.checkContext, getBinaryReader] at hres1'
    simp only [Reader.isValid, hv, Bool.not_true, Bool.false_eq_true, if_false, if_neg hb]
    rw [hres1']
    rfl
  cases ok1 with
  | false =>
    left
    intro fuel
    rw [step1]
    rfl
  | true =>
    obtain ⟨ok2, n2, hres2, hspec2⟩ := tableStep_spec r n1 0 0 hs
    have step2 : ∀ fuel, r.isValid fuel = (
        let ctx := r.checkContext n1 n2
        if !ok2 then pure false
        else if r.mRootNodeOffset ≠ 0 then do
          let rootEnd ← add64 r.mRootNodeOffset 1
          if r.mBuffer.length < rootEnd then pure false
          else do
            let type ← (getBinaryReader r).read 1 r.mRootNodeOffset
            if type ≠ NodeType.Array ∧ type ≠ NodeType.Hash then pure false
            else do
              let passed ← checkNode ctx fuel r.mRootNodeOffset type
              if !passed then pure false
              else pure true
        else pure true) := by
      intro fuel
      rw [step1]
      simp only [Bool.not_true, Bool.false_eq_true, if_false]
      have hres2' := hres2
      simp only [Reader.checkContext] at hres2' ⊢
      rw [hres2']
      rfl
    cases ok2 with
    | false =>
      left
      intro fuel
      rw [step2]
      rfl
    | true =>
      have htab : TablesChecked r (r.checkContext n1 n2) := by
        refine ⟨rfl, ?_, ?_⟩
        · rcases hspec1 rfl with ⟨h0, hn⟩ | ⟨h0, h1, h2, h3, h5⟩
          · exact Or.inl ⟨h0, hn⟩
          · refine Or.inr ⟨h0, h1, h2, ?_, h5⟩
            intro i hi
            rw [← h3 i hi]
            exact checkStringTableEntry_congr _ _ _ _ rfl rfl
        · rcases hspec2 rfl with ⟨h0, hn⟩ | ⟨h0, h1, h2, h3, h5⟩
          · exact Or.inl ⟨h0, hn⟩
          · refine Or.inr ⟨h0, h1, h2, ?_, h5⟩
            intro i hi
            rw [← h3 i hi]
            exact checkStringTableEntry_congr _ _ _ _ rfl rfl
      by_cases hroot : r.mRootNodeOffset = 0
      · right
        refine ⟨_, htab, Or.inl ⟨hroot, ?_⟩⟩
        intro fuel
        rw [step2]
        simp [hroot]
      · have hlt : r.mRootNodeOffset < r.mBuffer.length := by
          simp only [not_or, not_le] at hb
          exact hb.2.2
        obtain ⟨type, htype, _⟩ := read_of_le (getBinaryReader r) (n := 1)
          (o := r.mRootNodeOffset) (by show r.mRootNodeOffset + 1 ≤ r.mBuffer.length; omega)
        have e1 : add64 r.mRootNodeOffset 1 = Res.ok (r.mRootNodeOffset + 1) :=
          add64_of_lt (by omega)
        by_cases hty : type ≠ NodeType.Array ∧ type ≠ NodeType.Hash
        · left
          intro fuel
          rw [step2]
          simp only [Bool.not_true, Bool.false_eq_true, if_false, ne_eq, hroot,
            not_false_eq_true, if_true, e1, Res.ok_bind, htype]
          rw [if_neg (by omega), if_pos hty]
          rfl
        · right
          refine ⟨_, htab, Or.inr ⟨hroot, type, htype, ?_, ?_⟩⟩
          · by_cases hA : type = NodeType.Array
            · exact Or.inl hA
            · by_cases hH : type = NodeType.Hash
              · exact Or.inr hH
              · exact absurd ⟨hA, hH⟩ hty
          · intro fuel
            rw [step2]
            simp only [Bool.not_true, Bool.false_eq_true, if_false, ne_eq, hroot,
              not_false_eq_true, if_true, e1, Res.ok_bind, htype]
            rw [if_neg (by omega), if_neg hty]
            cases checkNode (r.checkContext n1 n2) fuel r.mRootNodeOffset type with
            | fault e => rfl
            | ok b => cases b <;> rfl

theorem Reader.isValid_checked {r : Reader} {fuel : Nat}
    (hoff : r.mHashKeyTableOffset < 2 ^ 32 ∧ r.mStringTableOffset < 2 ^ 32
      ∧ r.mRootNodeOffset < 2 ^ 32)
    (h : r.isValid fuel = Res.ok true) : ∃ ctx, r.Checked fuel ctx := by
  rcases r.isValid_spec hoff with hf | ⟨ctx, htab, ⟨h0, _⟩ | ⟨h0, type, htype, hty, heq⟩⟩
  · rw [hf fuel] at h
    cases h
  · exact ⟨ctx, htab, hoff, Or.inl h0⟩
  · refine ⟨ctx, htab, hoff, Or.inr ⟨type, htype, hty, ?_⟩⟩
    rw [heq fuel] at h
    cases hc : checkNode ctx fuel r.mRootNodeOffset type with
    | fault e => simp [hc] at h
    | ok b =>
      simp only [hc, Res.ok_bind] at h
      rw [h]

theorem TablesChecked.le {r : Reader} {ctx : NodeCheckContext} (h : TablesChecked r ctx) :
    ctx.bufferSize ≤ ctx.br.mData.length := by
  rw [h.1]
  exact r.checkContext_le _ _

theorem TablesChecked.br_eq {r : Reader} {ctx : NodeCheckContext} (h : TablesChecked r ctx) :
    ctx.br = getBinaryReader r := by
  rw [h.1]
  rfl

theorem TablesChecked.size_le {r : Reader} {ctx : NodeCheckContext} (h : TablesChecked r ctx) :
    ctx.bufferSize ≤ r.mBuffer.length := by
  rw [h.1]
  exact Nat.mod_le _ _

theorem Reader.isValid_safe (r : Reader) (fuel : Nat)
    (hoff : r.mHashKeyTableOffset < 2 ^ 32 ∧ r.mStringTableOffset < 2 ^ 32
      ∧ r.mRootNodeOffset < 2 ^ 32) : (r.isValid fuel).Safe := by
  rcases r.isValid_spec hoff with hf | ⟨ctx, htab, ⟨_, h1⟩ | ⟨_, type, _, _, heq⟩⟩
  · rw [hf fuel]; exact Res.safe_ok _
  · rw [h1 fuel]; exact Res.safe_ok _
  · rw [heq fuel]
    exact Res.safe_bind (checkNode_safe ctx htab.le fuel _ _ hoff.2.2) (fun a _ => Res.safe_ok a)

theorem Reader.isValid_mono (r : Reader) {fuel fuel' : Nat} {b : Bool}
    (hoff : r.mHashKeyTableOffset < 2 ^ 32 ∧ r.mStringTableOffset < 2 ^ 32
      ∧ r.mRootNodeOffset < 2 ^ 32) (hle : fuel ≤ fuel')
    (h : r.isValid fuel = Res.ok b) : r.isValid fuel' = Res.ok b := by
  rcases r.isValid_spec hoff with hf | ⟨ctx, htab, ⟨_, h1⟩ | ⟨_, type, _, _, heq⟩⟩
  · rw [hf fuel] at h; rw [hf fuel']; exact h
  · rw [h1 fuel] at h; rw [h1 fuel']; exact h
  · rw [heq fuel] at h
    rw [heq fuel']
    cases hc : checkNode ctx fuel r.mRootNodeOffset type with
    | fault e => simp [hc] at h
    | ok c =>
      simp only [hc, Res.ok_bind] at h
      rw [checkNode_mono_le ctx htab.le hoff.2.2 hle hc]
      exact h

/-! ## The claims -/

/-- C3. For every byte buffer, constructing the reader gives a reader without any read
outside the buffer, and `isValid()` makes no read at an offset at or past the end of the
buffer and no offset computation that wraps around, whatever the recursion budget. -/
theorem isValid_reads_in_bounds (buffer : Buffer) (fuel : Nat) :
    (∃ reader, Reader.new buffer = Res.ok reader) ∧
    isValid buffer fuel ≠ Res.fault Fault.oob ∧
    isValid buffer fuel ≠ Res.fault Fault.wrap := by
  obtain ⟨r, hr, _, h1, h2, h3, _⟩ := Reader.new_spec buffer
  refine ⟨⟨r, hr⟩, ?_⟩
  have : isValid buffer fuel = r.isValid fuel := by
    simp only [isValid, hr, Res.ok_bind]
  rw [this]
  exact r.isValid_safe fuel ⟨h1, h2, h3⟩


theorem checkRootNodeType_cases (data : Buffer) (offset : Nat) (type : NodeType) :
    (offset = 0 ∧ checkRootNodeType data offset type = Res.ok false) ∨
    (offset ≠ 0 ∧ ∃ f, BinaryReader.byte { mData := data, mBigEndian := false } offset
        = Res.fault f ∧ checkRootNodeType data offset type = Res.fault f) ∨
    (offset ≠ 0 ∧ ∃ tag, BinaryReader.byte { mData := data, mBigEndian := false } offset
        = Res.ok tag ∧ checkRootNodeType data offset type = Res.ok (decide (tag = type))) := by
  by_cases h0 : offset = 0
  · left
    exact ⟨h0, by simp only [checkRootNodeType, if_pos h0, Res.pure_eq_ok]⟩
  · right
    cases hb : BinaryReader.byte { mData := data, mBigEndian := false } offset with
    | fault f =>
      left
      exact ⟨h0, f, rfl, by simp only [checkRootNodeType, if_neg h0, hb, Res.fault_bind]⟩
    | ok tag =>
      right
      exact ⟨h0, tag, rfl, by
        simp only [checkRootNodeType, if_neg h0, hb, Res.ok_bind, Res.pure_eq_ok]⟩

theorem getArray_absent_iff (reader : Reader) :
    reader.getArray = Res.ok none ↔
      reader.mRootNodeOffset = 0 ∨ ∃ tag,
        (getBinaryReader reader).byte reader.mRootNodeOffset = Res.ok tag ∧
        tag ≠ NodeType.Array := by
  have hb : BinaryReader.byte { mData := reader.mBuffer, mBigEndian := false }
      reader.mRootNodeOffset = (getBinaryReader reader).byte reader.mRootNodeOffset := rfl
  unfold Reader.getArray Reader.isArray
  rcases checkRootNodeType_cases reader.mBuffer reader.mRootNodeOffset NodeType.Array with
    ⟨h0, hres⟩ | ⟨h0, f, hbyte, hres⟩ | ⟨h0, tag, hbyte, hres⟩
  · rw [hres]
    exact ⟨fun _ => Or.inl h0, fun _ => rfl⟩
  · rw [hres]
    rw [hb] at hbyte
    constructor
    · intro h; cases h
    · rintro (h | ⟨tag, h1, _⟩)
      · exact absurd h h0
      · rw [hbyte] at h1; cases h1
  · rw [hres]
    rw [hb] at hbyte
    by_cases ht : tag = NodeType.Array
    · constructor
      · intro h
        simp only [ht, decide_True, Res.ok_bind, Bool.not_true, Bool.false_eq_true, if_false,
          Res.bind_eq_ok, Res.pure_eq_ok] at h
        obtain ⟨_, _, h⟩ := h
        cases h
      · rintro (h | ⟨tag', h1, h2⟩)
        · exact absurd h h0
        · rw [hbyte] at h1
          injection h1 with h1
          exact absurd (h1 ▸ ht) h2
    · constructor
      · intro _
        exact Or.inr ⟨tag, hbyte, ht⟩
      · intro _
        simp only [ht, decide_False, Res.ok_bind, Bool.not_false, if_true, Res.pure_eq_ok]

theorem getHash_absent_iff (reader : Reader) :
    reader.getHash = Res.ok none ↔
      reader.mRootNodeOffset = 0 ∨ ∃ tag,
        (getBinaryReader reader).byte reader.mRootNodeOffset = Res.ok tag ∧
        tag ≠ NodeType.Hash := by
  have hb : BinaryReader.byte { mData := reader.mBuffer, mBigEndian := false }
      reader.mRootNodeOffset = (getBinaryReader reader).byte reader.mRootNodeOffset := rfl
  unfold Reader.getHash Reader.isHash
  rcases checkRootNodeType_cases reader.mBuffer reader.mRootNodeOffset NodeType.Hash with
    ⟨h0, hres⟩ | ⟨h0, f, hbyte, hres⟩ | ⟨h0, tag, hbyte, hres⟩
  · rw [hres]
    exact ⟨fun _ => Or.inl h0, fun _ => rfl⟩
  · rw [hres]
    rw [hb] at hbyte
    constructor
    · intro h; cases h
    · rintro (h | ⟨tag, h1, _⟩)
      · exact absurd h h0
      · rw [hbyte] at h1; cases h1
  · rw [hres]
    rw [hb] at hbyte
    by_cases ht : tag = NodeType.Hash
    · constructor
      · intro h
        simp only [ht, decide_True, Res.ok_bind, Bool.not_true, Bool.false_eq_true, if_false,
          Res.bind_eq_ok, Res.pure_eq_ok] at h
        obtain ⟨_, _, h⟩ := h
        cases h
      · rintro (h | ⟨tag', h1, h2⟩)
        · exact absurd h h0
        · rw [hbyte] at h1
          injection h1 with h1
          exact absurd (h1 ▸ ht) h2
    · constructor
      · intro _
        exact Or.inr ⟨tag, hbyte, ht⟩
      · intro _
        simp only [ht, decide_False, Res.ok_bind, Bool.not_false, if_true, Res.pure_eq_ok]

/-- C1 (amended). For every byte buffer whose header the constructor rejects, `isValid()`
returns false and `getArray()` and `getHash()` both return absent. Whatever `isValid()`
says, `getArray()` (`getHash()`) is absent exactly when the root offset is zero or the
byte at the root offset is not the Array (Hash) tag. -/
theorem rejected_header_absent (buffer : Buffer) (reader : Reader)
    (hnew : Reader.new buffer = Res.ok reader) :
    (reader.mHasValidHeader = false →
      (∀ fuel, reader.isValid fuel = Res.ok false) ∧
      reader.getArray = Res.ok none ∧ reader.getHash = Res.ok none) ∧
    (reader.getArray = Res.ok none ↔
      reader.mRootNodeOffset = 0 ∨ ∃ tag,
        (getBinaryReader reader).byte reader.mRootNodeOffset = Res.ok tag ∧
        tag ≠ NodeType.Array) ∧
    (reader.getHash = Res.ok none ↔
      reader.mRootNodeOffset = 0 ∨ ∃ tag,
        (getBinaryReader reader).byte reader.mRootNodeOffset = Res.ok tag ∧
        tag ≠ NodeType.Hash) := by
  obtain ⟨r, hr, _, _, _, _, h0⟩ := Reader.new_spec buffer
  rw [hnew] at hr
  injection hr with hr
  subst hr
  refine ⟨?_, ?_, ?_⟩
  · intro hrej
    have hroot := h0 hrej
    refine ⟨?_, ?_, ?_⟩
    · intro fuel
      simp [Reader.isValid, hrej]
    · simp [Reader.getArray, Reader.isArray, checkRootNodeType, hroot]
    · simp [Reader.getHash, Reader.isHash, checkRootNodeType, hroot]
  · exact getArray_absent_iff reader
  · exact getHash_absent_iff reader

/-- C1, witness: a buffer with a wrong magic. -/
theorem rejected_header_absent_witness :
    Reader.new wrongMagicDocument = Res.ok { mBuffer := wrongMagicDocument } ∧
    (∀ fuel, Reader.isValid { mBuffer := wrongMagicDocument } fuel = Res.ok false) ∧
    Reader.getArray { mBuffer := wrongMagicDocument } = Res.ok none ∧
    Reader.getHash { mBuffer := wrongMagicDocument } = Res.ok none :=
  ⟨by decide, (rejected_header_absent wrongMagicDocument { mBuffer := wrongMagicDocument }
    (by decide)).1 rfl⟩

/-- C1, counterexample: on an accepted header whose root array declares more items than
the buffer holds, `isValid()` returns false and `getArray()` still returns a view. -/
theorem getArray_not_gated_by_isValid :
    Reader.new truncatedArrayDocument = Res.ok truncatedArrayReader ∧
    (∀ fuel, isValid truncatedArrayDocument (fuel + 1) = Res.ok false) ∧
    truncatedArrayReader.getArray =
      Res.ok (some { base := { mReader := truncatedArrayReader, mOffset := 16, mNumItems := 1 } }) :=
  ⟨by decide, fun _ => rfl, by decide⟩

theorem selfReferential_step (chk : Nat → NodeType → Res Bool) :
    checkArrayNode chk selfReferentialContext 16 =
      (chk 16 NodeType.Array >>= fun passed => if !passed then pure false else pure true) := rfl

theorem selfReferential_checkNode (fuel : Nat) :
    checkNode selfReferentialContext fuel 16 NodeType.Array = Res.fault Fault.fuel := by
  induction fuel with
  | zero => rfl
  | succ n ih =>
    have : checkNode selfReferentialContext (n + 1) 16 NodeType.Array
        = checkArrayNode (checkNode selfReferentialContext n) selfReferentialContext 16 := rfl
    rw [this, selfReferential_step, ih]
    rfl

/-- C2. Termination of `isValid()` on a cycle: `selfReferentialDocument` is a buffer of 28
bytes with an accepted header whose root array at 16 holds one item, an Array cell with the
offset 16 of the root itself; the recursion `checkNode` / `checkArrayNode` uses up every
recursion budget, and `isValid()` never returns a boolean. -/
theorem isValid_diverges_on_cycle :
    (∀ fuel, isValid selfReferentialDocument fuel = Res.fault Fault.fuel) ∧
    ¬ ∃ fuel result, isValid selfReferentialDocument fuel = Res.ok result := by
  have hfuel : ∀ fuel, isValid selfReferentialDocument fuel = Res.fault Fault.fuel := by
    intro fuel
    have : isValid selfReferentialDocument fuel
        = (checkNode selfReferentialContext fuel 16 NodeType.Array >>= fun passed =>
            if !passed then pure false else pure true) := rfl
    rw [this, selfReferential_checkNode]
    rfl
  refine ⟨hfuel, ?_⟩
  rintro ⟨fuel, result, h⟩
  rw [hfuel fuel] at h
  cases h


/-! ### Child links and termination -/

theorem containerHeader_array {r : Reader} {offset n : Nat} (ht : offset < 2 ^ 32)
    (htag : (getBinaryReader r).read 1 offset = Res.ok NodeType.Array)
    (hn : util.readContainerSize (getBinaryReader r) offset = Res.ok n) (hn24 : n < 2 ^ 24)
    (hend : offset + 4 + AlignUp n 4 + 4 * n ≤ r.mBuffer.length % 2 ^ 32) :
    r.containerHeader offset = Res.ok (some (NodeType.Array, n)) := by
  have hal := AlignUp_four n
  have e1 : add64 offset 4 = Res.ok (offset + 4) := add64_of_lt (by omega)
  have e3 := getArrayValuesOffset_of_lt ht hn24
  have e4 : mul32 4 n = Res.ok (4 * n) := mul32_of_lt (by omega)
  have e5 : add64 (offset + 4 + AlignUp n 4) (4 * n)
      = Res.ok (offset + 4 + AlignUp n 4 + 4 * n) := add64_of_lt (by omega)
  simp only [Reader.containerHeader, e1, Res.ok_bind, htag, hn, e3, e4, e5, if_true]
  rw [if_neg (by omega), if_neg (by omega)]
  rfl

theorem containerHeader_hash {r : Reader} {offset n : Nat} (ht : offset < 2 ^ 32)
    (htag : (getBinaryReader r).read 1 offset = Res.ok NodeType.Hash)
    (hn : util.readContainerSize (getBinaryReader r) offset = Res.ok n) (hn24 : n < 2 ^ 24)
    (hend : offset + 4 + 8 * n ≤ r.mBuffer.length % 2 ^ 32) :
    r.containerHeader offset = Res.ok (some (NodeType.Hash, n)) := by
  have e1 : add64 offset 4 = Res.ok (offset + 4) := add64_of_lt (by omega)
  have e2 : util.getHashItemsOffset offset = Res.ok (offset + 4) := e1
  have e4 : mul32 8 n = Res.ok (8 * n) := mul32_of_lt (by omega)
  have e5 : add64 (offset + 4) (8 * n) = Res.ok (offset + 4 + 8 * n) := add64_of_lt (by omega)
  have hne : ¬ (NodeType.Hash = NodeType.Array) := by decide
  simp only [Reader.containerHeader, e1, Res.ok_bind, htag, hn, e2, e4, e5, if_true, hne,
    if_false]
  rw [if_neg (by omega), if_neg (by omega)]
  rfl

theorem mem_childLinks {r : Reader} {offset n i : Nat} {type : NodeType} {cell : RawItemData}
    (hh : r.containerHeader offset = Res.ok (some (type, n))) (hi : i < n)
    (hc : r.cellAt type offset i = Res.ok cell)
    (hty : cell.type = NodeType.Array ∨ cell.type = NodeType.Hash) :
    r.IsChild offset cell.raw := by
  unfold Reader.IsChild Reader.childLinks
  rw [hh]
  simp only [List.mem_filterMap, List.mem_range]
  exact ⟨i, hi, by rw [hc]; simp [hty]⟩

theorem isChild_lt {r : Reader} {p c : Nat} (h : r.IsChild p c) : p < r.mBuffer.length := by
  unfold Reader.IsChild Reader.childLinks at h
  cases hh : r.containerHeader p with
  | fault e => rw [hh] at h; simp at h
  | ok res =>
    cases res with
    | none => rw [hh] at h; simp at h
    | some tn =>
      simp only [Reader.containerHeader, Res.bind_eq_ok, add64_eq_ok] at hh
      obtain ⟨a, ⟨_, rfl⟩, hh⟩ := hh
      split at hh
      · cases hh
      · rename_i hlt
        have := Nat.mod_le r.mBuffer.length (2 ^ 32)
        omega

theorem reaches_child {r : Reader} {p c : Nat} (hp : r.Reaches p) (hc : r.IsChild p c) :
    r.Reaches c := by
  rcases hp with rfl | hp
  · exact Or.inr (Relation.TransGen.single hc)
  · exact Or.inr (Relation.TransGen.tail hp hc)

theorem acc_of_acyclic {r : Reader} (hacyc : r.Acyclic) :
    ∀ o, r.Reaches o → Acc (fun c p => r.IsChild p c) o := by
  let S : Type := { o : Fin r.mBuffer.length // r.Reaches o.val }
  let T : S → S → Prop :=
    fun a b => Relation.TransGen (fun c p => r.IsChild p c) a.val.val b.val.val
  have htrans : IsTrans S T := ⟨fun a b c h1 h2 => Relation.TransGen.trans h1 h2⟩
  have hirr : IsIrrefl S T := by
    constructor
    intro a h
    apply hacyc a.val.val a.property
    have := (Relation.transGen_swap (r := r.IsChild) (a := a.val.val) (b := a.val.val)).mp h
    exact this
  have hwf : WellFounded T := Finite.wellFounded_of_trans_of_irrefl T
  have hfin : ∀ a : S, Acc (fun c p => r.IsChild p c) a.val.val := by
    intro a
    induction a using hwf.induction with
    | _ a ih =>
      constructor
      intro c hc
      by_cases hlt : c < r.mBuffer.length
      · exact ih ⟨⟨c, hlt⟩, reaches_child a.property hc⟩ (Relation.TransGen.single hc)
      · constructor
        intro d hd
        exact absurd (isChild_lt hd) hlt
  intro o ho
  by_cases hlt : o < r.mBuffer.length
  · exact hfin ⟨⟨o, hlt⟩, ho⟩
  · constructor
    intro d hd
    exact absurd (isChild_lt hd) hlt

/-- A recursion budget that serves all the items of a loop at once. -/
theorem exists_common_fuel (ctx : NodeCheckContext) (hbs : ctx.bufferSize ≤ ctx.br.mData.length)
    (cells : Nat → RawItemData) : ∀ n : Nat,
    (∀ i, i < n → (cells i).raw < 2 ^ 32 ∧
      ∃ fuel b, checkNode ctx fuel (cells i).raw (cells i).type = Res.ok b) →
    ∃ fuel, ∀ i, i < n → ∃ b, checkNode ctx fuel (cells i).raw (cells i).type = Res.ok b := by
  intro n
  induction n with
  | zero => intro _; exact ⟨0, fun i hi => absurd hi (Nat.not_lt_zero i)⟩
  | succ n ih =>
    intro h
    obtain ⟨f1, h1⟩ := ih (fun i hi => h i (by omega))
    obtain ⟨hraw, f2, b2, h2⟩ := h n (by omega)
    refine ⟨max f1 f2, ?_⟩
    intro i hi
    rcases Nat.lt_succ_iff_lt_or_eq.mp hi with hlt | rfl
    · obtain ⟨b, hb⟩ := h1 i hlt
      exact ⟨b, checkNode_mono_le ctx hbs (h i (by omega)).1 (Nat.le_max_left f1 f2) hb⟩
    · exact ⟨b2, checkNode_mono_le ctx hbs hraw (Nat.le_max_right f1 f2) h2⟩

theorem checkNode_scalar (ctx : NodeCheckContext) {data : Nat} {type : NodeType}
    (hd : data < 2 ^ 32) (hA : type ≠ NodeType.Array) (hH : type ≠ NodeType.Hash) :
    ∃ b, checkNode ctx 1 data type = Res.ok b := by
  unfold checkNode
  simp only [if_neg hA, if_neg hH]
  split
  · exact ⟨_, rfl⟩
  split
  · exact ⟨_, rfl⟩
  split
  · rw [add64_of_lt (by omega)]; exact ⟨_, rfl⟩
  split
  · exact ⟨_, rfl⟩
  · exact ⟨_, rfl⟩

theorem checkNode_terminates {r : Reader} {ctx : NodeCheckContext}
    (hbr : ctx.br = getBinaryReader r) (hsize : ctx.bufferSize = r.mBuffer.length % 2 ^ 32) :
    ∀ (data : Nat), Acc (fun c p => r.IsChild p c) data → data < 2 ^ 32 →
      ∀ (type : NodeType), ∃ fuel b, checkNode ctx fuel data type = Res.ok b := by
  have hbs : ctx.bufferSize ≤ ctx.br.mData.length := by
    rw [hbr, hsize]
    exact Nat.mod_le _ _
  intro data hacc
  induction hacc with
  | intro o _ ih =>
    intro ho type
    by_cases hA : type = NodeType.Array
    · subst hA
      rcases checkArrayNode_spec ctx hbs ho with hf | ⟨n, htag, hn, hn24, hend, hitems, heq⟩
      · exact ⟨1, false, by
          show checkArrayNode (checkNode ctx 0) ctx o = Res.ok false
          exact hf _⟩
      · rw [hbr] at htag hn
        rw [hsize] at hend
        have hhdr := containerHeader_array ho htag hn hn24 hend
        let cells : Nat → RawItemData := fun i =>
          match util.readArrayItem (getBinaryReader r) (o + 4) (o + 4 + AlignUp n 4) i with
          | Res.ok item => item
          | Res.fault _ => { raw := 0, type := 0 }
        have hcells : ∀ i, i < n →
            util.readArrayItem ctx.br (o + 4) (o + 4 + AlignUp n 4) i = Res.ok (cells i) ∧
            (cells i).raw < 2 ^ 32 := by
          intro i hi
          obtain ⟨item, hitem, hraw, _⟩ := hitems i hi
          have : cells i = item := by
            simp only [cells]
            rw [← hbr, hitem]
          rw [this]
          exact ⟨hitem, hraw⟩
        obtain ⟨F, hF⟩ := exists_common_fuel ctx hbs cells n (by
          intro i hi
          obtain ⟨hitem, hraw⟩ := hcells i hi
          refine ⟨hraw, ?_⟩
          by_cases hty : (cells i).type = NodeType.Array ∨ (cells i).type = NodeType.Hash
          · have hcell : r.cellAt NodeType.Array o i = Res.ok (cells i) := by
              have e1 : util.getArrayTypesOffset o = Res.ok (o + 4) := add64_of_lt (by omega)
              rw [hbr] at hitem
              simp only [Reader.cellAt, if_true, hn, Res.ok_bind, e1,
                getArrayValuesOffset_of_lt ho hn24, hitem]
            exact ih (cells i).raw (mem_childLinks hhdr hi hcell hty) hraw (cells i).type
          · simp only [not_or] at hty
            obtain ⟨b, hb⟩ := checkNode_scalar ctx hraw hty.1 hty.2
            exact ⟨1, b, hb⟩)
        obtain ⟨b, hb⟩ := @forAllItems_total (arrayBody (checkNode ctx F) ctx.br o n) n 0 (by
          intro j _ hj
          rw [arrayBody_eq (hcells j (by omega)).1]
          exact hF j (by omega))
        refine ⟨F + 1, b, ?_⟩
        show checkArrayNode (checkNode ctx F) ctx o = Res.ok b
        rw [heq, hb]
    · by_cases hH : type = NodeType.Hash
      · subst hH
        rcases checkHashNode_spec ctx hbs ho with hf | ⟨n, htag, hn, hn24, hend, hitems, heq⟩
        · exact ⟨1, false, by
            show checkHashNode (checkNode ctx 0) ctx o = Res.ok false
            exact hf _⟩
        · rw [hbr] at htag hn
          rw [hsize] at hend
          have hhdr := containerHeader_hash ho htag hn hn24 hend
          let cells : Nat → util.RawHashItem := fun i =>
            match util.readHashItemWithItemOffset (getBinaryReader r) (o + 4 + 8 * i) with
            | Res.ok item => item
            | Res.fault _ => { keyIndex := 0, data := { raw := 0, type := 0 } }
          have hcells : ∀ i, i < n →
              util.readHashItemWithItemOffset ctx.br (o + 4 + 8 * i) = Res.ok (cells i) ∧
              (cells i).data.raw < 2 ^ 32 := by
            intro i hi
            obtain ⟨item, hitem, _, hraw, _⟩ := hitems i hi
            have : cells i = item := by
              simp only [cells]
              rw [← hbr, hitem]
            rw [this]
            exact ⟨hitem, hraw⟩
          obtain ⟨F, hF⟩ := exists_common_fuel ctx hbs (fun i => (cells i).data) n (by
            intro i hi
            obtain ⟨hitem, hraw⟩ := hcells i hi
            refine ⟨hraw, ?_⟩
            by_cases hty : (cells i).data.type = NodeType.Array
                ∨ (cells i).data.type = NodeType.Hash
            · have hcell : r.cellAt NodeType.Hash o i = Res.ok (cells i).data := by
                have hne : ¬ (NodeType.Hash = NodeType.Array) := by decide
                rw [hbr] at hitem
                simp only [Reader.cellAt, hne, if_false, getHashItemOffset_of_lt ho
                  (show i < 2 ^ 24 by omega), Res.ok_bind, hitem, Res.pure_eq_ok]
              exact ih (cells i).data.raw (mem_childLinks hhdr hi hcell hty) hraw
                (cells i).data.type
            · simp only [not_or] at hty
              obtain ⟨b, hb⟩ := checkNode_scalar ctx hraw hty.1 hty.2
              exact ⟨1, b, hb⟩)
          obtain ⟨b, hb⟩ := @forAllItems_total (hashBody (checkNode ctx F) ctx o) n 0 (by
            intro j _ hj
            rw [hashBody_eq ho (by omega) (hcells j (by omega)).1]
            split
            · exact ⟨false, rfl⟩
            · exact hF j (by omega))
          refine ⟨F + 1, b, ?_⟩
          have hne : ¬ (NodeType.Hash = NodeType.Array) := by decide
          have hne2 : ¬ (NodeType.Hash = NodeType.String) := by decide
          show checkNode ctx (F + 1) o NodeType.Hash = Res.ok b
          unfold checkNode
          rw [if_neg hne2, if_neg hne, if_pos rfl, heq, hb]
      · obtain ⟨b, hb⟩ := checkNode_scalar ctx ho hA hH
        exact ⟨1, b, hb⟩


theorem acyclic_of_forward {r : Reader}
    (h : ∀ p, p < r.mBuffer.length → ∀ c ∈ r.childLinks p, p < c) : r.Acyclic := by
  have key : ∀ a b, Relation.TransGen r.IsChild a b → a < b := by
    intro a b hab
    induction hab with
    | single hc => exact h a (isChild_lt hc) _ hc
    | tail _ hc ih => exact Nat.lt_trans ih (h _ (isChild_lt hc) _ hc)
  intro o _ ho
  exact Nat.lt_irrefl o (key o o ho)

theorem sampleReader_forward :
    ∀ p, p < sampleReader.mBuffer.length → ∀ c ∈ sampleReader.childLinks p, p < c := by
  decide

/-- Termination without cycles: for every byte buffer in which no container that is the
root or a descendant of the root is its own descendant, `isValid()` terminates: from some
recursion budget on it returns one and the same boolean. -/
theorem isValid_terminates_of_acyclic (buffer : Buffer) (reader : Reader)
    (hnew : Reader.new buffer = Res.ok reader) (hacyc : reader.Acyclic) :
    ∃ fuel result, ∀ fuel', fuel ≤ fuel' → reader.isValid fuel' = Res.ok result := by
  obtain ⟨r, hr, _, h1, h2, h3, _⟩ := Reader.new_spec buffer
  rw [hnew] at hr
  injection hr with hr
  subst hr
  rcases reader.isValid_spec ⟨h1, h2, h3⟩ with hf | ⟨ctx, htab, ⟨_, ht⟩ | ⟨_, type, _, _, heq⟩⟩
  · exact ⟨0, false, fun fuel' _ => hf fuel'⟩
  · exact ⟨0, true, fun fuel' _ => ht fuel'⟩
  · have hsize : ctx.bufferSize = reader.mBuffer.length % 2 ^ 32 := by
      rw [htab.1]; rfl
    obtain ⟨fuel, b, hb⟩ := checkNode_terminates htab.br_eq hsize reader.mRootNodeOffset
      (acc_of_acyclic hacyc _ (Or.inl rfl)) h3 type
    refine ⟨fuel, b, ?_⟩
    intro fuel' hle
    rw [heq fuel', checkNode_mono_le ctx htab.le h3 hle hb]
    rfl

/-- Termination without cycles, on the sample document, whose root map holds an array. -/
theorem isValid_terminates_of_acyclic_witness :
    Reader.new sampleDocument = Res.ok sampleReader ∧ sampleReader.Acyclic ∧
    ∃ fuel result, ∀ fuel', fuel ≤ fuel' → sampleReader.isValid fuel' = Res.ok result :=
  ⟨by decide, acyclic_of_forward sampleReader_forward,
    isValid_terminates_of_acyclic sampleDocument sampleReader (by decide)
      (acyclic_of_forward sampleReader_forward)⟩

/-! ### What a passed node check says -/

theorem read_one_eq_byte (br : BinaryReader) (o : Nat) : br.read 1 o = br.byte o := by
  unfold BinaryReader.read BinaryReader.bytes BinaryReader.bytes
  cases hb : br.byte o with
  | fault e => rfl
  | ok b =>
    simp only [Res.ok_bind, Res.pure_eq_ok, fromBigEndian, fromLittleEndian, List.foldl_cons,
      List.foldl_nil, List.foldr_cons, List.foldr_nil]
    split <;> simp

theorem byte_endian (data : Buffer) (e1 e2 : Bool) (o : Nat) :
    BinaryReader.byte { mData := data, mBigEndian := e1 } o
      = BinaryReader.byte { mData := data, mBigEndian := e2 } o := rfl

theorem checkNode_eq_ok_true {ctx : NodeCheckContext} {fuel data : Nat} {type : NodeType}
    (h : checkNode ctx fuel data type = Res.ok true) :
    isKnownTag type ∧ type ≠ NodeType.StringTable ∧
    (type = NodeType.String → data < ctx.stringTableLen) ∧
    (type = NodeType.Int64 ∨ type = NodeType.UInt64 ∨ type = NodeType.Double →
      data + 8 < ctx.bufferSize) ∧
    ∃ fuel', fuel = fuel' + 1 ∧
      (type = NodeType.Array → checkArrayNode (checkNode ctx fuel') ctx data = Res.ok true) ∧
      (type = NodeType.Hash → checkHashNode (checkNode ctx fuel') ctx data = Res.ok true) := by
  cases fuel with
  | zero => cases h
  | succ fuel' =>
    unfold checkNode at h
    unfold isKnownTag
    by_cases h1 : type = NodeType.String
    · subst h1
      simp only [if_true, Res.pure_eq_ok, Res.ok.injEq, decide_eq_true_eq] at h
      refine ⟨Or.inl rfl, by decide, fun _ => h, fun hh => ?_, fuel', rfl, fun hh => ?_,
        fun hh => ?_⟩
      · exact absurd hh (by decide)
      · exact absurd hh (by decide)
      · exact absurd hh (by decide)
    rw [if_neg h1] at h
    by_cases h2 : type = NodeType.Array
    · subst h2
      simp only [if_true] at h
      refine ⟨Or.inr (Or.inl rfl), by decide, fun hh => absurd hh h1, fun hh => ?_, fuel', rfl,
        fun _ => h, fun hh => ?_⟩
      · exact absurd hh (by decide)
      · exact absurd hh (by decide)
    rw [if_neg h2] at h
    by_cases h3 : type = NodeType.Hash
    · subst h3
      simp only [if_true] at h
      refine ⟨Or.inr (Or.inr (Or.inl rfl)), by decide, fun hh => absurd hh h1, fun hh => ?_,
        fuel', rfl, fun hh => absurd hh h2, fun _ => h⟩
      exact absurd hh (by decide)
    rw [if_neg h3] at h
    by_cases h4 : type = NodeType.Bool ∨ type = NodeType.Int ∨ type = NodeType.Float
        ∨ type = NodeType.UInt
    · refine ⟨by tauto, ?_, fun hh => absurd hh h1, fun hh => ?_, fuel', rfl,
        fun hh => absurd hh h2, fun hh => absurd hh h3⟩
      · rcases h4 with h | h | h | h <;> subst h <;> decide
      · exfalso
        rcases h4 with h | h | h | h <;> subst h <;> exact absurd hh (by decide)
    rw [if_neg h4] at h
    by_cases h5 : type = NodeType.Int64 ∨ type = NodeType.UInt64 ∨ type = NodeType.Double
    · rw [if_pos h5] at h
      simp only [Res.bind_eq_ok, add64_eq_ok, Res.pure_eq_ok, Res.ok.injEq,
        decide_eq_true_eq] at h
      obtain ⟨e, ⟨_, rfl⟩, hlt⟩ := h
      refine ⟨by tauto, ?_, fun hh => absurd hh h1, fun _ => hlt, fuel', rfl,
        fun hh => absurd hh h2, fun hh => absurd hh h3⟩
      rcases h5 with h | h | h <;> subst h <;> decide
    rw [if_neg h5] at h
    by_cases h6 : type = NodeType.Null
    · refine ⟨by tauto, ?_, fun hh => absurd hh h1, fun hh => absurd hh h5, fuel', rfl,
        fun hh => absurd hh h2, fun hh => absurd hh h3⟩
      subst h6; decide
    · rw [if_neg h6] at h
      cases h

/-! ### Items of checked views -/

theorem array_items {r : Reader} {ctx : NodeCheckContext} (htab : TablesChecked r ctx)
    {a : Array} (hv : View.CheckedBy (.array a) r ctx) {i : Nat} (hi : i < a.base.mNumItems) :
    ∃ item fuel, a.getByIndex i = Res.ok (some { reader := r, raw := item }) ∧
      item.raw < 2 ^ 32 ∧ checkNode ctx fuel item.raw item.type = Res.ok true := by
  obtain ⟨hr, ho, hn, f, hchk⟩ := hv
  rcases checkArrayNode_spec ctx htab.le ho with hf | ⟨n, _, hn', hn24, _, hitems, heq⟩
  · rw [hf] at hchk; cases hchk
  · rw [htab.br_eq, hn] at hn'
    injection hn' with hn'
    subst hn'
    rw [heq] at hchk
    have hbody := forAllItems_eq_ok_true.mp hchk i (Nat.zero_le i) (by omega)
    obtain ⟨item, hitem, hraw, _⟩ := hitems i hi
    rw [arrayBody_eq hitem] at hbody
    refine ⟨item, f, ?_, hraw, hbody⟩
    have e1 : util.getArrayTypesOffset a.base.mOffset = Res.ok (a.base.mOffset + 4) :=
      add64_of_lt (by omega)
    rw [htab.br_eq] at hitem
    simp only [Array.getByIndex, Array.getByIndexImpl, ContainerBase.numItems,
      if_neg (show ¬ a.base.mNumItems ≤ i by omega), e1, Res.ok_bind,
      getArrayValuesOffset_of_lt ho hn24, hitem, Res.pure_eq_ok, hr]

theorem hash_items {r : Reader} {ctx : NodeCheckContext} (htab : TablesChecked r ctx)
    (_ : r.mHashKeyTableOffset < 2 ^ 32)
    {h : Hash} (hv : View.CheckedBy (.hash h) r ctx) {i : Nat} (hi : i < h.base.mNumItems) :
    ∃ (raw : util.RawHashItem) (p fuel : Nat),
      hashGetByIndex r (getBinaryReader r) h.base.mOffset r.mHashKeyTableOffset i
        = Res.ok { name := p, data := { reader := r, raw := raw.data } } ∧
      util.readHashItem (getBinaryReader r) h.base.mOffset i = Res.ok raw ∧
      raw.keyIndex < ctx.hashKeyTableLen ∧
      util.getStringOffset (getBinaryReader r) r.mHashKeyTableOffset raw.keyIndex = Res.ok p ∧
      p < ctx.bufferSize ∧
      (∃ q, p ≤ q ∧ q < ctx.bufferSize ∧ (getBinaryReader r).byte q = Res.ok 0) ∧
      raw.data.raw < 2 ^ 32 ∧ checkNode ctx fuel raw.data.raw raw.data.type = Res.ok true := by
  obtain ⟨hr, ho, hn, f, hchk⟩ := hv
  rcases checkHashNode_spec ctx htab.le ho with hf | ⟨n, _, hn', hn24, _, hitems, heq⟩
  · rw [hf] at hchk; cases hchk
  · rw [htab.br_eq, hn] at hn'
    injection hn' with hn'
    subst hn'
    rw [heq] at hchk
    have hbody := forAllItems_eq_ok_true.mp hchk i (Nat.zero_le i) (by omega)
    obtain ⟨raw, hitem, _, hraw, _⟩ := hitems i hi
    rw [hashBody_eq ho (by omega) hitem] at hbody
    by_cases hk : ctx.hashKeyTableLen ≤ raw.keyIndex
    · rw [if_pos hk] at hbody; cases hbody
    · rw [if_neg hk] at hbody
      have hklt : raw.keyIndex < ctx.hashKeyTableLen := by omega
      rcases htab.2.1 with ⟨_, h0⟩ | ⟨_, _, _, hentries, _⟩
      · omega
      · obtain ⟨p, hp, hplt, hnul⟩ := checkStringTableEntry_eq_ok_true htab.le
          (hentries raw.keyIndex hklt)
        rw [htab.br_eq] at hp hnul hitem
        have hread : util.readHashItem (getBinaryReader r) h.base.mOffset i = Res.ok raw := by
          simp only [util.readHashItem, getHashItemOffset_of_lt ho (show i < 2 ^ 24 by omega),
            Res.ok_bind, hitem]
        refine ⟨raw, p, f, ?_, hread, hklt, hp, hplt, hnul, hraw, hbody⟩
        simp only [hashGetByIndex, hread, Res.ok_bind, hp, BinaryReader.getString,
          Res.pure_eq_ok]

theorem hash_getByIndex_of_lt {r : Reader} {ctx : NodeCheckContext} (htab : TablesChecked r ctx)
    (hoff : r.mHashKeyTableOffset < 2 ^ 32)
    {h : Hash} (hv : View.CheckedBy (.hash h) r ctx) {i : Nat} (hi : i < h.base.mNumItems) :
    ∃ entry, hashGetByIndex r (getBinaryReader r) h.base.mOffset r.mHashKeyTableOffset i
        = Res.ok entry ∧ h.getByIndex i = Res.ok (some entry) := by
  obtain ⟨raw, p, f, hget, _⟩ := hash_items htab hoff hv hi
  refine ⟨_, hget, ?_⟩
  obtain ⟨hr, _⟩ := hv
  simp only [Hash.getByIndex, Hash.getByIndexImpl, ContainerBase.numItems,
    if_neg (show ¬ h.base.mNumItems ≤ i by omega), hr, hget, Res.ok_bind, Res.pure_eq_ok]

theorem array_getByIndex_none {a : Array} {i : Nat} (hi : a.base.mNumItems ≤ i) :
    a.getByIndex i = Res.ok none := by
  simp only [Array.getByIndex, Array.getByIndexImpl, ContainerBase.numItems, if_pos hi,
    Res.pure_eq_ok]

theorem hash_getByIndex_none {h : Hash} {i : Nat} (hi : h.base.mNumItems ≤ i) :
    h.getByIndex i = Res.ok none := by
  simp only [Hash.getByIndex, Hash.getByIndexImpl, ContainerBase.numItems, if_pos hi,
    Res.pure_eq_ok]

/-- The item a checked view gives at an index has passed the node check. -/
theorem view_item_checked {r : Reader} {ctx : NodeCheckContext} (htab : TablesChecked r ctx)
    (hoff : r.mHashKeyTableOffset < 2 ^ 32)
    {v : View} (hv : v.CheckedBy r ctx) {i : Nat} {item : ItemData}
    (hitem : v.getByIndex i = Res.ok (some item)) :
    i < v.numItems ∧ item.reader = r ∧ item.raw.raw < 2 ^ 32 ∧
    ∃ fuel, checkNode ctx fuel item.raw.raw item.raw.type = Res.ok true := by
  cases v with
  | array a =>
    simp only [View.getByIndex] at hitem
    simp only [View.numItems, ContainerBase.numItems]
    by_cases hi : i < a.base.mNumItems
    · obtain ⟨raw, f, hget, hraw, hchk⟩ := array_items htab hv hi
      rw [hget] at hitem
      injection hitem with hitem
      injection hitem with hitem
      subst hitem
      exact ⟨hi, rfl, hraw, f, hchk⟩
    · rw [array_getByIndex_none (by omega)] at hitem
      cases hitem
  | hash h =>
    simp only [View.getByIndex] at hitem
    simp only [View.numItems, ContainerBase.numItems]
    by_cases hi : i < h.base.mNumItems
    · obtain ⟨raw, p, f, hget, _, _, _, _, _, hraw, hchk⟩ := hash_items htab hoff hv hi
      obtain ⟨entry, hget', hidx⟩ := hash_getByIndex_of_lt htab hoff hv hi
      rw [hget] at hget'
      injection hget' with hget'
      subst hget'
      rw [hidx] at hitem
      simp only [Res.ok_bind, Res.pure_eq_ok, Option.map_some'] at hitem
      injection hitem with hitem
      injection hitem with hitem
      subst hitem
      exact ⟨hi, rfl, hraw, f, hchk⟩
    · rw [hash_getByIndex_none (by omega)] at hitem
      simp at hitem

theorem view_item_of_lt {r : Reader} {ctx : NodeCheckContext} (htab : TablesChecked r ctx)
    (hoff : r.mHashKeyTableOffset < 2 ^ 32)
    {v : View} (hv : v.CheckedBy r ctx) {i : Nat} (hi : i < v.numItems) :
    ∃ item, v.getByIndex i = Res.ok (some item) := by
  cases v with
  | array a =>
    obtain ⟨raw, f, hget, _⟩ := array_items htab hv hi
    exact ⟨_, hget⟩
  | hash h =>
    obtain ⟨entry, _, hidx⟩ := hash_getByIndex_of_lt htab hoff hv hi
    exact ⟨entry.data, by simp [View.getByIndex, hidx]⟩

theorem array_new_eq_ok {r : Reader} {o : Nat} {a : Array} (h : Array.new r o = Res.ok a) :
    a.base.mReader = r ∧ a.base.mOffset = o ∧
    util.readContainerSize (getBinaryReader r) o = Res.ok a.base.mNumItems := by
  simp only [Array.new, ContainerBase.new, Res.bind_eq_ok, Res.pure_eq_ok] at h
  obtain ⟨base, ⟨n, hn, hbase⟩, ha⟩ := h
  injection ha with ha
  injection hbase with hbase
  subst ha hbase
  exact ⟨rfl, rfl, hn⟩

theorem hash_new_eq_ok {r : Reader} {o : Nat} {a : Hash} (h : Hash.new r o = Res.ok a) :
    a.base.mReader = r ∧ a.base.mOffset = o ∧
    util.readContainerSize (getBinaryReader r) o = Res.ok a.base.mNumItems := by
  simp only [Hash.new, ContainerBase.new, Res.bind_eq_ok, Res.pure_eq_ok] at h
  obtain ⟨base, ⟨n, hn, hbase⟩, ha⟩ := h
  injection ha with ha
  injection hbase with hbase
  subst ha hbase
  exact ⟨rfl, rfl, hn⟩

theorem item_getArray_checked {r : Reader} {ctx : NodeCheckContext} {item : ItemData}
    {a : Array} (hr : item.reader = r) (hraw : item.raw.raw < 2 ^ 32) {fuel : Nat}
    (hchk : checkNode ctx fuel item.raw.raw item.raw.type = Res.ok true)
    (ha : item.getArray = Res.ok (some a)) : View.CheckedBy (.array a) r ctx := by
  unfold ItemData.getArray at ha
  by_cases hty : item.raw.type = NodeType.Array
  · simp only [ne_eq, hty, not_true_eq_false, if_false, Res.bind_eq_ok, Res.pure_eq_ok] at ha
    obtain ⟨view, hnew, hsome⟩ := ha
    injection hsome with hsome
    injection hsome with hsome
    subst hsome
    obtain ⟨h1, h2, h3⟩ := array_new_eq_ok hnew
    obtain ⟨_, _, _, _, f, _, harr, _⟩ := checkNode_eq_ok_true hchk
    rw [hr] at h1 h3
    exact ⟨h1, by rw [h2]; exact hraw, by rw [h2]; exact h3, f, by rw [h2]; exact harr hty⟩
  · simp [hty] at ha

theorem item_getHash_checked {r : Reader} {ctx : NodeCheckContext} {item : ItemData}
    {a : Hash} (hr : item.reader = r) (hraw : item.raw.raw < 2 ^ 32) {fuel : Nat}
    (hchk : checkNode ctx fuel item.raw.raw item.raw.type = Res.ok true)
    (ha : item.getHash = Res.ok (some a)) : View.CheckedBy (.hash a) r ctx := by
  unfold ItemData.getHash at ha
  by_cases hty : item.raw.type = NodeType.Hash
  · simp only [ne_eq, hty, not_true_eq_false, if_false, Res.bind_eq_ok, Res.pure_eq_ok] at ha
    obtain ⟨view, hnew, hsome⟩ := ha
    injection hsome with hsome
    injection hsome with hsome
    subst hsome
    obtain ⟨h1, h2, h3⟩ := hash_new_eq_ok hnew
    obtain ⟨_, _, _, _, f, _, _, hh⟩ := checkNode_eq_ok_true hchk
    rw [hr] at h1 h3
    exact ⟨h1, by rw [h2]; exact hraw, by rw [h2]; exact h3, f, by rw [h2]; exact hh hty⟩
  · simp [hty] at ha

theorem checkRootNodeType_eq_ok_true {data : Buffer} {offset : Nat} {type : NodeType}
    (h : checkRootNodeType data offset type = Res.ok true) :
    offset ≠ 0 ∧ BinaryReader.byte { mData := data, mBigEndian := false } offset = Res.ok type := by
  unfold checkRootNodeType at h
  by_cases h0 : offset = 0
  · simp [h0] at h
  · simp only [if_neg h0, Res.bind_eq_ok, Res.pure_eq_ok, Res.ok.injEq, decide_eq_true_eq] at h
    obtain ⟨tag, htag, heq⟩ := h
    subst heq
    exact ⟨h0, htag⟩

theorem root_tag {r : Reader} {fuel : Nat} {ctx : NodeCheckContext} (hc : r.Checked fuel ctx)
    {type : NodeType} (hroot : checkRootNodeType r.mBuffer r.mRootNodeOffset type = Res.ok true) :
    checkNode ctx fuel r.mRootNodeOffset type = Res.ok true := by
  obtain ⟨h0, hbyte⟩ := checkRootNodeType_eq_ok_true hroot
  rcases hc.root with h | ⟨t, ht, _, hchk⟩
  · exact absurd h h0
  · rw [hc.tables.br_eq, read_one_eq_byte] at ht
    have : BinaryReader.byte (getBinaryReader r) r.mRootNodeOffset
        = BinaryReader.byte { mData := r.mBuffer, mBigEndian := false } r.mRootNodeOffset := rfl
    rw [this, hbyte] at ht
    injection ht with ht
    subst ht
    exact hchk

theorem reachable_checked {r : Reader} {fuel : Nat} {ctx : NodeCheckContext}
    (hc : r.Checked fuel ctx) {v : View} (hreach : Reachable r v) : v.CheckedBy r ctx := by
  induction hreach with
  | @rootArray a ha =>
    simp only [Reader.getArray, Res.bind_eq_ok] at ha
    obtain ⟨isArr, hisArr, ha⟩ := ha
    cases isArr with
    | false => simp at ha
    | true =>
      simp only [Bool.not_true, Bool.false_eq_true, if_false, Res.bind_eq_ok, Res.pure_eq_ok] at ha
      obtain ⟨view, hnew, hsome⟩ := ha
      injection hsome with hsome
      injection hsome with hsome
      subst hsome
      obtain ⟨h1, h2, h3⟩ := array_new_eq_ok hnew
      have hchk := root_tag hc hisArr
      obtain ⟨_, _, _, _, f, _, harr, _⟩ := checkNode_eq_ok_true hchk
      exact ⟨h1, by rw [h2]; exact hc.offsets.2.2, by rw [h2]; exact h3, f,
        by rw [h2]; exact harr rfl⟩
  | @rootHash h ha =>
    simp only [Reader.getHash, Res.bind_eq_ok] at ha
    obtain ⟨isH, hisH, ha⟩ := ha
    cases isH with
    | false => simp at ha
    | true =>
      simp only [Bool.not_true, Bool.false_eq_true, if_false, Res.bind_eq_ok, Res.pure_eq_ok] at ha
      obtain ⟨view, hnew, hsome⟩ := ha
      injection hsome with hsome
      injection hsome with hsome
      subst hsome
      obtain ⟨h1, h2, h3⟩ := hash_new_eq_ok hnew
      have hchk := root_tag hc hisH
      obtain ⟨_, _, _, _, f, _, _, hh⟩ := checkNode_eq_ok_true hchk
      exact ⟨h1, by rw [h2]; exact hc.offsets.2.2, by rw [h2]; exact h3, f,
        by rw [h2]; exact hh rfl⟩
  | childArray _ hitem ha ih =>
    obtain ⟨_, hr, hraw, f, hchk⟩ := view_item_checked hc.tables hc.offsets.1 ih hitem
    exact item_getArray_checked hr hraw hchk ha
  | childHash _ hitem ha ih =>
    obtain ⟨_, hr, hraw, f, hchk⟩ := view_item_checked hc.tables hc.offsets.1 ih hitem
    exact item_getHash_checked hr hraw hchk ha

/-! ### Validated documents -/

theorem validated {buffer : Buffer} {reader : Reader} {fuel : Nat}
    (hnew : Reader.new buffer = Res.ok reader) (hvalid : reader.isValid fuel = Res.ok true) :
    reader.mBuffer = buffer ∧ ∃ ctx, reader.Checked fuel ctx := by
  obtain ⟨r, hr, hbuf, h1, h2, h3, _⟩ := Reader.new_spec buffer
  rw [hnew] at hr
  injection hr with hr
  subst hr
  exact ⟨hbuf, Reader.isValid_checked ⟨h1, h2, h3⟩ hvalid⟩

theorem sampleRootHash_reachable : Reachable sampleReader (.hash sampleRootHash) :=
  Reachable.rootHash (by decide)

theorem sampleArray_reachable : Reachable sampleReader (.array sampleArray) :=
  @Reachable.childArray sampleReader (.hash sampleRootHash) 1
    { reader := sampleReader, raw := { raw := 72, type := NodeType.Array } } sampleArray
    sampleRootHash_reachable (by decide) (by decide)

/-- C4. On a buffer that `isValid()` accepts, every item that `getByIndex` gives at an
index below the item count of an array or map reachable from the root carries one of the
eleven known tags, and never the StringTable tag. -/
theorem reachable_items_have_known_tags (buffer : Buffer) (reader : Reader) (fuel : Nat)
    (hnew : Reader.new buffer = Res.ok reader) (hvalid : reader.isValid fuel = Res.ok true)
    (view : View) (hreach : Reachable reader view) (idx : Nat) (hidx : idx < view.numItems) :
    ∃ item, view.getByIndex idx = Res.ok (some item) ∧ isKnownTag item.raw.type ∧
      item.raw.type ≠ NodeType.StringTable := by
  obtain ⟨_, ctx, hc⟩ := validated hnew hvalid
  have hv := reachable_checked hc hreach
  obtain ⟨item, hitem⟩ := view_item_of_lt hc.tables hc.offsets.1 hv hidx
  obtain ⟨_, _, _, f, hchk⟩ := view_item_checked hc.tables hc.offsets.1 hv hitem
  obtain ⟨hknown, hne, _⟩ := checkNode_eq_ok_true hchk
  exact ⟨item, hitem, hknown, hne⟩

/-- C4, witness: the second item (index 1) of the array of the sample document. -/
theorem reachable_items_have_known_tags_witness :
    Reader.new sampleDocument = Res.ok sampleReader ∧ sampleReader.isValid 3 = Res.ok true ∧
    Reachable sampleReader (.array sampleArray) ∧ 1 < (View.array sampleArray).numItems ∧
    ∃ item, (View.array sampleArray).getByIndex 1 = Res.ok (some item) ∧
      isKnownTag item.raw.type ∧ item.raw.type ≠ NodeType.StringTable :=
  ⟨by decide, by decide, sampleArray_reachable, by decide,
    reachable_items_have_known_tags sampleDocument sampleReader 3 (by decide) (by decide)
      (.array sampleArray) sampleArray_reachable 1 (by decide)⟩

/-- C5. On a buffer that `isValid()` accepts, an item tagged String that a reachable array
or map gives has a raw value below the count of the string table; `getString()` returns
the position `getStringOffset(stringTableOffset, raw)`; that position is below the buffer
size and a NUL byte follows it before the end of the buffer; and the 4-byte offset word
read to compute it lies inside the buffer. -/
theorem reachable_string_in_buffer (buffer : Buffer) (reader : Reader) (fuel : Nat)
    (hnew : Reader.new buffer = Res.ok reader) (hvalid : reader.isValid fuel = Res.ok true)
    (view : View) (hreach : Reachable reader view) (idx : Nat) (item : ItemData)
    (hitem : view.getByIndex idx = Res.ok (some item))
    (hstring : item.raw.type = NodeType.String) :
    ∃ count p,
      (getBinaryReader reader).readU24 (reader.mStringTableOffset + 1) = Res.ok count ∧
      item.raw.raw < count ∧
      item.getString = Res.ok (some p) ∧
      util.getStringOffset (getBinaryReader reader) reader.mStringTableOffset item.raw.raw
        = Res.ok p ∧
      p < buffer.length ∧
      (∃ q, p ≤ q ∧ q < buffer.length ∧ (getBinaryReader reader).byte q = Res.ok 0) ∧
      reader.mStringTableOffset + 4 + 4 * item.raw.raw + 4 ≤ buffer.length := by
  obtain ⟨hbuf, ctx, hc⟩ := validated hnew hvalid
  have hv := reachable_checked hc hreach
  obtain ⟨_, hr, _, f, hchk⟩ := view_item_checked hc.tables hc.offsets.1 hv hitem
  obtain ⟨_, _, hstr, _⟩ := checkNode_eq_ok_true hchk
  have hlt := hstr hstring
  have hsize := hc.tables.size_le
  rw [hbuf] at hsize
  rcases hc.tables.2.2 with ⟨_, h0⟩ | ⟨_, hcount, _, hentries, _⟩
  · omega
  · obtain ⟨p, hp, hplt, q, hpq, hq, hnul⟩ := checkStringTableEntry_eq_ok_true hc.tables.le
      (hentries item.raw.raw hlt)
    rw [hc.tables.br_eq] at hp hnul hcount
    obtain ⟨w, _, _, hword⟩ := getStringOffset_eq_ok
      (show item.raw.raw < 2 ^ 30 by have := (readU24_eq_ok hcount).1; omega) hp
    have hlen : (getBinaryReader reader).mData.length = buffer.length := by
      show reader.mBuffer.length = buffer.length
      rw [hbuf]
    refine ⟨ctx.stringTableLen, p, hcount, hlt, ?_, hp, by omega, ⟨q, hpq, by omega, hnul⟩,
      by omega⟩
    simp only [ItemData.getString, ne_eq, hstring, not_true_eq_false, if_false, hr, hp,
      Res.ok_bind, BinaryReader.getString, Res.pure_eq_ok]

/-- C5, witness: the string item stored under the key `a` of the sample document. -/
theorem reachable_string_in_buffer_witness :
    Reader.new sampleDocument = Res.ok sampleReader ∧ sampleReader.isValid 3 = Res.ok true ∧
    Reachable sampleReader (.hash sampleRootHash) ∧
    (View.hash sampleRootHash).getByIndex 0
      = Res.ok (some { reader := sampleReader, raw := { raw := 0, type := NodeType.String } }) ∧
    ∃ count p,
      (getBinaryReader sampleReader).readU24 (sampleReader.mStringTableOffset + 1)
        = Res.ok count ∧
      0 < count ∧
      ItemData.getString { reader := sampleReader, raw := { raw := 0, type := NodeType.String } }
        = Res.ok (some p) ∧
      util.getStringOffset (getBinaryReader sampleReader) sampleReader.mStringTableOffset 0
        = Res.ok p ∧
      p < sampleDocument.length ∧
      (∃ q, p ≤ q ∧ q < sampleDocument.length ∧
        (getBinaryReader sampleReader).byte q = Res.ok 0) ∧
      sampleReader.mStringTableOffset + 4 + 4 * 0 + 4 ≤ sampleDocument.length :=
  ⟨by decide, by decide, sampleRootHash_reachable, by decide,
    reachable_string_in_buffer sampleDocument sampleReader 3 (by decide) (by decide)
      (.hash sampleRootHash) sampleRootHash_reachable 0
      { reader := sampleReader, raw := { raw := 0, type := NodeType.String } } (by decide) rfl⟩

/-- C6. On a buffer that `isValid()` accepts, for an item tagged Int64, UInt64 or Double
that a reachable array or map gives, the 8 bytes at `raw .. raw + 7` are inside the buffer:
`raw + 8` is at most the buffer size, the 8-byte read at `raw` succeeds, and `getInt64`,
`getUInt64` and `getDouble` return without reading outside the buffer. -/
theorem reachable_wide_scalar_in_buffer (buffer : Buffer) (reader : Reader) (fuel : Nat)
    (hnew : Reader.new buffer = Res.ok reader) (hvalid : reader.isValid fuel = Res.ok true)
    (view : View) (hreach : Reachable reader view) (idx : Nat) (item : ItemData)
    (hitem : view.getByIndex idx = Res.ok (some item))
    (hwide : item.raw.type = NodeType.Int64 ∨ item.raw.type = NodeType.UInt64
      ∨ item.raw.type = NodeType.Double) :
    item.raw.raw + 8 ≤ buffer.length ∧
    (∃ value, (getBinaryReader reader).read 8 item.raw.raw = Res.ok value ∧
      (item.raw.type = NodeType.Int64 → item.getInt64 = Res.ok (some (toS64 value))) ∧
      (item.raw.type = NodeType.UInt64 → item.getUInt64 = Res.ok (some value)) ∧
      (item.raw.type = NodeType.Double → item.getDouble = Res.ok (some (f64.ofBits value)))) ∧
    (∃ x, item.getInt64 = Res.ok x) ∧ (∃ x, item.getUInt64 = Res.ok x) ∧
    (∃ x, item.getDouble = Res.ok x) := by
  obtain ⟨hbuf, ctx, hc⟩ := validated hnew hvalid
  have hv := reachable_checked hc hreach
  obtain ⟨_, hr, _, f, hchk⟩ := view_item_checked hc.tables hc.offsets.1 hv hitem
  obtain ⟨_, _, _, hbig, _⟩ := checkNode_eq_ok_true hchk
  have hlt := hbig hwide
  have hsize := hc.tables.size_le
  rw [hbuf] at hsize
  have hle : item.raw.raw + 8 ≤ (getBinaryReader reader).mData.length := by
    show item.raw.raw + 8 ≤ reader.mBuffer.length
    rw [hbuf]; omega
  obtain ⟨value, hread, _⟩ := read_of_le (getBinaryReader reader) hle
  have hread' : (getBinaryReader item.reader).read 8 item.raw.raw = Res.ok value := by
    rw [hr]; exact hread
  have hI64 : item.raw.type = NodeType.Int64 → item.getInt64 = Res.ok (some (toS64 value)) := by
    intro h
    simp [ItemData.getInt64, h, hread', NodeType.Int64, NodeType.Int, NodeType.UInt]
  have hU64 : item.raw.type = NodeType.UInt64 → item.getUInt64 = Res.ok (some value) := by
    intro h
    simp [ItemData.getUInt64, ItemData.getUInt, h, hread', NodeType.Int64, NodeType.Int,
      NodeType.UInt, NodeType.UInt64]
  have hD : item.raw.type = NodeType.Double →
      item.getDouble = Res.ok (some (f64.ofBits value)) := by
    intro h
    simp [ItemData.getDouble, ItemData.getFloat, h, hread', NodeType.Double, NodeType.Float]
  refine ⟨by omega, ⟨value, hread, hI64, hU64, hD⟩, ?_, ?_, ?_⟩
  · rcases hwide with h | h | h
    · exact ⟨_, hI64 h⟩
    · exact ⟨none, by
        simp [ItemData.getInt64, h, NodeType.Int64, NodeType.Int, NodeType.UInt,
          NodeType.UInt64]⟩
    · exact ⟨none, by
        simp [ItemData.getInt64, h, NodeType.Int64, NodeType.Int, NodeType.UInt,
          NodeType.Double]⟩
  · rcases hwide with h | h | h
    · by_cases hneg : toS64 value < 0
      · exact ⟨none, by
          simp [ItemData.getUInt64, ItemData.getUInt, h, hread', hneg, NodeType.Int64,
            NodeType.Int, NodeType.UInt, NodeType.UInt64]⟩
      · exact ⟨some value, by
          simp [ItemData.getUInt64, ItemData.getUInt, h, hread', hneg, NodeType.Int64,
            NodeType.Int, NodeType.UInt, NodeType.UInt64]⟩
    · exact ⟨_, hU64 h⟩
    · exact ⟨none, by
        simp [ItemData.getUInt64, ItemData.getUInt, h, NodeType.Int64, NodeType.Int,
          NodeType.UInt, NodeType.UInt64, NodeType.Double]⟩
  · rcases hwide with h | h | h
    · exact ⟨none, by
        simp [ItemData.getDouble, ItemData.getFloat, h, NodeType.Double, NodeType.Float,
          NodeType.Int64]⟩
    · exact ⟨none, by
        simp [ItemData.getDouble, ItemData.getFloat, h, NodeType.Double, NodeType.Float,
          NodeType.UInt64]⟩
    · exact ⟨_, hD h⟩

/-- C6, witness: the Int64 item of the array of the sample document, stored at 88. -/
theorem reachable_wide_scalar_in_buffer_witness :
    Reader.new sampleDocument = Res.ok sampleReader ∧ sampleReader.isValid 3 = Res.ok true ∧
    Reachable sampleReader (.array sampleArray) ∧
    (View.array sampleArray).getByIndex 0
      = Res.ok (some { reader := sampleReader, raw := { raw := 88, type := NodeType.Int64 } }) ∧
    88 + 8 ≤ sampleDocument.length ∧
    (∃ value, (getBinaryReader sampleReader).read 8 88 = Res.ok value ∧
      (NodeType.Int64 = NodeType.Int64 →
        ItemData.getInt64 { reader := sampleReader, raw := { raw := 88, type := NodeType.Int64 } }
          = Res.ok (some (toS64 value))) ∧
      (NodeType.Int64 = NodeType.UInt64 →
        ItemData.getUInt64 { reader := sampleReader, raw := { raw := 88, type := NodeType.Int64 } }
          = Res.ok (some value)) ∧
      (NodeType.Int64 = NodeType.Double →
        ItemData.getDouble { reader := sampleReader, raw := { raw := 88, type := NodeType.Int64 } }
          = Res.ok (some (f64.ofBits value)))) ∧
    (∃ x, ItemData.getInt64
      { reader := sampleReader, raw := { raw := 88, type := NodeType.Int64 } } = Res.ok x) ∧
    (∃ x, ItemData.getUInt64
      { reader := sampleReader, raw := { raw := 88, type := NodeType.Int64 } } = Res.ok x) ∧
    (∃ x, ItemData.getDouble
      { reader := sampleReader, raw := { raw := 88, type := NodeType.Int64 } } = Res.ok x) :=
  ⟨by decide, by decide, sampleArray_reachable, by decide,
    reachable_wide_scalar_in_buffer sampleDocument sampleReader 3 (by decide) (by decide)
      (.array sampleArray) sampleArray_reachable 0
      { reader := sampleReader, raw := { raw := 88, type := NodeType.Int64 } } (by decide)
      (Or.inl rfl)⟩

/-! ### String comparison -/

theorem cstr_ne_zero (mem : List (Fin 256)) : ∀ b ∈ cstr mem, b ≠ 0 := by
  intro b hb
  have := List.mem_takeWhile_imp hb
  simpa using this

theorem cstr_idem (mem : List (Fin 256)) : cstr (cstr mem) = cstr mem := by
  unfold cstr
  rw [List.takeWhile_takeWhile]
  simp

theorem cstr_of_ne_zero {s : List (Fin 256)} (h : ∀ b ∈ s, b ≠ 0) : cstr s = s := by
  unfold cstr
  rw [List.takeWhile_eq_self_iff]
  intro b hb
  simpa using h b hb

theorem strcmp_self (s : List (Fin 256)) : strcmp s s = 0 := by
  induction s with
  | nil => rfl
  | cons a s ih => simp [strcmp, ih]

theorem strcmp_swap : ∀ (s t : List (Fin 256)), strcmp t s = - strcmp s t
  | [], [] => by simp [strcmp]
  | [], b :: _ => by simp [strcmp]
  | a :: _, [] => by simp [strcmp]
  | a :: s, b :: t => by
    by_cases h : a = b
    · subst h
      simp [strcmp, strcmp_swap s t]
    · have h' : ¬ b = a := fun e => h e.symm
      simp [strcmp, h, h']

theorem strcmp_eq_zero : ∀ {s t : List (Fin 256)}, (∀ b ∈ s, b ≠ 0) → (∀ b ∈ t, b ≠ 0) →
    strcmp s t = 0 → s = t
  | [], [], _, _, _ => rfl
  | [], b :: _, _, ht, h => by
    exfalso
    have hb := ht b (by simp)
    simp only [strcmp, neg_eq_zero] at h
    apply hb
    apply Fin.ext
    simpa using h
  | a :: _, [], hs, _, h => by
    exfalso
    have ha := hs a (by simp)
    simp only [strcmp] at h
    apply ha
    apply Fin.ext
    simpa using h
  | a :: s, b :: t, hs, ht, h => by
    by_cases hab : a = b
    · subst hab
      simp only [strcmp, if_true] at h
      rw [strcmp_eq_zero (fun x hx => hs x (by simp [hx])) (fun x hx => ht x (by simp [hx])) h]
    · exfalso
      simp only [strcmp, if_neg hab] at h
      apply hab
      apply Fin.ext
      omega

theorem tdiv_two_mid {a b : Int} (ha : 0 ≤ a) (hab : a ≤ b) :
    a ≤ Int.tdiv (a + b) 2 ∧ Int.tdiv (a + b) 2 ≤ b := by
  rw [Int.tdiv_eq_ediv (by omega) (by decide)]
  omega

/-! ### Key lookup -/

theorem cstrAt_ne_zero {br : BinaryReader} {p : Nat} {s : List (Fin 256)}
    (h : br.cstrAt p = Res.ok s) : ∀ b ∈ s, b ≠ 0 := by
  unfold BinaryReader.cstrAt at h
  split at h
  · injection h with h
    subst h
    exact cstr_ne_zero _
  · cases h

theorem getByKeyLoop_step {h : Hash} {entries : Nat → HashItem} {keys : Nat → List (Fin 256)}
    (hE : h.HasEntries entries keys) (key : List (Fin 256)) {a b : Int}
    (ha : 0 ≤ a) (hab : a ≤ b) (hb : b < h.base.mNumItems) :
    ∃ m : Nat, a ≤ (m : Int) ∧ (m : Int) ≤ b ∧ m < h.base.mNumItems ∧
      h.getByKeyLoop key a b =
        if strcmp (keys m) (cstr key) < 0 then h.getByKeyLoop key ((m : Int) + 1) b
        else if strcmp (keys m) (cstr key) > 0 then h.getByKeyLoop key a ((m : Int) - 1)
        else Res.ok (some (entries m).data) := by
  obtain ⟨h1, h2⟩ := tdiv_two_mid ha hab
  have hm0 : 0 ≤ Int.tdiv (a + b) 2 := by omega
  refine ⟨(Int.tdiv (a + b) 2).toNat, by omega, by omega, by omega, ?_⟩
  obtain ⟨he, hk⟩ := hE (Int.tdiv (a + b) 2).toNat (by omega)
  rw [Hash.getByKeyLoop]
  simp only [if_pos hab, he, Res.ok_bind, hk, Int.toNat_of_nonneg hm0, Res.pure_eq_ok]

theorem getByKeyLoop_none {h : Hash} (key : List (Fin 256)) {a b : Int} (hab : ¬ a ≤ b) :
    h.getByKeyLoop key a b = Res.ok none := by
  rw [Hash.getByKeyLoop]
  simp only [if_neg hab, Res.pure_eq_ok]

/-- The loop returns, and what it finds is an entry between `a` and `b` with the key. -/
theorem getByKeyLoop_sound {h : Hash} {entries : Nat → HashItem} {keys : Nat → List (Fin 256)}
    (hE : h.HasEntries entries keys) (key : List (Fin 256)) :
    ∀ (n : Nat) (a b : Int), (b + 1 - a).toNat ≤ n → 0 ≤ a → b < h.base.mNumItems →
      ∃ found, h.getByKeyLoop key a b = Res.ok found ∧
        ∀ item, found = some item →
          ∃ i : Nat, a ≤ (i : Int) ∧ (i : Int) ≤ b ∧ item = (entries i).data ∧
            keys i = cstr key := by
  intro n
  induction n with
  | zero =>
    intro a b hn ha hb
    refine ⟨none, getByKeyLoop_none key (by omega), ?_⟩
    intro item hitem
    cases hitem
  | succ n ih =>
    intro a b hn ha hb
    by_cases hab : a ≤ b
    · obtain ⟨m, hm1, hm2, hm3, heq⟩ := getByKeyLoop_step hE key ha hab hb
      rw [heq]
      by_cases hlt : strcmp (keys m) (cstr key) < 0
      · rw [if_pos hlt]
        obtain ⟨found, hf, hspec⟩ := ih ((m : Int) + 1) b (by omega) (by omega) hb
        refine ⟨found, hf, ?_⟩
        intro item hitem
        obtain ⟨i, h1, h2, h3⟩ := hspec item hitem
        exact ⟨i, by omega, h2, h3⟩
      · rw [if_neg hlt]
        by_cases hgt : strcmp (keys m) (cstr key) > 0
        · rw [if_pos hgt]
          obtain ⟨found, hf, hspec⟩ := ih a ((m : Int) - 1) (by omega) ha (by omega)
          refine ⟨found, hf, ?_⟩
          intro item hitem
          obtain ⟨i, h1, h2, h3⟩ := hspec item hitem
          exact ⟨i, h1, by omega, h3⟩
        · rw [if_neg hgt]
          refine ⟨_, rfl, ?_⟩
          intro item hitem
          injection hitem with hitem
          refine ⟨m, hm1, hm2, hitem.symm, ?_⟩
          exact strcmp_eq_zero (cstrAt_ne_zero (hE m hm3).2) (cstr_ne_zero key) (by omega)
    · refine ⟨none, getByKeyLoop_none key hab, ?_⟩
      intro item hitem
      cases hitem

/-- On strictly ascending keys the loop finds the entry that has the key. -/
theorem getByKeyLoop_complete {h : Hash} {entries : Nat → HashItem}
    {keys : Nat → List (Fin 256)} (hE : h.HasEntries entries keys)
    (hsorted : ∀ i j, i < j → j < h.base.mNumItems → strcmp (keys i) (keys j) < 0)
    (key : List (Fin 256)) {t : Nat} (ht : keys t = cstr key) :
    ∀ (n : Nat) (a b : Int), (b + 1 - a).toNat ≤ n → 0 ≤ a → b < h.base.mNumItems →
      a ≤ (t : Int) → (t : Int) ≤ b →
      h.getByKeyLoop key a b = Res.ok (some (entries t).data) := by
  intro n
  induction n with
  | zero =>
    intro a b hn ha hb hat htb
    omega
  | succ n ih =>
    intro a b hn ha hb hat htb
    obtain ⟨m, hm1, hm2, hm3, heq⟩ := getByKeyLoop_step hE key ha (by omega) hb
    rw [heq, ← ht]
    rcases Nat.lt_trichotomy m t with hmt | hmt | hmt
    · have := hsorted m t hmt (by omega)
      rw [if_pos this]
      exact ih ((m : Int) + 1) b (by omega) (by omega) hb (by omega) htb
    · subst hmt
      rw [strcmp_self]
      simp
    · have := hsorted t m hmt hm3
      rw [strcmp_swap (keys t) (keys m)]
      rw [if_neg (by omega), if_pos (by omega)]
      exact ih a ((m : Int) - 1) (by omega) ha (by omega) hat (by omega)

theorem scanFrom_spec {h : Hash} {entries : Nat → HashItem} {keys : Nat → List (Fin 256)}
    (hE : h.HasEntries entries keys) (key : List (Fin 256)) :
    ∀ (count first : Nat), first + count ≤ h.base.mNumItems →
      (∀ i, first ≤ i → i < first + count → keys i ≠ cstr key) ∧
        h.scanFrom key first count = Res.ok none ∨
      ∃ t, first ≤ t ∧ t < first + count ∧ keys t = cstr key ∧
        h.scanFrom key first count = Res.ok (some (entries t).data) := by
  intro count
  induction count with
  | zero =>
    intro first _
    exact Or.inl ⟨fun i h1 h2 => by omega, rfl⟩
  | succ count ih =>
    intro first hle
    obtain ⟨he, hk⟩ := hE first (by omega)
    by_cases hkey : keys first = cstr key
    · refine Or.inr ⟨first, Nat.le_refl _, by omega, hkey, ?_⟩
      simp only [Hash.scanFrom, he, Res.ok_bind, hk, hkey, if_true, Res.pure_eq_ok]
    · have hstep : h.scanFrom key first (count + 1) = h.scanFrom key (first + 1) count := by
        simp only [Hash.scanFrom, he, Res.ok_bind, hk, hkey, if_false]
      rw [hstep]
      rcases ih (first + 1) (by omega) with ⟨hnone, hres⟩ | ⟨t, h1, h2, h3, h4⟩
      · refine Or.inl ⟨?_, hres⟩
        intro i h1 h2
        rcases Nat.eq_or_lt_of_le h1 with rfl | hlt
        · exact hkey
        · exact hnone i hlt (by omega)
      · exact Or.inr ⟨t, by omega, by omega, h3, h4⟩

theorem hash_hasEntries {r : Reader} {ctx : NodeCheckContext} (htab : TablesChecked r ctx)
    (hoff : r.mHashKeyTableOffset < 2 ^ 32) {h : Hash} (hv : View.CheckedBy (.hash h) r ctx) :
    ∃ entries keys, h.HasEntries entries keys ∧
      ∀ i, i < h.base.mNumItems →
        h.getByIndex i = Res.ok (some (entries i)) ∧ h.keyAt i = Res.ok (keys i) ∧
        (entries i).name < ctx.bufferSize ∧
        ∃ raw, util.readHashItem (getBinaryReader r) h.base.mOffset i = Res.ok raw ∧
          raw.keyIndex < ctx.hashKeyTableLen ∧
          util.getStringOffset (getBinaryReader r) r.mHashKeyTableOffset raw.keyIndex
            = Res.ok (entries i).name ∧
          (entries i).data = { reader := r, raw := raw.data } := by
  have hr : h.base.mReader = r := hv.1
  let entries : Nat → HashItem := fun i =>
    match hashGetByIndex r (getBinaryReader r) h.base.mOffset r.mHashKeyTableOffset i with
    | Res.ok e => e
    | Res.fault _ => { name := 0, data := { reader := r, raw := { raw := 0, type := 0 } } }
  let keys : Nat → List (Fin 256) := fun i =>
    match (getBinaryReader r).cstrAt (entries i).name with
    | Res.ok k => k
    | Res.fault _ => []
  have main : ∀ i, i < h.base.mNumItems →
      hashGetByIndex r (getBinaryReader r) h.base.mOffset r.mHashKeyTableOffset i
        = Res.ok (entries i) ∧
      (getBinaryReader r).cstrAt (entries i).name = Res.ok (keys i) ∧
      h.getByIndex i = Res.ok (some (entries i)) ∧
      (entries i).name < ctx.bufferSize ∧
      ∃ raw, util.readHashItem (getBinaryReader r) h.base.mOffset i = Res.ok raw ∧
        raw.keyIndex < ctx.hashKeyTableLen ∧
        util.getStringOffset (getBinaryReader r) r.mHashKeyTableOffset raw.keyIndex
          = Res.ok (entries i).name ∧
        (entries i).data = { reader := r, raw := raw.data } := by
    intro i hi
    obtain ⟨raw, p, f, hget, hread, hk, hp, hplt, ⟨q, hpq, _, hq⟩, _, _⟩ :=
      hash_items htab hoff hv hi
    obtain ⟨entry, hget', hidx⟩ := hash_getByIndex_of_lt htab hoff hv hi
    have he : entries i = { name := p, data := { reader := r, raw := raw.data } } := by
      simp only [entries, hget]
    obtain ⟨s, hs⟩ := cstrAt_of_byte_zero (getBinaryReader r) hpq hq
    have hkeys : keys i = s := by
      simp only [keys, he, hs]
    rw [hget] at hget'
    injection hget' with hget'
    rw [he, hkeys]
    exact ⟨hget, hs, by rw [hget']; exact hidx, hplt, raw, hread, hk, hp, rfl⟩
  refine ⟨entries, keys, ?_, ?_⟩
  · intro i hi
    obtain ⟨h1, h2, _⟩ := main i hi
    rw [hr]
    exact ⟨h1, h2⟩
  · intro i hi
    obtain ⟨h1, h2, h3, h4, h5⟩ := main i hi
    refine ⟨h3, ?_, h4, h5⟩
    simp only [Hash.keyAt, hr, h1, Res.ok_bind, h2]

theorem getByKey_eq_loop (h : Hash) (key : List (Fin 256)) :
    h.getByKey key = h.getByKeyLoop key 0 ((h.base.mNumItems : Int) - 1) := rfl

theorem sampleRootHash_sorted : ∀ (i j : Nat) (ki kj : List (Fin 256)), i < j →
    j < sampleRootHash.base.numItems → sampleRootHash.keyAt i = Res.ok ki →
    sampleRootHash.keyAt j = Res.ok kj → strcmp ki kj < 0 := by
  intro i j ki kj hij hj h1 h2
  have hj' : j < 2 := hj
  have hi0 : i = 0 := by omega
  have hj1 : j = 1 := by omega
  subst hi0 hj1
  have e1 : sampleRootHash.keyAt 0 = Res.ok [0x61] := by decide
  have e2 : sampleRootHash.keyAt 1 = Res.ok [0x62] := by decide
  rw [e1] at h1
  rw [e2] at h2
  injection h1 with h1
  injection h2 with h2
  subst h1 h2
  decide

/-- C7. Round trip for key lookup: on a buffer that `isValid()` accepts, for a reachable
map whose key strings are strictly ascending in entry order (byte-wise, as `strcmp`
compares), `getByKey` of the key of entry `i` returns exactly the item of `getByIndex(i)`,
for every `i` below the count; and for every key `getByKey` returns what a linear scan for
the entry with that key returns. -/
theorem getByKey_roundtrip (buffer : Buffer) (reader : Reader) (fuel : Nat)
    (hnew : Reader.new buffer = Res.ok reader) (hvalid : reader.isValid fuel = Res.ok true)
    (h : Hash) (hreach : Reachable reader (.hash h))
    (hsorted : ∀ (i j : Nat) (ki kj : List (Fin 256)), i < j → j < h.base.numItems →
      h.keyAt i = Res.ok ki → h.keyAt j = Res.ok kj → strcmp ki kj < 0) :
    (∀ i, i < h.base.numItems → ∃ entry key, h.getByIndex i = Res.ok (some entry) ∧
      h.keyAt i = Res.ok key ∧ h.getByKey key = Res.ok (some entry.data)) ∧
    (∀ key, h.getByKey key = h.scanByKey key) := by
  obtain ⟨_, ctx, hc⟩ := validated hnew hvalid
  have hv := reachable_checked hc hreach
  obtain ⟨entries, keys, hE, hidx⟩ := hash_hasEntries hc.tables hc.offsets.1 hv
  have hsorted' : ∀ i j, i < j → j < h.base.mNumItems → strcmp (keys i) (keys j) < 0 := by
    intro i j hij hj
    exact hsorted i j _ _ hij hj (hidx i (by omega)).2.1 (hidx j hj).2.1
  constructor
  · intro i hi
    have hi' : i < h.base.mNumItems := hi
    obtain ⟨h1, h2, _⟩ := hidx i hi'
    refine ⟨entries i, keys i, h1, h2, ?_⟩
    rw [getByKey_eq_loop]
    have hk : keys i = cstr (keys i) := (cstr_of_ne_zero (cstrAt_ne_zero (hE i hi').2)).symm
    exact getByKeyLoop_complete hE hsorted' (keys i) hk _ 0 _ (Nat.le_refl _) (by omega)
      (by omega) (by omega) (by omega)
  · intro key
    rw [getByKey_eq_loop]
    unfold Hash.scanByKey
    rcases scanFrom_spec hE key h.base.mNumItems 0 (by simp [ContainerBase.numItems])
      with ⟨hnone, hres⟩ | ⟨t, _, ht, hkey, hres⟩
    · simp only [ContainerBase.numItems]
      rw [hres]
      obtain ⟨found, hf, hspec⟩ := getByKeyLoop_sound hE key _ 0
        ((h.base.mNumItems : Int) - 1) (Nat.le_refl _) (by omega) (by omega)
      rw [hf]
      cases found with
      | none => rfl
      | some item =>
        obtain ⟨i, _, hi, _, hk⟩ := hspec item rfl
        exact absurd hk (hnone i (Nat.zero_le i) (by omega))
    · simp only [ContainerBase.numItems]
      rw [hres]
      exact getByKeyLoop_complete hE hsorted' key hkey _ 0 _ (Nat.le_refl _) (by omega)
        (by omega) (by omega) (by omega)

/-- C7, witness: the root map of the sample document, with the keys `a` < `b`. -/
theorem getByKey_roundtrip_witness :
    Reader.new sampleDocument = Res.ok sampleReader ∧ sampleReader.isValid 3 = Res.ok true ∧
    Reachable sampleReader (.hash sampleRootHash) ∧
    (∀ i, i < sampleRootHash.base.numItems → ∃ entry key,
      sampleRootHash.getByIndex i = Res.ok (some entry) ∧
      sampleRootHash.keyAt i = Res.ok key ∧
      sampleRootHash.getByKey key = Res.ok (some entry.data)) ∧
    (∀ key, sampleRootHash.getByKey key = sampleRootHash.scanByKey key) :=
  ⟨by decide, by decide, sampleRootHash_reachable,
    getByKey_roundtrip sampleDocument sampleReader 3 (by decide) (by decide) sampleRootHash
      sampleRootHash_reachable sampleRootHash_sorted⟩

/-- C9. Lookup miss: on a buffer that `isValid()` accepts, for every reachable map, sorted
or not, and every key, `getByKey` and `contains` return; an item that `getByKey` returns is
the data of an entry of the map whose key string equals the key; so for a key that no entry
has, `getByKey` is absent and `contains` is false. -/
theorem getByKey_miss (buffer : Buffer) (reader : Reader) (fuel : Nat)
    (hnew : Reader.new buffer = Res.ok reader) (hvalid : reader.isValid fuel = Res.ok true)
    (h : Hash) (hreach : Reachable reader (.hash h)) (key : List (Fin 256)) :
    ∃ found, h.getByKey key = Res.ok found ∧ h.contains key = Res.ok found.isSome ∧
      (∀ item, found = some item → ∃ i entry, i < h.base.numItems ∧
        h.getByIndex i = Res.ok (some entry) ∧ entry.data = item ∧
        h.keyAt i = Res.ok (cstr key)) ∧
      ((∀ i, i < h.base.numItems → h.keyAt i ≠ Res.ok (cstr key)) →
        h.getByKey key = Res.ok none ∧ h.contains key = Res.ok false) := by
  obtain ⟨_, ctx, hc⟩ := validated hnew hvalid
  have hv := reachable_checked hc hreach
  obtain ⟨entries, keys, hE, hidx⟩ := hash_hasEntries hc.tables hc.offsets.1 hv
  obtain ⟨found, hf, hspec⟩ := getByKeyLoop_sound hE key _ 0
    ((h.base.mNumItems : Int) - 1) (Nat.le_refl _) (by omega) (by omega)
  rw [← getByKey_eq_loop] at hf
  have hcontains : h.contains key = Res.ok found.isSome := by
    simp only [Hash.contains, hf, Res.ok_bind, Res.pure_eq_ok]
  have hsound : ∀ item, found = some item → ∃ i entry, i < h.base.numItems ∧
      h.getByIndex i = Res.ok (some entry) ∧ entry.data = item ∧
      h.keyAt i = Res.ok (cstr key) := by
    intro item hitem
    obtain ⟨i, _, hi, hdata, hk⟩ := hspec item hitem
    have hi' : i < h.base.mNumItems := by omega
    obtain ⟨h1, h2, _⟩ := hidx i hi'
    exact ⟨i, entries i, hi', h1, hdata.symm, by rw [h2, hk]⟩
  refine ⟨found, hf, hcontains, hsound, ?_⟩
  intro hmiss
  cases found with
  | none => exact ⟨hf, hcontains⟩
  | some item =>
    obtain ⟨i, _, hi, _, _, hk⟩ := hsound item rfl
    exact absurd hk (hmiss i hi)

/-- C9, witness: the key `c` in the root map of the unsorted document. -/
theorem getByKey_miss_witness :
    Reader.new unsortedMapDocument = Res.ok unsortedMapReader ∧
    unsortedMapReader.isValid 2 = Res.ok true ∧
    Reachable unsortedMapReader (.hash unsortedRootHash) ∧
    ∃ found, unsortedRootHash.getByKey [0x63] = Res.ok found ∧
      unsortedRootHash.contains [0x63] = Res.ok found.isSome ∧
      (∀ item, found = some item → ∃ i entry, i < unsortedRootHash.base.numItems ∧
        unsortedRootHash.getByIndex i = Res.ok (some entry) ∧ entry.data = item ∧
        unsortedRootHash.keyAt i = Res.ok (cstr [0x63])) ∧
      ((∀ i, i < unsortedRootHash.base.numItems →
          unsortedRootHash.keyAt i ≠ Res.ok (cstr [0x63])) →
        unsortedRootHash.getByKey [0x63] = Res.ok none ∧
        unsortedRootHash.contains [0x63] = Res.ok false) :=
  ⟨by decide, by decide, Reachable.rootHash (by decide),
    getByKey_miss unsortedMapDocument unsortedMapReader 2 (by decide) (by decide)
      unsortedRootHash (Reachable.rootHash (by decide)) [0x63]⟩

/-- C8, counterexample: `isValid()` accepts a document whose root map stores the key `b`
before the key `a`; iteration returns `b`, then `a`, which is not ascending. -/
theorem valid_map_with_descending_keys :
    Reader.new unsortedMapDocument = Res.ok unsortedMapReader ∧
    (∀ fuel, unsortedMapReader.isValid (fuel + 2) = Res.ok true) ∧
    unsortedMapReader.getHash = Res.ok (some unsortedRootHash) ∧
    unsortedRootHash.keyAt 0 = Res.ok [0x62] ∧ unsortedRootHash.keyAt 1 = Res.ok [0x61] ∧
    ¬ (strcmp [0x62] [0x61] < 0) :=
  ⟨by decide, fun _ => rfl, by decide, by decide, by decide, by decide⟩

/-- C8 (amended). On a buffer that `isValid()` accepts, iteration over a reachable map
returns the keys in stored entry order: the key of entry `i` is the NUL-terminated string
inside the buffer that the hash key table holds at the key index stored in entry `i`. -/
theorem map_keys_in_stored_order (buffer : Buffer) (reader : Reader) (fuel : Nat)
    (hnew : Reader.new buffer = Res.ok reader) (hvalid : reader.isValid fuel = Res.ok true)
    (h : Hash) (hreach : Reachable reader (.hash h)) (i : Nat) (hi : i < h.base.numItems) :
    ∃ entry key raw, h.getByIndex i = Res.ok (some entry) ∧
      (getBinaryReader reader).cstrAt entry.name = Res.ok key ∧ h.keyAt i = Res.ok key ∧
      util.readHashItem (getBinaryReader reader) h.base.mOffset i = Res.ok raw ∧
      util.getStringOffset (getBinaryReader reader) reader.mHashKeyTableOffset raw.keyIndex
        = Res.ok entry.name ∧
      entry.name < buffer.length := by
  obtain ⟨hbuf, ctx, hc⟩ := validated hnew hvalid
  have hv := reachable_checked hc hreach
  have hr : h.base.mReader = reader := hv.1
  obtain ⟨entries, keys, hE, hidx⟩ := hash_hasEntries hc.tables hc.offsets.1 hv
  obtain ⟨h1, h2, h3, raw, h4, _, h5, _⟩ := hidx i hi
  have hsize := hc.tables.size_le
  rw [hbuf] at hsize
  have hk := (hE i hi).2
  rw [hr] at hk
  exact ⟨entries i, keys i, raw, h1, hk, h2, h4, h5, by omega⟩

/-- C8, witness: entry 0 of the root map of the unsorted document. -/
theorem map_keys_in_stored_order_witness :
    Reader.new unsortedMapDocument = Res.ok unsortedMapReader ∧
    unsortedMapReader.isValid 2 = Res.ok true ∧
    Reachable unsortedMapReader (.hash unsortedRootHash) ∧
    0 < unsortedRootHash.base.numItems ∧
    ∃ entry key raw, unsortedRootHash.getByIndex 0 = Res.ok (some entry) ∧
      (getBinaryReader unsortedMapReader).cstrAt entry.name = Res.ok key ∧
      unsortedRootHash.keyAt 0 = Res.ok key ∧
      util.readHashItem (getBinaryReader unsortedMapReader) unsortedRootHash.base.mOffset 0
        = Res.ok raw ∧
      util.getStringOffset (getBinaryReader unsortedMapReader)
        unsortedMapReader.mHashKeyTableOffset raw.keyIndex = Res.ok entry.name ∧
      entry.name < unsortedMapDocument.length :=
  ⟨by decide, by decide, Reachable.rootHash (by decide), by decide,
    map_keys_in_stored_order unsortedMapDocument unsortedMapReader 2 (by decide) (by decide)
      unsortedRootHash (Reachable.rootHash (by decide)) 0 (by decide)⟩

theorem array_getByIndex_ne_none {a : Array} {i : Nat} (hi : i < a.base.mNumItems) :
    a.getByIndex i ≠ Res.ok none := by
  simp only [Array.getByIndex, Array.getByIndexImpl, ContainerBase.numItems,
    if_neg (show ¬ a.base.mNumItems ≤ i by omega)]
  intro h
  simp only [Res.bind_eq_ok, Res.pure_eq_ok] at h
  obtain ⟨_, _, _, _, _, _, h⟩ := h
  cases h

theorem hash_getByIndex_ne_none {h : Hash} {i : Nat} (hi : i < h.base.mNumItems) :
    h.getByIndex i ≠ Res.ok none := by
  simp only [Hash.getByIndex, Hash.getByIndexImpl, ContainerBase.numItems,
    if_neg (show ¬ h.base.mNumItems ≤ i by omega)]
  intro hh
  simp only [Res.bind_eq_ok, Res.pure_eq_ok] at hh
  obtain ⟨_, _, hh⟩ := hh
  cases hh

/-- C10. For every array view and every map view and every index: `getByIndex` returns
absent if and only if the index is not below the item count, and it returns an item (for a
map, a key/item pair) only for an index below the item count; on a view reachable in a
buffer that `isValid()` accepts it does return one for every index below the item count. -/
theorem getByIndex_absent_iff (idx : Nat) :
    (∀ a : Array,
      (a.getByIndex idx = Res.ok none ↔ a.base.numItems ≤ idx) ∧
      ((∃ item, a.getByIndex idx = Res.ok (some item)) → idx < a.base.numItems) ∧
      (∀ (buffer : Buffer) (reader : Reader) (fuel : Nat),
        Reader.new buffer = Res.ok reader → reader.isValid fuel = Res.ok true →
        Reachable reader (.array a) → idx < a.base.numItems →
        ∃ item, a.getByIndex idx = Res.ok (some item))) ∧
    (∀ h : Hash,
      (h.getByIndex idx = Res.ok none ↔ h.base.numItems ≤ idx) ∧
      ((∃ entry, h.getByIndex idx = Res.ok (some entry)) → idx < h.base.numItems) ∧
      (∀ (buffer : Buffer) (reader : Reader) (fuel : Nat),
        Reader.new buffer = Res.ok reader → reader.isValid fuel = Res.ok true →
        Reachable reader (.hash h) → idx < h.base.numItems →
        ∃ entry, h.getByIndex idx = Res.ok (some entry))) := by
  constructor
  · intro a
    refine ⟨⟨?_, array_getByIndex_none⟩, ?_, ?_⟩
    · intro hnone
      by_contra hlt
      exact array_getByIndex_ne_none (Nat.lt_of_not_le hlt) hnone
    · rintro ⟨item, hitem⟩
      by_contra hlt
      rw [array_getByIndex_none (Nat.le_of_not_lt hlt)] at hitem
      cases hitem
    · intro buffer reader fuel hnew hvalid hreach hlt
      obtain ⟨_, ctx, hc⟩ := validated hnew hvalid
      obtain ⟨item, _, hget, _⟩ := array_items hc.tables (reachable_checked hc hreach) hlt
      exact ⟨_, hget⟩
  · intro h
    refine ⟨⟨?_, hash_getByIndex_none⟩, ?_, ?_⟩
    · intro hnone
      by_contra hlt
      exact hash_getByIndex_ne_none (Nat.lt_of_not_le hlt) hnone
    · rintro ⟨item, hitem⟩
      by_contra hlt
      rw [hash_getByIndex_none (Nat.le_of_not_lt hlt)] at hitem
      cases hitem
    · intro buffer reader fuel hnew hvalid hreach hlt
      obtain ⟨_, ctx, hc⟩ := validated hnew hvalid
      obtain ⟨entry, _, hget⟩ := hash_getByIndex_of_lt hc.tables hc.offsets.1
        (reachable_checked hc hreach) hlt
      exact ⟨_, hget⟩

/-- C10, witness: index 1 of the array and of the root map of the sample document. -/
theorem getByIndex_absent_iff_witness :
    Reader.new sampleDocument = Res.ok sampleReader ∧ sampleReader.isValid 3 = Res.ok true ∧
    Reachable sampleReader (.array sampleArray) ∧ 1 < sampleArray.base.numItems ∧
    Reachable sampleReader (.hash sampleRootHash) ∧ 1 < sampleRootHash.base.numItems ∧
    (∃ item, sampleArray.getByIndex 1 = Res.ok (some item)) ∧
    (∃ entry, sampleRootHash.getByIndex 1 = Res.ok (some entry)) :=
  ⟨by decide, by decide, sampleArray_reachable, by decide, sampleRootHash_reachable, by decide,
    ((getByIndex_absent_iff 1).1 sampleArray).2.2 sampleDocument sampleReader 3 (by decide)
      (by decide) sampleArray_reachable (by decide),
    ((getByIndex_absent_iff 1).2 sampleRootHash).2.2 sampleDocument sampleReader 3 (by decide)
      (by decide) sampleRootHash_reachable (by decide)⟩

/-! ### The header -/

theorem Reader.new_header {buffer : Buffer} {r : Reader} (hnew : Reader.new buffer = Res.ok r) :
    r.mBuffer = buffer ∧
    (r.mHasValidHeader = true ↔
      16 ≤ buffer.length ∧
      (buffer.take 2 = magicBigEndian ∨ buffer.take 2 = magicLittleEndian) ∧
      ∃ v, headerVersion buffer = Res.ok v ∧ (v = 2 ∨ v = 3)) ∧
    (r.mHasValidHeader = true → r.mBigEndian = decide (buffer.take 2 = magicBigEndian)) := by
  by_cases hlen : buffer.length < sizeofResHeader
  · simp only [Reader.new, if_pos hlen, Res.pure_eq_ok] at hnew
    injection hnew with hnew
    subst hnew
    simp only [sizeofResHeader] at hlen
    refine ⟨rfl, ?_, ?_⟩
    · constructor
      · intro h; cases h
      · rintro ⟨h16, _⟩; omega
    · intro h; cases h
  · have h16 : 16 ≤ buffer.length := by
      simp only [sizeofResHeader] at hlen
      omega
    match buffer, h16 with
    | a :: b :: rest, h16 =>
      have hBE : (a.val = 66 ∧ b.val = 89) ↔ [a, b] = [0x42, 0x59] := by
        constructor
        · rintro ⟨h1, h2⟩
          rw [show a = 0x42 from Fin.ext h1, show b = 0x59 from Fin.ext h2]
        · intro h
          simp only [List.cons.injEq, and_true] at h
          obtain ⟨ha, hb⟩ := h
          subst ha hb
          exact ⟨rfl, rfl⟩
      have hLE : (a.val = 89 ∧ b.val = 66) ↔ [a, b] = [0x59, 0x42] := by
        constructor
        · rintro ⟨h1, h2⟩
          rw [show a = 0x59 from Fin.ext h1, show b = 0x42 from Fin.ext h2]
        · intro h
          simp only [List.cons.injEq, and_true] at h
          obtain ⟨ha, hb⟩ := h
          subst ha hb
          exact ⟨rfl, rfl⟩
      simp only [Reader.new, if_neg hlen, BinaryReader.byte, List.get?, Res.ok_bind, hBE, hLE]
        at hnew
      simp only [headerVersion, magicBigEndian, magicLittleEndian, List.take]
      by_cases hmagic : [a, b] = [0x42, 0x59] ∨ [a, b] = [0x59, 0x42]
      · have hm : ¬ (¬ [a, b] = [0x42, 0x59] ∧ ¬ [a, b] = [0x59, 0x42]) := by tauto
        rw [if_neg hm] at hnew
        obtain ⟨v, hv, _⟩ := read_of_le
          { mData := a :: b :: rest, mBigEndian := decide ([a, b] = [0x42, 0x59]) }
          (show 2 + 2 ≤ (a :: b :: rest).length by omega)
        rw [hv, Res.ok_bind] at hnew
        by_cases hver : v ≠ 2 ∧ v ≠ 3
        · rw [if_pos hver] at hnew
          injection hnew with hnew
          subst hnew
          refine ⟨rfl, ?_, ?_⟩
          · constructor
            · intro h; cases h
            · rintro ⟨_, _, v', hv', hv23⟩
              rw [hv] at hv'
              injection hv' with hv'
              omega
          · intro h; cases h
        · rw [if_neg hver] at hnew
          simp only [Res.bind_eq_ok, Res.pure_eq_ok] at hnew
          obtain ⟨x, _, y, _, z, _, hr⟩ := hnew
          injection hr with hr
          subst hr
          refine ⟨rfl, ?_, ?_⟩
          · constructor
            · intro _
              exact ⟨h16, hmagic, v, hv, by omega⟩
            · intro _; rfl
          · intro _; rfl
      · have hm : ¬ [a, b] = [0x42, 0x59] ∧ ¬ [a, b] = [0x59, 0x42] := by tauto
        rw [if_pos hm] at hnew
        injection hnew with hnew
        subst hnew
        refine ⟨rfl, ?_, ?_⟩
        · constructor
          · intro h; cases h
          · rintro ⟨_, hmg, _⟩
            exact absurd hmg hmagic
        · intro h; cases h

theorem Reader.isValid_of_rejected {r : Reader} (h : r.mHasValidHeader = false) (fuel : Nat) :
    r.isValid fuel = Res.ok false := by
  simp [Reader.isValid, h]

/-- C11. Header check: `isValid()` returns false whenever the buffer is shorter than 16
bytes, or its first two bytes are neither `BY` nor `YB`, or its 16-bit version field, read
at offset 2 in the byte order that the magic selects, is neither 2 nor 3. -/
theorem header_check (buffer : Buffer)
    (hbad : buffer.length < 16 ∨
      (buffer.take 2 ≠ magicBigEndian ∧ buffer.take 2 ≠ magicLittleEndian) ∨
      ∃ version, headerVersion buffer = Res.ok version ∧ version ≠ 2 ∧ version ≠ 3) :
    ∀ fuel, isValid buffer fuel = Res.ok false := by
  intro fuel
  obtain ⟨r, hr, _⟩ := Reader.new_spec buffer
  obtain ⟨_, hiff, _⟩ := Reader.new_header hr
  have hrej : r.mHasValidHeader = false := by
    cases hv : r.mHasValidHeader with
    | false => rfl
    | true =>
      exfalso
      obtain ⟨h16, hmagic, v, hv', hv23⟩ := hiff.mp hv
      rcases hbad with h | ⟨h1, h2⟩ | ⟨v2, hv2, h2, h3⟩
      · omega
      · rcases hmagic with h | h
        · exact h1 h
        · exact h2 h
      · rw [hv'] at hv2
        injection hv2 with hv2
        omega
  simp only [isValid, hr, Res.ok_bind]
  exact Reader.isValid_of_rejected hrej fuel

/-- C11, witness: a buffer with the magic `XX`. -/
theorem header_check_witness :
    (wrongMagicDocument.take 2 ≠ magicBigEndian ∧
      wrongMagicDocument.take 2 ≠ magicLittleEndian) ∧
    ∀ fuel, isValid wrongMagicDocument fuel = Res.ok false :=
  ⟨by decide, header_check wrongMagicDocument (Or.inr (Or.inl (by decide)))⟩

/-- C12. Table bounds: with an accepted header, if the hash key table offset, the string
table offset or the root node offset is greater than or equal to the buffer size, then
`isValid()` returns false; so does a root offset equal to the buffer size. -/
theorem table_bounds (buffer : Buffer) (reader : Reader)
    (hnew : Reader.new buffer = Res.ok reader) (haccepted : reader.mHasValidHeader = true)
    (hpast : buffer.length ≤ reader.mHashKeyTableOffset ∨
      buffer.length ≤ reader.mStringTableOffset ∨ buffer.length ≤ reader.mRootNodeOffset) :
    ∀ fuel, reader.isValid fuel = Res.ok false := by
  intro fuel
  obtain ⟨hbuf, _⟩ := Reader.new_header hnew
  rw [← hbuf] at hpast
  simp only [Reader.isValid, haccepted, Bool.not_true, Bool.false_eq_true, if_false, if_pos hpast,
    Res.pure_eq_ok]

/-- C12, witness: a 16-byte header whose root offset is 16, the buffer size. -/
theorem table_bounds_witness :
    Reader.new rootPastEndDocument = Res.ok rootPastEndReader ∧
    rootPastEndReader.mHasValidHeader = true ∧
    rootPastEndReader.mRootNodeOffset = rootPastEndDocument.length ∧
    ∀ fuel, rootPastEndReader.isValid fuel = Res.ok false :=
  ⟨by decide, rfl, by decide,
    table_bounds rootPastEndDocument rootPastEndReader (by decide) rfl
      (Or.inr (Or.inr (by decide)))⟩

/-- C14. Malformed string table: with an accepted header, if the hash key table offset or
the string table offset is nonzero and the node at it has a tag byte other than 0xC2, or
`N + 1` offset words that do not fit in the buffer, or, for some `i < N`, a string position
`offset + word i` at or past the end of the buffer or without a NUL byte between it and the
end of the buffer, then `isValid()` returns false. -/
theorem malformed_string_table (buffer : Buffer) (reader : Reader)
    (hnew : Reader.new buffer = Res.ok reader)
    (hbad : (reader.mHashKeyTableOffset ≠ 0 ∧
        MalformedStringTable (getBinaryReader reader) reader.mHashKeyTableOffset) ∨
      (reader.mStringTableOffset ≠ 0 ∧
        MalformedStringTable (getBinaryReader reader) reader.mStringTableOffset)) :
    ∀ fuel, reader.isValid fuel = Res.ok false := by
  obtain ⟨r, hr, _, h1, h2, h3, _⟩ := Reader.new_spec buffer
  rw [hnew] at hr
  injection hr with hr
  subst hr
  have key : ∀ (ctx : NodeCheckContext) (offset n : Nat), TablesChecked reader ctx →
      offset ≠ 0 → MalformedStringTable (getBinaryReader reader) offset →
      ¬ (ctx.br.readU24 (offset + 1) = Res.ok n ∧
        offset + 4 + 4 * (n + 1) ≤ ctx.bufferSize ∧
        (∀ i, i < n → checkStringTableEntry ctx offset i = Res.ok true) ∧
        ctx.br.read 1 offset = Res.ok NodeType.StringTable) := by
    intro ctx offset n htab h0 hmal ⟨hcount, hext, hentries, htag⟩
    have hle := htab.le
    rw [htab.br_eq] at hcount htag hle
    rcases hmal with ⟨tag, hbyte, hne⟩ | ⟨n', hn', hfit⟩ | ⟨n', i, word, hn', hi, hword, hstr⟩
    · rw [read_one_eq_byte, hbyte] at htag
      injection htag with htag
      exact hne htag
    · rw [hcount] at hn'
      injection hn' with hn'
      subst hn'
      omega
    · rw [hcount] at hn'
      injection hn' with hn'
      subst hn'
      obtain ⟨p, hp, hplt, q, hpq, hq, hnul⟩ := checkStringTableEntry_eq_ok_true htab.le
        (hentries i hi)
      rw [htab.br_eq] at hp hnul
      obtain ⟨w, hw, hpw, _⟩ := getStringOffset_eq_ok
        (show i < 2 ^ 30 by have := (readU24_eq_ok hcount).1; omega) hp
      rw [hword] at hw
      injection hw with hw
      subst hw hpw
      rcases hstr with hpast | hnonul
      · omega
      · exact hnonul q hpq (by omega) hnul
  rcases reader.isValid_spec ⟨h1, h2, h3⟩ with hf | ⟨ctx, htab, _⟩
  · exact hf
  · exfalso
    rcases hbad with ⟨h0, hmal⟩ | ⟨h0, hmal⟩
    · rcases htab.2.1 with ⟨hz, _⟩ | ⟨_, hcount, hext, hentries, htag⟩
      · exact h0 hz
      · exact key ctx _ _ htab h0 hmal ⟨hcount, hext, hentries, htag⟩
    · rcases htab.2.2 with ⟨hz, _⟩ | ⟨_, hcount, hext, hentries, htag⟩
      · exact h0 hz
      · exact key ctx _ _ htab h0 hmal ⟨hcount, hext, hentries, htag⟩

/-- C14, witness: a string table whose only string runs to the end of the buffer. -/
theorem malformed_string_table_witness :
    Reader.new unterminatedStringDocument = Res.ok unterminatedStringReader ∧
    unterminatedStringReader.mStringTableOffset ≠ 0 ∧
    MalformedStringTable (getBinaryReader unterminatedStringReader)
      unterminatedStringReader.mStringTableOffset ∧
    ∀ fuel, unterminatedStringReader.isValid fuel = Res.ok false := by
  have hmal : MalformedStringTable (getBinaryReader unterminatedStringReader)
      unterminatedStringReader.mStringTableOffset := by
    refine Or.inr (Or.inr ⟨1, 0, 12, by decide, by decide, by decide, Or.inr ?_⟩)
    intro q hq hlt
    have hlt' : q < 30 := hlt
    have hq' : 28 ≤ q := hq
    have : q = 28 ∨ q = 29 := by omega
    rcases this with rfl | rfl <;> decide
  exact ⟨by decide, by decide, hmal,
    malformed_string_table unterminatedStringDocument unterminatedStringReader (by decide)
      (Or.inr ⟨by decide, hmal⟩)⟩

/-- C13. Empty document: on a buffer of at least 16 bytes with the magic `BY` or `YB` and
version 2 or 3, whose root offset is 0 and whose hash key table offset and string table
offset are each 0 or the offset of a table that passes `checkStringTable`, `isValid()`
returns true and `getArray()` and `getHash()` both return absent. -/
theorem empty_document_valid (buffer : Buffer) (reader : Reader)
    (hnew : Reader.new buffer = Res.ok reader)
    (hlen : 16 ≤ buffer.length)
    (hmagic : buffer.take 2 = magicBigEndian ∨ buffer.take 2 = magicLittleEndian)
    (hversion : headerVersion buffer = Res.ok 2 ∨ headerVersion buffer = Res.ok 3)
    (hroot : reader.mRootNodeOffset = 0)
    (hkeys : reader.mHashKeyTableOffset = 0 ∨
      ∃ n, checkStringTable (reader.checkContext 0 0) reader.mHashKeyTableOffset 0
        = Res.ok (true, n))
    (hstrings : reader.mStringTableOffset = 0 ∨
      ∃ n, checkStringTable (reader.checkContext 0 0) reader.mStringTableOffset 0
        = Res.ok (true, n)) :
    (∀ fuel, reader.isValid fuel = Res.ok true) ∧
    reader.getArray = Res.ok none ∧ reader.getHash = Res.ok none := by
  obtain ⟨hbuf, hiff, _⟩ := Reader.new_header hnew
  obtain ⟨r, hr, _, h1, h2, h3, _⟩ := Reader.new_spec buffer
  rw [hnew] at hr
  injection hr with hr
  subst hr
  have hv : reader.mHasValidHeader = true := by
    apply hiff.mpr
    refine ⟨hlen, hmagic, ?_⟩
    rcases hversion with h | h
    · exact ⟨2, h, Or.inl rfl⟩
    · exact ⟨3, h, Or.inr rfl⟩
  have hlen' : 16 ≤ reader.mBuffer.length := by rw [hbuf]; exact hlen
  have hmod := Nat.mod_le reader.mBuffer.length (2 ^ 32)
  -- a table that passes the check starts inside the buffer
  have inside : ∀ offset, offset < 2 ^ 32 →
      (offset = 0 ∨ ∃ n, checkStringTable (reader.checkContext 0 0) offset 0
        = Res.ok (true, n)) → offset < reader.mBuffer.length := by
    intro offset ho h
    rcases h with h | ⟨n, hn⟩
    · omega
    · obtain ⟨b, n', hres, hspec⟩ := checkStringTable_spec (reader.checkContext 0 0) 0
        (reader.checkContext_le 0 0) ho
      rw [hn] at hres
      injection hres with hres
      injection hres with hb hn'
      obtain ⟨_, _, hext, _⟩ := hspec hb.symm
      have : (reader.checkContext 0 0).bufferSize = reader.mBuffer.length % 2 ^ 32 := rfl
      omega
  have hb : ¬ (reader.mBuffer.length ≤ reader.mHashKeyTableOffset
      ∨ reader.mBuffer.length ≤ reader.mStringTableOffset
      ∨ reader.mBuffer.length ≤ reader.mRootNodeOffset) := by
    have a1 := inside _ h1 hkeys
    have a2 := inside _ h2 hstrings
    omega
  have step : ∀ (a b : Nat) (offset : Nat),
      (offset = 0 ∨ ∃ n, checkStringTable (reader.checkContext 0 0) offset 0
        = Res.ok (true, n)) →
      ∃ n, (if offset ≠ 0 then checkStringTable (reader.checkContext a b) offset 0
        else pure (true, 0)) = Res.ok (true, n) := by
    intro a b offset h
    rcases h with h | ⟨n, hn⟩
    · exact ⟨0, by simp [h]⟩
    · by_cases h0 : offset = 0
      · exact ⟨0, by simp [h0]⟩
      · refine ⟨n, ?_⟩
        rw [if_pos h0, ← hn]
        exact checkStringTable_congr _ _ _ _ rfl rfl
  refine ⟨?_, ?_, ?_⟩
  · intro fuel
    obtain ⟨n1, e1⟩ := step 0 0 _ hkeys
    obtain ⟨n2, e2⟩ := step n1 0 _ hstrings
    simp only [Reader.checkContext, getBinaryReader] at e1 e2
    simp only [Reader.isValid, hv, Bool.not_true, Bool.false_eq_true, if_false, if_neg hb]
    rw [e1]
    simp only [Res.ok_bind, Bool.not_true, Bool.false_eq_true, if_false]
    rw [e2]
    simp only [Res.ok_bind, Bool.not_true, Bool.false_eq_true, if_false, hroot, ne_eq,
      not_true_eq_false, Res.pure_eq_ok]
  · simp [Reader.getArray, Reader.isArray, checkRootNodeType, hroot]
  · simp [Reader.getHash, Reader.isHash, checkRootNodeType, hroot]

/-- C13, witness: the 16-byte header `59 42 02 00` followed by twelve zero bytes. -/
theorem empty_document_valid_witness :
    Reader.new emptyDocument = Res.ok emptyReader ∧ 16 ≤ emptyDocument.length ∧
    (∀ fuel, emptyReader.isValid fuel = Res.ok true) ∧
    emptyReader.getArray = Res.ok none ∧ emptyReader.getHash = Res.ok none :=
  ⟨by decide, by decide,
    empty_document_valid emptyDocument emptyReader (by decide) (by decide)
      (Or.inr (by decide)) (Or.inl (by decide)) rfl (Or.inl rfl) (Or.inl rfl)⟩

/-- C17. `getUInt()` returns a value exactly when the tag is UInt, or the tag is Int and
`raw` read as a signed 32-bit number is at least 0, and the value it returns is `raw`. In
the array of mixed scalars, the item 0 is an Int holding -1 and `getUInt()` is absent on
it; the item 1 is a UInt holding 7, `getUInt()` is 7 on it and `getInt()` is absent. -/
theorem getUInt_spec (item : ItemData) :
    ((∃ value, item.getUInt = some value) ↔
      (item.raw.type = NodeType.UInt ∨
        (item.raw.type = NodeType.Int ∧ 0 ≤ toS32 item.raw.raw))) ∧
    (item.getUInt = none ∨ item.getUInt = some item.raw.raw) ∧
    (∃ minusOne seven,
      mixedScalarsReader.getArray = Res.ok (some mixedScalarsArray) ∧
      mixedScalarsArray.getByIndex 0 = Res.ok (some minusOne) ∧
      mixedScalarsArray.getByIndex 1 = Res.ok (some seven) ∧
      minusOne.raw.type = NodeType.Int ∧ minusOne.getInt = some (-1) ∧
      minusOne.getUInt = none ∧
      seven.raw.type = NodeType.UInt ∧ seven.getUInt = some 7 ∧ seven.getInt = none) := by
  refine ⟨?_, ?_, ?_⟩
  · unfold ItemData.getUInt
    by_cases hInt : item.raw.type = NodeType.Int
    · have hne : item.raw.type ≠ NodeType.UInt := by rw [hInt]; decide
      by_cases hs : toS32 item.raw.raw ≥ 0
      · simp [hInt, hs]
      · simp [hInt, hs]
        intro h
        exact absurd h (by decide)
    · by_cases hU : item.raw.type = NodeType.UInt
      · simp [hU, NodeType.UInt, NodeType.Int]
      · simp [hInt, hU]
  · unfold ItemData.getUInt
    split
    · split
      · exact Or.inr rfl
      · exact Or.inl rfl
    · split
      · exact Or.inr rfl
      · exact Or.inl rfl
  · exact ⟨{ reader := mixedScalarsReader, raw := { raw := 0xffffffff, type := NodeType.Int } },
      { reader := mixedScalarsReader, raw := { raw := 7, type := NodeType.UInt } },
      by decide, by decide, by decide, rfl, by decide, by decide, rfl, by decide, by decide⟩

/-- C16. For an item whose 8 bytes at `raw` are inside the buffer when its tag is Int64 or
UInt64, `getUInt64()` returns a value exactly when the tag is UInt, or Int with `raw`
non-negative as a signed 32-bit number, or UInt64, or Int64 with the 8-byte word at `raw`
non-negative as a signed 64-bit number; the value is `raw` in the first two cases and the
8-byte word read at `raw` in the last two; in every other case it returns absent. -/
theorem getUInt64_spec (item : ItemData)
    (hwide : item.raw.type = NodeType.Int64 ∨ item.raw.type = NodeType.UInt64 →
      item.raw.raw + 8 ≤ item.reader.mBuffer.length) :
    ((∃ value, item.getUInt64 = Res.ok (some value)) ↔
      (item.raw.type = NodeType.UInt ∨
        (item.raw.type = NodeType.Int ∧ 0 ≤ toS32 item.raw.raw) ∨
        item.raw.type = NodeType.UInt64 ∨
        (item.raw.type = NodeType.Int64 ∧ ∃ word,
          (getBinaryReader item.reader).read 8 item.raw.raw = Res.ok word ∧
          0 ≤ toS64 word))) ∧
    (item.raw.type = NodeType.UInt ∨
      (item.raw.type = NodeType.Int ∧ 0 ≤ toS32 item.raw.raw) →
      item.getUInt64 = Res.ok (some item.raw.raw)) ∧
    (item.raw.type = NodeType.UInt64 → ∃ word,
      (getBinaryReader item.reader).read 8 item.raw.raw = Res.ok word ∧
      item.getUInt64 = Res.ok (some word)) ∧
    (item.raw.type = NodeType.Int64 → ∃ word,
      (getBinaryReader item.reader).read 8 item.raw.raw = Res.ok word ∧
      item.getUInt64 = Res.ok (if toS64 word < 0 then none else some word)) ∧
    (item.raw.type = NodeType.Int ∧ toS32 item.raw.raw < 0 → item.getUInt64 = Res.ok none) ∧
    (item.raw.type ≠ NodeType.UInt ∧ item.raw.type ≠ NodeType.Int ∧
      item.raw.type ≠ NodeType.UInt64 ∧ item.raw.type ≠ NodeType.Int64 →
      item.getUInt64 = Res.ok none) := by
  have hread : item.raw.type = NodeType.Int64 ∨ item.raw.type = NodeType.UInt64 →
      ∃ word, (getBinaryReader item.reader).read 8 item.raw.raw = Res.ok word := by
    intro h
    obtain ⟨v, hv, _⟩ := read_of_le (getBinaryReader item.reader)
      (show item.raw.raw + 8 ≤ (getBinaryReader item.reader).mData.length from hwide h)
    exact ⟨v, hv⟩
  have hsmall : item.raw.type = NodeType.UInt ∨
      (item.raw.type = NodeType.Int ∧ 0 ≤ toS32 item.raw.raw) →
      item.getUInt64 = Res.ok (some item.raw.raw) := by
    intro h
    rcases h with h | ⟨h, hs⟩
    · simp [ItemData.getUInt64, ItemData.getUInt, h, NodeType.UInt, NodeType.Int]
    · simp [ItemData.getUInt64, ItemData.getUInt, h, hs]
  have hU64 : item.raw.type = NodeType.UInt64 → ∃ word,
      (getBinaryReader item.reader).read 8 item.raw.raw = Res.ok word ∧
      item.getUInt64 = Res.ok (some word) := by
    intro h
    obtain ⟨word, hw⟩ := hread (Or.inr h)
    refine ⟨word, hw, ?_⟩
    simp [ItemData.getUInt64, ItemData.getUInt, h, hw, NodeType.UInt, NodeType.Int,
      NodeType.UInt64, NodeType.Int64]
  have hI64 : item.raw.type = NodeType.Int64 → ∃ word,
      (getBinaryReader item.reader).read 8 item.raw.raw = Res.ok word ∧
      item.getUInt64 = Res.ok (if toS64 word < 0 then none else some word) := by
    intro h
    obtain ⟨word, hw⟩ := hread (Or.inl h)
    refine ⟨word, hw, ?_⟩
    by_cases hs : toS64 word < 0
    · simp [ItemData.getUInt64, ItemData.getUInt, h, hw, hs, NodeType.UInt, NodeType.Int,
        NodeType.UInt64, NodeType.Int64]
    · simp [ItemData.getUInt64, ItemData.getUInt, h, hw, hs, NodeType.UInt, NodeType.Int,
        NodeType.UInt64, NodeType.Int64]
  have hneg : item.raw.type = NodeType.Int ∧ toS32 item.raw.raw < 0 →
      item.getUInt64 = Res.ok none := by
    rintro ⟨h, hs⟩
    have hs' : ¬ toS32 item.raw.raw ≥ 0 := by omega
    simp [ItemData.getUInt64, ItemData.getUInt, h, hs', NodeType.Int, NodeType.UInt64,
      NodeType.Int64]
  have hother : item.raw.type ≠ NodeType.UInt ∧ item.raw.type ≠ NodeType.Int ∧
      item.raw.type ≠ NodeType.UInt64 ∧ item.raw.type ≠ NodeType.Int64 →
      item.getUInt64 = Res.ok none := by
    rintro ⟨h1, h2, h3, h4⟩
    simp [ItemData.getUInt64, ItemData.getUInt, h1, h2, h3, h4]
  refine ⟨?_, hsmall, hU64, hI64, hneg, hother⟩
  constructor
  · rintro ⟨value, hv⟩
    by_cases h1 : item.raw.type = NodeType.UInt
    · exact Or.inl h1
    by_cases h2 : item.raw.type = NodeType.Int
    · by_cases hs : 0 ≤ toS32 item.raw.raw
      · exact Or.inr (Or.inl ⟨h2, hs⟩)
      · rw [hneg ⟨h2, by omega⟩] at hv
        injection hv with hv
        exact absurd hv (by simp)
    by_cases h3 : item.raw.type = NodeType.UInt64
    · exact Or.inr (Or.inr (Or.inl h3))
    by_cases h4 : item.raw.type = NodeType.Int64
    · obtain ⟨word, hw, hres⟩ := hI64 h4
      by_cases hs : toS64 word < 0
      · rw [hres, if_pos hs] at hv
        injection hv with hv
        exact absurd hv (by simp)
      · exact Or.inr (Or.inr (Or.inr ⟨h4, word, hw, by omega⟩))
    · rw [hother ⟨h1, h2, h3, h4⟩] at hv
      injection hv with hv
      exact absurd hv (by simp)
  · rintro (h | h | h | ⟨h, word, hw, hs⟩)
    · exact ⟨_, hsmall (Or.inl h)⟩
    · exact ⟨_, hsmall (Or.inr h)⟩
    · obtain ⟨word, _, hres⟩ := hU64 h
      exact ⟨word, hres⟩
    · obtain ⟨word', hw', hres⟩ := hI64 h
      rw [hw] at hw'
      injection hw' with hw'
      subst hw'
      rw [if_neg (by omega)] at hres
      exact ⟨word, hres⟩

/-- C16, witness: the Int64 item and the UInt64 item of `allOnesDocument` both point at the
word `0xffffffffffffffff`; `getUInt64()` is absent on the first, negative as a signed
number, and returns the word on the second. -/
theorem getUInt64_spec_witness :
    allOnesArray.getByIndex 0
      = Res.ok (some { reader := allOnesReader, raw := { raw := 32, type := NodeType.Int64 } }) ∧
    allOnesArray.getByIndex 1
      = Res.ok (some { reader := allOnesReader, raw := { raw := 32, type := NodeType.UInt64 } }) ∧
    ItemData.getUInt64 { reader := allOnesReader, raw := { raw := 32, type := NodeType.Int64 } }
      = Res.ok none ∧
    (∃ word, (getBinaryReader allOnesReader).read 8 32 = Res.ok word ∧
      ItemData.getUInt64 { reader := allOnesReader, raw := { raw := 32, type := NodeType.UInt64 } }
        = Res.ok (some word)) ∧
    ¬ (∃ value, ItemData.getUInt64
      { reader := allOnesReader, raw := { raw := 32, type := NodeType.Int64 } }
        = Res.ok (some value)) := by
  refine ⟨by decide, by decide, by decide, ?_, ?_⟩
  · exact (getUInt64_spec
      { reader := allOnesReader, raw := { raw := 32, type := NodeType.UInt64 } }
      (fun _ => by decide)).2.2.1 rfl
  · intro hvalue
    rcases (getUInt64_spec
      { reader := allOnesReader, raw := { raw := 32, type := NodeType.Int64 } }
      (fun _ => by decide)).1.mp hvalue with h | ⟨h, _⟩ | h | ⟨_, word, hw, hs⟩
    · exact absurd h (by decide)
    · exact absurd h (by decide)
    · exact absurd h (by decide)
    · have hword : (getBinaryReader allOnesReader).read 8 32 = Res.ok 0xffffffffffffffff := by
        decide
      have hw' : (getBinaryReader allOnesReader).read 8 32 = Res.ok word := hw
      rw [hword] at hw'
      injection hw' with hw'
      subst hw'
      exact absurd hs (by decide)

/-- C18. For an item whose 8 bytes at `raw` are inside the buffer when its tag is Int64,
`getInt64()` returns a value exactly when the tag is Int, UInt or Int64: `raw` sign-extended
from 32 bits for Int, `raw` zero-extended for UInt, and the 8-byte word at `raw` read as a
signed number for Int64; for every other tag it returns absent. When the 8 bytes of an
Int64 item encode -9223372036854775808, the word `2 ^ 63`, it returns that number. -/
theorem getInt64_spec (item : ItemData)
    (hwide : item.raw.type = NodeType.Int64 → item.raw.raw + 8 ≤ item.reader.mBuffer.length) :
    ((∃ value, item.getInt64 = Res.ok (some value)) ↔
      (item.raw.type = NodeType.Int ∨ item.raw.type = NodeType.UInt ∨
        item.raw.type = NodeType.Int64)) ∧
    (item.raw.type = NodeType.Int → item.getInt64 = Res.ok (some (toS32 item.raw.raw))) ∧
    (item.raw.type = NodeType.UInt → item.getInt64 = Res.ok (some (item.raw.raw : Int))) ∧
    (item.raw.type = NodeType.Int64 → ∃ word,
      (getBinaryReader item.reader).read 8 item.raw.raw = Res.ok word ∧
      item.getInt64 = Res.ok (some (toS64 word))) ∧
    (item.raw.type ≠ NodeType.Int ∧ item.raw.type ≠ NodeType.UInt ∧
      item.raw.type ≠ NodeType.Int64 → item.getInt64 = Res.ok none) ∧
    (item.raw.type = NodeType.Int64 →
      (getBinaryReader item.reader).read 8 item.raw.raw = Res.ok (2 ^ 63) →
      item.getInt64 = Res.ok (some (-9223372036854775808))) := by
  have hI : item.raw.type = NodeType.Int → item.getInt64 = Res.ok (some (toS32 item.raw.raw)) := by
    intro h
    simp [ItemData.getInt64, h]
  have hU : item.raw.type = NodeType.UInt →
      item.getInt64 = Res.ok (some (item.raw.raw : Int)) := by
    intro h
    simp [ItemData.getInt64, h, NodeType.UInt, NodeType.Int]
  have hW : ∀ word, item.raw.type = NodeType.Int64 →
      (getBinaryReader item.reader).read 8 item.raw.raw = Res.ok word →
      item.getInt64 = Res.ok (some (toS64 word)) := by
    intro word h hw
    simp [ItemData.getInt64, h, hw, NodeType.UInt, NodeType.Int, NodeType.Int64]
  have hI64 : item.raw.type = NodeType.Int64 → ∃ word,
      (getBinaryReader item.reader).read 8 item.raw.raw = Res.ok word ∧
      item.getInt64 = Res.ok (some (toS64 word)) := by
    intro h
    obtain ⟨word, hw, _⟩ := read_of_le (getBinaryReader item.reader)
      (show item.raw.raw + 8 ≤ (getBinaryReader item.reader).mData.length from hwide h)
    exact ⟨word, hw, hW word h hw⟩
  have hother : item.raw.type ≠ NodeType.Int ∧ item.raw.type ≠ NodeType.UInt ∧
      item.raw.type ≠ NodeType.Int64 → item.getInt64 = Res.ok none := by
    rintro ⟨h1, h2, h3⟩
    simp [ItemData.getInt64, h1, h2, h3]
  refine ⟨?_, hI, hU, hI64, hother, ?_⟩
  · constructor
    · rintro ⟨value, hv⟩
      by_cases h1 : item.raw.type = NodeType.Int
      · exact Or.inl h1
      by_cases h2 : item.raw.type = NodeType.UInt
      · exact Or.inr (Or.inl h2)
      by_cases h3 : item.raw.type = NodeType.Int64
      · exact Or.inr (Or.inr h3)
      · rw [hother ⟨h1, h2, h3⟩] at hv
        injection hv with hv
        exact absurd hv (by simp)
    · rintro (h | h | h)
      · exact ⟨_, hI h⟩
      · exact ⟨_, hU h⟩
      · obtain ⟨word, _, hres⟩ := hI64 h
        exact ⟨_, hres⟩
  · intro h hw
    rw [hW _ h hw]
    decide

/-- C18, witness: the only item of the root array of `int64MinDocument` is an Int64 whose
cell points at the bytes `00 00 00 00 00 00 00 80`, and `getInt64()` on it is INT64_MIN. -/
theorem getInt64_spec_witness :
    int64MinReader.getArray = Res.ok (some int64MinArray) ∧
    int64MinArray.getByIndex 0
      = Res.ok (some { reader := int64MinReader, raw := { raw := 28, type := NodeType.Int64 } }) ∧
    (getBinaryReader int64MinReader).bytes 28 8
      = Res.ok [0x00, 0x00, 0x00, 0x00, 0x00, 0x00, 0x00, 0x80] ∧
    ItemData.getInt64 { reader := int64MinReader, raw := { raw := 28, type := NodeType.Int64 } }
      = Res.ok (some (-9223372036854775808)) :=
  ⟨by decide, by decide, by decide,
    (getInt64_spec { reader := int64MinReader, raw := { raw := 28, type := NodeType.Int64 } }
      (fun _ => by decide)).2.2.2.2.2 rfl (by decide)⟩

/-- C19. Type mismatch: each exact-tag accessor returns a value exactly when the tag of the
item is the tag of the accessor, and absent for every other tag: `getBool` for Bool, with
the value `raw != 0`; `getInt` for Int, with `raw` read as a signed 32-bit number;
`getFloat` for Float, with the bits of `raw`; `getString` is non-null for String; `getArray`
for Array; `getHash` for Hash. The last three read the buffer when the tag matches: the
offset word of the string in the string table (at the index scaled in `u32`, which wraps)
and the header of the container are taken to be inside the buffer, for every value of
`raw`. -/
theorem exact_tag_accessors (item : ItemData)
    (hstring : item.raw.type = NodeType.String →
      ∃ stringOffset, util.getStringOffset (getBinaryReader item.reader)
        item.reader.mStringTableOffset item.raw.raw = Res.ok stringOffset)
    (hcontainer : item.raw.type = NodeType.Array ∨ item.raw.type = NodeType.Hash →
      ∃ numItems, util.readContainerSize (getBinaryReader item.reader) item.raw.raw
        = Res.ok numItems) :
    (((∃ value, item.getBool = some value) ↔ item.raw.type = NodeType.Bool) ∧
      (item.raw.type = NodeType.Bool → item.getBool = some (decide (item.raw.raw ≠ 0))) ∧
      (item.raw.type ≠ NodeType.Bool → item.getBool = none)) ∧
    (((∃ value, item.getInt = some value) ↔ item.raw.type = NodeType.Int) ∧
      (item.raw.type = NodeType.Int → item.getInt = some (toS32 item.raw.raw)) ∧
      (item.raw.type ≠ NodeType.Int → item.getInt = none)) ∧
    (((∃ value, item.getFloat = some value) ↔ item.raw.type = NodeType.Float) ∧
      (item.raw.type = NodeType.Float → item.getFloat = some { bits := item.raw.raw }) ∧
      (item.raw.type ≠ NodeType.Float → item.getFloat = none)) ∧
    (((∃ pointer, item.getString = Res.ok (some pointer)) ↔ item.raw.type = NodeType.String) ∧
      (item.raw.type ≠ NodeType.String → item.getString = Res.ok none)) ∧
    (((∃ view, item.getArray = Res.ok (some view)) ↔ item.raw.type = NodeType.Array) ∧
      (item.raw.type ≠ NodeType.Array → item.getArray = Res.ok none)) ∧
    (((∃ view, item.getHash = Res.ok (some view)) ↔ item.raw.type = NodeType.Hash) ∧
      (item.raw.type ≠ NodeType.Hash → item.getHash = Res.ok none)) := by
  refine ⟨⟨?_, ?_, ?_⟩, ⟨?_, ?_, ?_⟩, ⟨?_, ?_, ?_⟩, ⟨?_, ?_⟩, ⟨?_, ?_⟩, ⟨?_, ?_⟩⟩
  · by_cases h : item.raw.type = NodeType.Bool
    · simp only [ItemData.getBool, h, ne_eq, not_true_eq_false, if_false, iff_true]
      exact ⟨_, rfl⟩
    · simp [ItemData.getBool, h]
  · intro h
    simp [ItemData.getBool, h]
  · intro h
    simp [ItemData.getBool, h]
  · by_cases h : item.raw.type = NodeType.Int <;> simp [ItemData.getInt, h]
  · intro h
    simp [ItemData.getInt, h]
  · intro h
    simp [ItemData.getInt, h]
  · by_cases h : item.raw.type = NodeType.Float <;> simp [ItemData.getFloat, h]
  · intro h
    simp [ItemData.getFloat, h]
  · intro h
    simp [ItemData.getFloat, h]
  · by_cases h : item.raw.type = NodeType.String
    · obtain ⟨stringOffset, hs⟩ := hstring h
      simp [ItemData.getString, h, hs]
    · simp [ItemData.getString, h]
  · intro h
    simp [ItemData.getString, h]
  · by_cases h : item.raw.type = NodeType.Array
    · obtain ⟨n, hn⟩ := hcontainer (Or.inl h)
      simp [ItemData.getArray, Array.new, ContainerBase.new, h, hn]
    · simp [ItemData.getArray, h]
  · intro h
    simp [ItemData.getArray, h]
  · by_cases h : item.raw.type = NodeType.Hash
    · obtain ⟨n, hn⟩ := hcontainer (Or.inr h)
      simp [ItemData.getHash, Hash.new, ContainerBase.new, h, hn]
    · simp [ItemData.getHash, h]
  · intro h
    simp [ItemData.getHash, h]

/-- C19, witness: the item under the key `b` of the root map of the sample document is
tagged Array; `getArray()` gives the array at 72 and the five other accessors are absent.
On a String item whose raw is `0x40000000`, for which `4 * raw` wraps to 0 in `u32`,
`getString()` reads the first offset word of the string table at 36 and returns the
pointer 48. -/
theorem exact_tag_accessors_witness :
    sampleRootHash.getByIndex 1 = Res.ok (some
      ⟨34, { reader := sampleReader, raw := { raw := 72, type := NodeType.Array } }⟩) ∧
    (∃ numItems, util.readContainerSize (getBinaryReader sampleReader) 72 = Res.ok numItems) ∧
    (∃ view, ItemData.getArray
      { reader := sampleReader, raw := { raw := 72, type := NodeType.Array } }
        = Res.ok (some view)) ∧
    ItemData.getBool { reader := sampleReader, raw := { raw := 72, type := NodeType.Array } }
      = none ∧
    ItemData.getInt { reader := sampleReader, raw := { raw := 72, type := NodeType.Array } }
      = none ∧
    ItemData.getFloat { reader := sampleReader, raw := { raw := 72, type := NodeType.Array } }
      = none ∧
    ItemData.getString { reader := sampleReader, raw := { raw := 72, type := NodeType.Array } }
      = Res.ok none ∧
    ItemData.getHash { reader := sampleReader, raw := { raw := 72, type := NodeType.Array } }
      = Res.ok none ∧
    util.getStringOffset (getBinaryReader sampleReader) sampleReader.mStringTableOffset
      0x40000000 = Res.ok 48 ∧
    (∃ pointer, ItemData.getString
      { reader := sampleReader, raw := { raw := 0x40000000, type := NodeType.String } }
        = Res.ok (some pointer)) ∧
    ItemData.getString
      { reader := sampleReader, raw := { raw := 0x40000000, type := NodeType.String } }
        = Res.ok (some 48) := by
  have h := exact_tag_accessors
    { reader := sampleReader, raw := { raw := 72, type := NodeType.Array } }
    (fun hty => absurd hty (by decide)) (fun _ => ⟨2, by decide⟩)
  have hs := exact_tag_accessors
    { reader := sampleReader, raw := { raw := 0x40000000, type := NodeType.String } }
    (fun _ => ⟨48, by decide⟩) (fun hty => absurd hty (by decide))
  exact ⟨by decide, ⟨2, by decide⟩, h.2.2.2.2.1.1.mpr rfl, h.1.2.2 (by decide),
    h.2.1.2.2 (by decide), h.2.2.1.2.2 (by decide), h.2.2.2.1.2 (by decide),
    h.2.2.2.2.2.2 (by decide), by decide, hs.2.2.2.1.1.mpr rfl, by decide⟩

theorem byte_append_left (a b : Buffer) (e1 e2 : Bool) {o : Nat} (h : o < a.length) :
    BinaryReader.byte { mData := a ++ b, mBigEndian := e1 } o
      = BinaryReader.byte { mData := a, mBigEndian := e2 } o := by
  simp only [BinaryReader.byte, List.get?_eq_getElem?, List.getElem?_append_left h]

theorem bytes_append_left (a b : Buffer) (e1 e2 : Bool) (n : Nat) :
    ∀ {o : Nat}, o + n ≤ a.length →
    BinaryReader.bytes { mData := a ++ b, mBigEndian := e1 } o n
      = BinaryReader.bytes { mData := a, mBigEndian := e2 } o n := by
  induction n with
  | zero => intro o _; rfl
  | succ n ih =>
    intro o h
    simp only [BinaryReader.bytes]
    rw [byte_append_left a b e1 e2 (show o < a.length by omega),
      ih (show o + 1 + n ≤ a.length by omega)]

theorem read_append_left (a b : Buffer) (e : Bool) {n o : Nat} (h : o + n ≤ a.length) :
    BinaryReader.read { mData := a ++ b, mBigEndian := e } n o
      = BinaryReader.read { mData := a, mBigEndian := e } n o := by
  simp only [BinaryReader.read, bytes_append_left a b e e n h]

theorem readU24_append_left (a b : Buffer) (e : Bool) {o : Nat} (h : o + 3 ≤ a.length) :
    BinaryReader.readU24 { mData := a ++ b, mBigEndian := e } o
      = BinaryReader.readU24 { mData := a, mBigEndian := e } o := by
  simp only [BinaryReader.readU24]
  rw [byte_append_left a b e e (show o < a.length by omega),
    byte_append_left a b e e (show o + 1 < a.length by omega),
    byte_append_left a b e e (show o + 2 < a.length by omega)]

theorem paddedDocument_length : paddedDocument.length = 2 ^ 32 + 19 := by
  have h : emptyArrayDocument.length = 20 := rfl
  have hp : paddingLength = 2 ^ 32 - 1 := rfl
  rw [paddedDocument, List.length_append, List.length_replicate, h, hp]
  norm_num

/-- The reader built on a little-endian buffer, from the values of its header fields. -/
theorem Reader.new_littleEndian (buffer : Buffer) {version a b c : Nat}
    (hlen : 16 ≤ buffer.length)
    (h0 : BinaryReader.byte { mData := buffer, mBigEndian := false } 0 = Res.ok 0x59)
    (h1 : BinaryReader.byte { mData := buffer, mBigEndian := false } 1 = Res.ok 0x42)
    (hv : BinaryReader.read { mData := buffer, mBigEndian := false } 2 2 = Res.ok version)
    (hversion : version = 2 ∨ version = 3)
    (ha : BinaryReader.read { mData := buffer, mBigEndian := false } 4 4 = Res.ok a)
    (hb : BinaryReader.read { mData := buffer, mBigEndian := false } 4 8 = Res.ok b)
    (hc : BinaryReader.read { mData := buffer, mBigEndian := false } 4 12 = Res.ok c) :
    Reader.new buffer = Res.ok
      { mBuffer := buffer, mHashKeyTableOffset := a, mStringTableOffset := b,
        mRootNodeOffset := c, mHasValidHeader := true, mBigEndian := false } := by
  have hlt : ¬ buffer.length < sizeofResHeader := by
    have : sizeofResHeader = 16 := rfl
    omega
  have hver : ¬ (version ≠ 2 ∧ version ≠ 3) := by omega
  simp only [Reader.new, hlt, if_false, h0, h1, Res.ok_bind]
  norm_num [hv, ha, hb, hc, hver, Res.ok_bind, Res.pure_eq_ok]

/-- A root array whose header ends past the truncated buffer size is rejected. -/
theorem Reader.isValid_root_array_truncated (r : Reader) (fuel : Nat)
    (hheader : r.mHasValidHeader = true)
    (hkeys : r.mHashKeyTableOffset = 0) (hstrings : r.mStringTableOffset = 0)
    (hroot : 0 < r.mRootNodeOffset) (hlt : r.mRootNodeOffset < 2 ^ 32)
    (hin : r.mRootNodeOffset < r.mBuffer.length)
    (htag : BinaryReader.read { mData := r.mBuffer, mBigEndian := r.mBigEndian } 1
      r.mRootNodeOffset = Res.ok NodeType.Array)
    (hsize : r.mBuffer.length % 2 ^ 32 < r.mRootNodeOffset + 4) :
    r.isValid (fuel + 1) = Res.ok false := by
  have hb : ¬ (r.mBuffer.length ≤ r.mHashKeyTableOffset ∨ r.mBuffer.length ≤ r.mStringTableOffset
      ∨ r.mBuffer.length ≤ r.mRootNodeOffset) := by omega
  have hne : r.mRootNodeOffset ≠ 0 := by omega
  have hend : ¬ r.mBuffer.length < r.mRootNodeOffset + 1 := by omega
  simp only [Reader.isValid, hheader, Bool.not_true, Bool.false_eq_true, if_false, if_neg hb,
    hkeys, hstrings, ne_eq, not_true_eq_false, Res.pure_eq_ok, Res.ok_bind, hne,
    not_false_eq_true, if_true, add64_of_lt (show r.mRootNodeOffset + 1 < 2 ^ 64 by omega),
    hend, htag]
  simp only [NodeType.Array, NodeType.Hash, checkNode, checkArrayNode,
    add64_of_lt (show r.mRootNodeOffset + 4 < 2 ^ 64 by omega), Res.ok_bind, if_pos hsize,
    Res.pure_eq_ok]
  norm_num [NodeType.String]

theorem paddedReader_new : Reader.new paddedDocument = Res.ok paddedReader := by
  have hlen := paddedDocument_length
  refine Reader.new_littleEndian paddedDocument (by omega) ?_ ?_ ?_ (Or.inl rfl) ?_ ?_ ?_
  all_goals first
    | (rw [paddedDocument, byte_append_left _ _ false false (by decide)]; rfl)
    | (rw [paddedDocument, read_append_left _ _ false (by decide)]; rfl)

theorem paddedReader_isValid (fuel : Nat) : paddedReader.isValid (fuel + 1) = Res.ok false := by
  have hlen : paddedReader.mBuffer.length = 2 ^ 32 + 19 := paddedDocument_length
  refine Reader.isValid_root_array_truncated paddedReader fuel rfl rfl rfl (by decide)
    (by decide) ?_ ?_ ?_
  · rw [hlen]; decide
  · show BinaryReader.read { mData := paddedDocument, mBigEndian := false } 1 16 = _
    rw [paddedDocument, read_append_left _ _ false (by decide)]; rfl
  · rw [hlen]; decide

/-- On a buffer without a cycle below the root, `isValid()` returns: from some recursion
budget on it gives one and the same boolean. -/
theorem Reader.isValid_returns {buffer : Buffer} {reader : Reader}
    (hnew : Reader.new buffer = Res.ok reader) (hacyc : reader.Acyclic) :
    ∃ fuel result, ∀ fuel', fuel ≤ fuel' → reader.isValid fuel' = Res.ok result := by
  obtain ⟨r, hr, _, h1, h2, h3, _⟩ := Reader.new_spec buffer
  rw [hnew] at hr
  injection hr with hr
  subst hr
  rcases reader.isValid_spec ⟨h1, h2, h3⟩ with hf | ⟨ctx, htab, ⟨_, ht⟩ | ⟨_, type, _, _, heq⟩⟩
  · exact ⟨0, false, fun fuel' _ => hf fuel'⟩
  · exact ⟨0, true, fun fuel' _ => ht fuel'⟩
  · have hsize : ctx.bufferSize = reader.mBuffer.length % 2 ^ 32 := by
      rw [htab.1]; rfl
    obtain ⟨fuel, b, hb⟩ := checkNode_terminates htab.br_eq hsize reader.mRootNodeOffset
      (acc_of_acyclic hacyc _ (Or.inl rfl)) h3 type
    refine ⟨fuel, b, ?_⟩
    intro fuel' hle
    rw [heq fuel', checkNode_mono_le ctx htab.le h3 hle hb]
    rfl

/-- The container of a view that the validator has checked ends inside the buffer. -/
theorem View.CheckedBy.extent_le {v : View} {r : Reader} {ctx : NodeCheckContext}
    (htab : TablesChecked r ctx) (h : v.CheckedBy r ctx) : v.extent ≤ r.mBuffer.length := by
  have hsize := htab.size_le
  cases v with
  | array a =>
    obtain ⟨_, ht, hn, fuel, hchk⟩ := h
    rcases checkArrayNode_spec ctx htab.le ht with hf | ⟨n, _, hn', _, hext, _⟩
    · rw [hf] at hchk
      cases hchk
    · rw [htab.br_eq, hn] at hn'
      injection hn' with hn'
      subst hn'
      show a.base.mOffset + 4 + AlignUp a.base.mNumItems 4 + 4 * a.base.mNumItems ≤ _
      omega
  | hash m =>
    obtain ⟨_, ht, hn, fuel, hchk⟩ := h
    rcases checkHashNode_spec ctx htab.le ht with hf | ⟨n, _, hn', _, hext, _⟩
    · rw [hf] at hchk
      cases hchk
    · rw [htab.br_eq, hn] at hn'
      injection hn' with hn'
      subst hn'
      show m.base.mOffset + 4 + 8 * m.base.mNumItems ≤ _
      omega

/-- Container extent, the rejecting half: when the root container or a container reached
from it declares a count whose extent exceeds the buffer size, `isValid()` never returns
true, and on a buffer without a cycle below the root it returns false. -/
theorem oversized_container_rejected (buffer : Buffer) (reader : Reader)
    (hnew : Reader.new buffer = Res.ok reader) (view : View)
    (hreach : Reachable reader view) (hover : buffer.length < view.extent) :
    (∀ fuel, reader.isValid fuel ≠ Res.ok true) ∧
    (reader.Acyclic →
      ∃ fuel, ∀ fuel', fuel ≤ fuel' → reader.isValid fuel' = Res.ok false) := by
  have hnever : ∀ fuel, reader.isValid fuel ≠ Res.ok true := by
    intro fuel hvalid
    obtain ⟨hbuf, ctx, hc⟩ := validated hnew hvalid
    have hle := (reachable_checked hc hreach).extent_le hc.tables
    rw [hbuf] at hle
    omega
  refine ⟨hnever, fun hacyc => ?_⟩
  obtain ⟨fuel, result, h⟩ := Reader.isValid_returns hnew hacyc
  cases result with
  | false => exact ⟨fuel, h⟩
  | true => exact absurd (h fuel (Nat.le_refl fuel)) (hnever fuel)

/-- Container extent, the accepting half: when the buffer size fits in 32 bits (the context
holds it unchanged), a container with a count of 0 whose 4-byte header is inside the buffer
passes the container check of its tag. -/
theorem empty_container_accepted (ctx : NodeCheckContext) (offset : Nat)
    (hsize : ctx.bufferSize = ctx.br.mData.length) (ht : offset < 2 ^ 32)
    (hfit : offset + 4 ≤ ctx.br.mData.length)
    (hcount : util.readContainerSize ctx.br offset = Res.ok 0) :
    (ctx.br.read 1 offset = Res.ok NodeType.Array →
      ∀ chk, checkArrayNode chk ctx offset = Res.ok true) ∧
    (ctx.br.read 1 offset = Res.ok NodeType.Hash →
      ∀ chk, checkHashNode chk ctx offset = Res.ok true) := by
  have e1 : add64 offset 4 = Res.ok (offset + 4) := add64_of_lt (by omega)
  have h4 : ¬ ctx.bufferSize < offset + 4 := by omega
  have hal : AlignUp 0 4 = 0 := by
    have := AlignUp_four 0
    omega
  constructor
  · intro htag chk
    have e3 := @getArrayValuesOffset_of_lt offset 0 ht (by norm_num)
    rw [hal] at e3
    simp only [checkArrayNode, e1, Res.ok_bind, if_neg h4, htag, ne_eq, not_true_eq_false,
      if_false, hcount, util.getArrayTypesOffset, e3, mul32_of_lt (show 4 * 0 < 2 ^ 32 by norm_num),
      Nat.mul_zero, Nat.add_zero, forAllItems, Res.pure_eq_ok,
      add64_of_lt (show offset + 4 + 0 < 2 ^ 64 by omega), if_neg h4]
  · intro htag chk
    simp only [checkHashNode, e1, Res.ok_bind, if_neg h4, htag, ne_eq, not_true_eq_false,
      if_false, hcount, util.getHashItemsOffset, mul32_of_lt (show 8 * 0 < 2 ^ 32 by norm_num),
      Nat.mul_zero, Nat.add_zero, forAllItems, Res.pure_eq_ok,
      add64_of_lt (show offset + 4 + 0 < 2 ^ 64 by omega), if_neg h4]

/-- C15. Container extent in a large buffer: `paddedDocument` is a buffer of `2 ^ 32 + 19`
bytes with an accepted header whose root at 16 is an array with a count of 0; the 4-byte
header of the array, at 16..19, is inside the buffer, and `isValid()` returns false, while
on the same 20 bytes alone `isValid()` returns true. -/
theorem empty_array_rejected_in_large_buffer :
    Reader.new paddedDocument = Res.ok paddedReader ∧
    paddedReader.mHasValidHeader = true ∧
    paddedDocument.length = 2 ^ 32 + 19 ∧
    paddedReader.mRootNodeOffset + 4 ≤ paddedDocument.length ∧
    (getBinaryReader paddedReader).read 1 paddedReader.mRootNodeOffset
      = Res.ok NodeType.Array ∧
    util.readContainerSize (getBinaryReader paddedReader) paddedReader.mRootNodeOffset
      = Res.ok 0 ∧
    (∀ fuel, paddedReader.isValid (fuel + 1) = Res.ok false) ∧
    paddedDocument.take 20 = emptyArrayDocument ∧
    Reader.new emptyArrayDocument = Res.ok emptyArrayReader ∧
    (∀ fuel, emptyArrayReader.isValid (fuel + 1) = Res.ok true) := by
  have hlen := paddedDocument_length
  refine ⟨paddedReader_new, rfl, hlen, ?_, ?_, ?_, paddedReader_isValid, ?_, by decide, ?_⟩
  · rw [hlen]; decide
  · show BinaryReader.read { mData := paddedDocument, mBigEndian := false } 1 16 = _
    rw [paddedDocument, read_append_left _ _ false (by decide)]; rfl
  · show util.readContainerSize { mData := paddedDocument, mBigEndian := false } 16 = _
    unfold util.readContainerSize
    rw [add64_of_lt (by norm_num), Res.ok_bind, paddedDocument,
      readU24_append_left _ _ false (by decide)]
    rfl
  · have h20 : emptyArrayDocument.length = 20 := rfl
    rw [paddedDocument, ← h20, List.take_left]
  · intro fuel
    have h1 : emptyArrayReader.isValid 1 = Res.ok true := by decide
    exact emptyArrayReader.isValid_mono (by decide) (Nat.le_add_left 1 fuel) h1

/-! ### Byte order -/

theorem Res.bind_congr {α β : Type} {x : Res α} {f g : α → Res β}
    (h : ∀ a, x = Res.ok a → f a = g a) : (x >>= f) = (x >>= g) := by
  cases x with
  | ok a => exact h a rfl
  | fault e => rfl

theorem fromBigEndian_eq_reverse (bs : List Nat) :
    fromBigEndian bs = fromLittleEndian bs.reverse := by
  unfold fromBigEndian fromLittleEndian
  rw [List.foldr_reverse]
  congr 1
  funext acc b
  omega

theorem bytes_eq_map (br : BinaryReader) : ∀ (n o : Nat), o + n ≤ br.mData.length →
    br.bytes o n = Res.ok (((br.mData.drop o).take n).map (fun b => b.val)) := by
  intro n
  induction n with
  | zero => intro o _; simp [BinaryReader.bytes]
  | succ n ih =>
    intro o h
    have hlt : o < br.mData.length := by omega
    have hd : br.mData.drop o = br.mData.get ⟨o, hlt⟩ :: br.mData.drop (o + 1) :=
      List.drop_eq_getElem_cons hlt
    simp only [BinaryReader.bytes, BinaryReader.byte, List.get?_eq_get hlt, Res.ok_bind,
      ih (o + 1) (by omega), Res.pure_eq_ok, hd, List.take_succ_cons, List.map_cons]

theorem bytes_of_gt (br : BinaryReader) : ∀ (n o : Nat), br.mData.length < o + (n + 1) →
    br.bytes o (n + 1) = Res.fault Fault.oob := by
  intro n
  induction n with
  | zero =>
    intro o h
    simp only [BinaryReader.bytes, byte_of_ge br (show br.mData.length ≤ o by omega)]
    rfl
  | succ n ih =>
    intro o h
    rcases Nat.lt_or_ge o br.mData.length with hlt | hge
    · obtain ⟨b, hb, _⟩ := byte_of_lt br hlt
      have := ih (o + 1) (by omega)
      simp only [BinaryReader.bytes] at this ⊢
      simp only [hb, Res.ok_bind, this]
      rfl
    · simp only [BinaryReader.bytes, byte_of_ge br hge]
      rfl

/-- Field level: a field read big-endian is the byte-reversed field read little-endian. -/
theorem read_rev {B L : Buffer} (hlen : L.length = B.length) {o n : Nat}
    (h : RevAt B L o n) :
    BinaryReader.read { mData := B, mBigEndian := true } n o
      = BinaryReader.read { mData := L, mBigEndian := false } n o := by
  rcases Nat.lt_or_ge B.length (o + n) with hgt | hle
  · cases n with
    | zero => rfl
    | succ m =>
      simp only [BinaryReader.read, bytes_of_gt { mData := B, mBigEndian := true } m o hgt,
        bytes_of_gt { mData := L, mBigEndian := false } m o (by simpa [hlen] using hgt)]
      rfl
  · have hB := bytes_eq_map { mData := B, mBigEndian := true } n o hle
    have hL := bytes_eq_map { mData := L, mBigEndian := false } n o
      (by simpa [hlen] using hle)
    simp only [BinaryReader.read, hB, hL, Res.ok_bind, Res.pure_eq_ok, if_true,
      Bool.false_eq_true, if_false]
    have h' : List.take n (List.drop o L) = (List.take n (List.drop o B)).reverse := h
    rw [h', List.map_reverse, fromBigEndian_eq_reverse]

theorem byte_rev {B L : Buffer} (hlen : L.length = B.length) {o : Nat} (h : RevAt B L o 1)
    (e1 e2 : Bool) :
    BinaryReader.byte { mData := B, mBigEndian := e1 } o
      = BinaryReader.byte { mData := L, mBigEndian := e2 } o := by
  have := read_rev hlen h
  rw [read_one_eq_byte, read_one_eq_byte] at this
  exact this

theorem read_one_rev {B L : Buffer} (hlen : L.length = B.length) {o : Nat} (h : RevAt B L o 1)
    (e1 e2 : Bool) :
    BinaryReader.read { mData := B, mBigEndian := e1 } 1 o
      = BinaryReader.read { mData := L, mBigEndian := e2 } 1 o := by
  rw [read_one_eq_byte, read_one_eq_byte]
  exact byte_rev hlen h e1 e2

theorem RevAt.get? {B L : Buffer} {o n : Nat} (h : RevAt B L o n) (hle : o + n ≤ B.length)
    {i : Nat} (hi : i < n) : L.get? (o + i) = B.get? (o + (n - 1 - i)) := by
  have h' : List.take n (List.drop o L) = (List.take n (List.drop o B)).reverse := h
  have hlenB : (List.take n (List.drop o B)).length = n := by
    simp [List.length_take, List.length_drop]; omega
  have h1 : (List.take n (List.drop o L))[i]? = L[o + i]? := by
    rw [List.getElem?_take_of_lt hi, List.getElem?_drop]
  have h2 : ((List.take n (List.drop o B)).reverse)[i]? = B[o + (n - 1 - i)]? := by
    rw [List.getElem?_reverse (by omega), hlenB,
      List.getElem?_take_of_lt (by omega), List.getElem?_drop]
  rw [List.get?_eq_getElem?, List.get?_eq_getElem?, ← h1, h', h2]

theorem readU24_of_gt (br : BinaryReader) {o : Nat} (h : br.mData.length < o + 3) :
    br.readU24 o = Res.fault Fault.oob := by
  unfold BinaryReader.readU24
  rcases Nat.lt_or_ge o br.mData.length with h0 | h0
  · obtain ⟨b0, hb0, _⟩ := byte_of_lt br h0
    rcases Nat.lt_or_ge (o + 1) br.mData.length with h1 | h1
    · obtain ⟨b1, hb1, _⟩ := byte_of_lt br h1
      rw [hb0, hb1, byte_of_ge br (show br.mData.length ≤ o + 2 by omega)]
      rfl
    · rw [hb0, byte_of_ge br h1]
      rfl
  · rw [byte_of_ge br h0]
    rfl

/-- Field level: the 24-bit count read big-endian is the byte-reversed count read
little-endian. -/
theorem readU24_rev {B L : Buffer} (hlen : L.length = B.length) {o : Nat}
    (h : RevAt B L o 3) :
    BinaryReader.readU24 { mData := B, mBigEndian := true } o
      = BinaryReader.readU24 { mData := L, mBigEndian := false } o := by
  rcases Nat.lt_or_ge B.length (o + 3) with hgt | hle
  · rw [readU24_of_gt _ (by simpa using hgt), readU24_of_gt _ (by simpa [hlen] using hgt)]
  · have g0 := h.get? hle (show 0 < 3 by omega)
    have g1 := h.get? hle (show 1 < 3 by omega)
    have g2 := h.get? hle (show 2 < 3 by omega)
    simp only [Nat.add_zero] at g0
    have e2 : o + (3 - 1 - 0) = o + 2 := rfl
    have e1 : o + (3 - 1 - 1) = o + 1 := rfl
    have e0 : o + (3 - 1 - 2) = o := rfl
    rw [e2] at g0
    rw [e1] at g1
    rw [e0] at g2
    have b0 : B.get? o = some (B.get ⟨o, by omega⟩) := List.get?_eq_get _
    have b1 : B.get? (o + 1) = some (B.get ⟨o + 1, by omega⟩) := List.get?_eq_get _
    have b2 : B.get? (o + 2) = some (B.get ⟨o + 2, by omega⟩) := List.get?_eq_get _
    simp only [BinaryReader.readU24, BinaryReader.byte, g0, g1, g2, b0, b1, b2, Res.ok_bind,
      if_true, Bool.false_eq_true, if_false]

theorem stringSame_succ {B L : Buffer} {p : Nat} (h : StringSame B L p)
    (hne : B.get? p ≠ some 0) : StringSame B L (p + 1) := by
  intro q hq hpq hno
  refine h q hq (by omega) ?_
  intro k hk hpk
  rcases Nat.eq_or_lt_of_le hpk with rfl | hlt
  · exact hne
  · exact hno k hk hlt

theorem strnlen_same {B L : Buffer} (hlen : L.length = B.length) (e1 e2 : Bool) :
    ∀ (maxLen p : Nat), StringSame B L p →
    BinaryReader.strnlen { mData := B, mBigEndian := e1 } p maxLen
      = BinaryReader.strnlen { mData := L, mBigEndian := e2 } p maxLen := by
  intro maxLen
  induction maxLen with
  | zero => intro p _; rfl
  | succ m ih =>
    intro p h
    rcases Nat.lt_or_ge p B.length with hlt | hge
    · have hp : L.get? p = B.get? p := h p hlt (Nat.le_refl p) (fun k hk hpk => by omega)
      simp only [BinaryReader.strnlen, BinaryReader.byte, hp]
      cases hb : B.get? p with
      | none => rfl
      | some b =>
        simp only [Res.ok_bind]
        by_cases hz : b.val = 0
        · simp only [hz, if_true]
        · simp only [hz, if_false]
          rw [ih (p + 1) (stringSame_succ h (by
            rw [hb]
            intro hh
            injection hh with hh
            exact hz (by rw [hh]; rfl)))]
    · simp only [BinaryReader.strnlen,
        byte_of_ge { mData := B, mBigEndian := e1 } (show B.length ≤ p from hge),
        byte_of_ge { mData := L, mBigEndian := e2 } (show L.length ≤ p by omega)]
      rfl

theorem forAllItems_congr {body body' : Nat → Res Bool} : ∀ {n i : Nat},
    (∀ j, i ≤ j → j < i + n → body j = body' j) →
    forAllItems body i n = forAllItems body' i n := by
  intro n
  induction n with
  | zero => intro i _; rfl
  | succ n ih =>
    intro i h
    simp only [forAllItems]
    rw [h i (Nat.le_refl i) (by omega),
      @ih (i + 1) (fun j h1 h2 => h j (by omega) (by omega))]

theorem readContainerSize_rev {B L : Buffer} (hlen : L.length = B.length) {o : Nat}
    (h : RevAt B L (o + 1) 3) :
    util.readContainerSize { mData := B, mBigEndian := true } o
      = util.readContainerSize { mData := L, mBigEndian := false } o := by
  unfold util.readContainerSize
  refine Res.bind_congr fun a ha => ?_
  obtain ⟨_, rfl⟩ := add64_eq_ok.mp ha
  exact readU24_rev hlen h

theorem getStringOffset_rev {B L : Buffer} (hlen : L.length = B.length) {table i : Nat}
    (hi : i < 2 ^ 30) (h : RevAt B L (table + 4 + 4 * i) 4) :
    util.getStringOffset { mData := B, mBigEndian := true } table i
      = util.getStringOffset { mData := L, mBigEndian := false } table i := by
  unfold util.getStringOffset
  rw [Nat.mod_eq_of_lt (show 4 * i < 2 ^ 32 by omega)]
  refine Res.bind_congr fun a ha => ?_
  obtain ⟨_, rfl⟩ := add64_eq_ok.mp ha
  refine Res.bind_congr fun c hc => ?_
  obtain ⟨_, rfl⟩ := add64_eq_ok.mp hc
  rw [read_rev hlen h]

theorem checkStringTableEntry_rev {B L : Buffer} (hlen : L.length = B.length)
    {ctxB ctxL : NodeCheckContext}
    (hB : ctxB.br = { mData := B, mBigEndian := true })
    (hL : ctxL.br = { mData := L, mBigEndian := false })
    (hsize : ctxL.bufferSize = ctxB.bufferSize) {table i : Nat} (hi : i < 2 ^ 30)
    (h : RevAt B L (table + 4 + 4 * i) 4)
    (hs : ∀ word, BinaryReader.read { mData := B, mBigEndian := true } 4 (table + 4 + 4 * i)
      = Res.ok word → StringSame B L (table + word)) :
    checkStringTableEntry ctxB table i = checkStringTableEntry ctxL table i := by
  unfold checkStringTableEntry
  rw [hB, hL, hsize, ← getStringOffset_rev hlen hi h]
  refine Res.bind_congr fun p hp => ?_
  have hsame : StringSame B L p := by
    obtain ⟨word, hword, rfl, _⟩ := getStringOffset_eq_ok hi hp
    exact hs word hword
  simp only [BinaryReader.getString]
  rw [strnlen_same hlen true false _ p hsame]

theorem checkStringTable_rev {B L : Buffer} (hlen : L.length = B.length)
    {ctxB ctxL : NodeCheckContext}
    (hB : ctxB.br = { mData := B, mBigEndian := true })
    (hL : ctxL.br = { mData := L, mBigEndian := false })
    (hsize : ctxL.bufferSize = ctxB.bufferSize) {table : Nat} (h : TableSwapped B L table)
    (numItems : Nat) :
    checkStringTable ctxB table numItems = checkStringTable ctxL table numItems := by
  obtain ⟨htag, hcount, hwords⟩ := h
  unfold checkStringTable
  rw [hsize]
  refine Res.bind_congr fun a ha => ?_
  obtain ⟨_, rfl⟩ := add64_eq_ok.mp ha
  split
  · rfl
  · rw [hB, hL, ← read_one_rev hlen htag true false]
    refine Res.bind_congr fun type _ => ?_
    split
    · rfl
    · refine Res.bind_congr fun b hb => ?_
      obtain ⟨_, rfl⟩ := add64_eq_ok.mp hb
      rw [← readU24_rev hlen hcount]
      refine Res.bind_congr fun n hn => ?_
      refine Res.bind_congr fun slots _ => ?_
      refine Res.bind_congr fun words _ => ?_
      refine Res.bind_congr fun tableEnd _ => ?_
      split
      · rfl
      · rw [@forAllItems_congr (checkStringTableEntry ctxB table)
          (checkStringTableEntry ctxL table) n 0 (fun j _ hj =>
            checkStringTableEntry_rev hlen hB hL hsize
              (show j < 2 ^ 30 by have := (readU24_eq_ok hn).1; omega)
              (hwords n hn j (by omega)).1 (hwords n hn j (by omega)).2)]

theorem readArrayItem_rev {B L : Buffer} (hlen : L.length = B.length)
    {typesOffset valuesOffset i : Nat}
    (ht : RevAt B L (typesOffset + i) 1) (hv : RevAt B L (valuesOffset + 4 * i) 4) :
    util.readArrayItem { mData := B, mBigEndian := true } typesOffset valuesOffset i
      = util.readArrayItem { mData := L, mBigEndian := false } typesOffset valuesOffset i := by
  unfold util.readArrayItem
  refine Res.bind_congr fun a ha => ?_
  obtain ⟨_, rfl⟩ := mul32_eq_ok.mp ha
  refine Res.bind_congr fun b hb => ?_
  obtain ⟨_, rfl⟩ := add64_eq_ok.mp hb
  rw [read_rev hlen hv]
  refine Res.bind_congr fun raw _ => ?_
  refine Res.bind_congr fun c hc => ?_
  obtain ⟨_, rfl⟩ := add64_eq_ok.mp hc
  rw [read_one_rev hlen ht true false]

theorem readHashItemWithItemOffset_rev {B L : Buffer} (hlen : L.length = B.length)
    {itemOffset : Nat} (hk : RevAt B L itemOffset 3) (ht : RevAt B L (itemOffset + 3) 1)
    (hv : RevAt B L (itemOffset + 4) 4) :
    util.readHashItemWithItemOffset { mData := B, mBigEndian := true } itemOffset
      = util.readHashItemWithItemOffset { mData := L, mBigEndian := false } itemOffset := by
  unfold util.readHashItemWithItemOffset
  rw [readU24_rev hlen hk]
  refine Res.bind_congr fun k _ => ?_
  refine Res.bind_congr fun a ha => ?_
  obtain ⟨_, rfl⟩ := add64_eq_ok.mp ha
  rw [read_one_rev hlen ht true false]
  refine Res.bind_congr fun type _ => ?_
  refine Res.bind_congr fun b hb => ?_
  obtain ⟨_, rfl⟩ := add64_eq_ok.mp hb
  rw [read_rev hlen hv]

theorem readArrayItem_eq_ok {br : BinaryReader} {typesOffset valuesOffset i : Nat}
    {item : RawItemData} (h : util.readArrayItem br typesOffset valuesOffset i = Res.ok item) :
    item.raw < 2 ^ 32 := by
  simp only [util.readArrayItem, Res.bind_eq_ok, Res.pure_eq_ok] at h
  obtain ⟨a, _, b, _, raw, hraw, c, _, type, _, hitem⟩ := h
  injection hitem with hitem
  subst hitem
  have := (read_eq_ok hraw).1
  rw [pow_256_four] at this
  exact this

theorem readHashItemWithItemOffset_eq_ok {br : BinaryReader} {itemOffset : Nat}
    {item : util.RawHashItem} (h : util.readHashItemWithItemOffset br itemOffset = Res.ok item) :
    item.data.raw < 2 ^ 32 := by
  simp only [util.readHashItemWithItemOffset, Res.bind_eq_ok, Res.pure_eq_ok] at h
  obtain ⟨k, _, a, _, type, _, b, _, raw, hraw, hitem⟩ := h
  injection hitem with hitem
  subst hitem
  have := (read_eq_ok hraw).1
  rw [pow_256_four] at this
  exact this

theorem containerHeader_rev {B L : Buffer} (hlen : L.length = B.length) {rB rL : Reader}
    (hbufB : rB.mBuffer = B) (hbigB : rB.mBigEndian = true)
    (hbufL : rL.mBuffer = L) (hbigL : rL.mBigEndian = false) {o : Nat}
    (htag : RevAt B L o 1) (hcount : RevAt B L (o + 1) 3) :
    rB.containerHeader o = rL.containerHeader o := by
  simp only [Reader.containerHeader, getBinaryReader, hbufB, hbigB, hbufL, hbigL, hlen]
  rw [← read_one_rev hlen htag true false, ← readContainerSize_rev hlen hcount]

/-- The array check on the two buffers, when the node checks of the items agree. -/
theorem checkArrayNode_rev {B L : Buffer} (hlen : L.length = B.length) {rB : Reader}
    (hbufB : rB.mBuffer = B) (hbigB : rB.mBigEndian = true)
    {ctxB ctxL : NodeCheckContext}
    (hB : ctxB.br = { mData := B, mBigEndian := true })
    (hL : ctxL.br = { mData := L, mBigEndian := false })
    (hsizeB : ctxB.bufferSize = B.length % 2 ^ 32)
    (hsize : ctxL.bufferSize = ctxB.bufferSize) {o : Nat} (ho : o < 2 ^ 32)
    (hnode : NodeSwapped B L rB o) {chkB chkL : Nat → NodeType → Res Bool}
    (hchk : ∀ c type, c < 2 ^ 32 →
      (type = NodeType.Array ∨ type = NodeType.Hash → rB.IsChild o c) →
      chkB c type = chkL c type) :
    checkArrayNode chkB ctxB o = checkArrayNode chkL ctxL o := by
  obtain ⟨htag, hcount, hitems⟩ := hnode
  have hbr : getBinaryReader rB = { mData := B, mBigEndian := true } := by
    simp only [getBinaryReader, hbufB, hbigB]
  unfold checkArrayNode
  rw [hsize]
  refine Res.bind_congr fun a ha => ?_
  obtain ⟨_, rfl⟩ := add64_eq_ok.mp ha
  split
  · rfl
  · rename_i h4
    rw [hB, hL, ← read_one_rev hlen htag true false]
    refine Res.bind_congr fun type htype => ?_
    split
    · rfl
    · rename_i hA
      have hA' : type = NodeType.Array := by
        by_contra hne
        exact hA hne
      subst hA'
      rw [← readContainerSize_rev hlen hcount]
      refine Res.bind_congr fun n hn => ?_
      have hn24 := (readContainerSize_eq_ok hn).2.1
      have hal := AlignUp_four n
      refine Res.bind_congr fun typesOffset ht => ?_
      obtain ⟨_, rfl⟩ := add64_eq_ok.mp ht
      rw [getArrayValuesOffset_of_lt ho hn24]
      simp only [Res.ok_bind]
      rw [mul32_of_lt (show 4 * n < 2 ^ 32 by omega)]
      simp only [Res.ok_bind]
      rw [add64_of_lt (show o + 4 + AlignUp n 4 + 4 * n < 2 ^ 64 by omega)]
      simp only [Res.ok_bind]
      split
      · rfl
      · rename_i hend
        have hhdr : rB.containerHeader o = Res.ok (some (NodeType.Array, n)) := by
          refine containerHeader_array ho (by rw [hbr]; exact htype) (by rw [hbr]; exact hn)
            hn24 ?_
          rw [hbufB, ← hsizeB]
          omega
        refine forAllItems_congr fun j _ hj => ?_
        have hj' : j < n := by omega
        obtain ⟨hty, hval⟩ := (hitems _ _ hhdr j hj').1 rfl
        rw [← readArrayItem_rev hlen hty hval]
        refine Res.bind_congr fun item hitem => ?_
        refine hchk item.raw item.type (readArrayItem_eq_ok hitem) fun hc => ?_
        have hcell : rB.cellAt NodeType.Array o j = Res.ok item := by
          have e1 : util.getArrayTypesOffset o = Res.ok (o + 4) := add64_of_lt (by omega)
          simp only [Reader.cellAt, if_true, hbr, hn, Res.ok_bind, e1,
            getArrayValuesOffset_of_lt ho hn24, hitem]
        exact mem_childLinks hhdr hj' hcell hc

/-- The map check on the two buffers, when the node checks of the items agree. -/
theorem checkHashNode_rev {B L : Buffer} (hlen : L.length = B.length) {rB : Reader}
    (hbufB : rB.mBuffer = B) (hbigB : rB.mBigEndian = true)
    {ctxB ctxL : NodeCheckContext}
    (hB : ctxB.br = { mData := B, mBigEndian := true })
    (hL : ctxL.br = { mData := L, mBigEndian := false })
    (hsizeB : ctxB.bufferSize = B.length % 2 ^ 32)
    (hsize : ctxL.bufferSize = ctxB.bufferSize)
    (hkeys : ctxL.hashKeyTableLen = ctxB.hashKeyTableLen) {o : Nat} (ho : o < 2 ^ 32)
    (hnode : NodeSwapped B L rB o) {chkB chkL : Nat → NodeType → Res Bool}
    (hchk : ∀ c type, c < 2 ^ 32 →
      (type = NodeType.Array ∨ type = NodeType.Hash → rB.IsChild o c) →
      chkB c type = chkL c type) :
    checkHashNode chkB ctxB o = checkHashNode chkL ctxL o := by
  obtain ⟨htag, hcount, hitems⟩ := hnode
  have hbr : getBinaryReader rB = { mData := B, mBigEndian := true } := by
    simp only [getBinaryReader, hbufB, hbigB]
  unfold checkHashNode
  rw [hsize, hkeys]
  refine Res.bind_congr fun a ha => ?_
  obtain ⟨_, rfl⟩ := add64_eq_ok.mp ha
  split
  · rfl
  · rename_i h4
    rw [hB, hL, ← read_one_rev hlen htag true false]
    refine Res.bind_congr fun type htype => ?_
    split
    · rfl
    · rename_i hH
      have hH' : type = NodeType.Hash := by
        by_contra hne
        exact hH hne
      subst hH'
      rw [← readContainerSize_rev hlen hcount]
      refine Res.bind_congr fun n hn => ?_
      have hn24 := (readContainerSize_eq_ok hn).2.1
      refine Res.bind_congr fun itemsOffset ht => ?_
      obtain ⟨_, rfl⟩ := add64_eq_ok.mp ht
      rw [mul32_of_lt (show 8 * n < 2 ^ 32 by omega)]
      simp only [Res.ok_bind]
      rw [add64_of_lt (show o + 4 + 8 * n < 2 ^ 64 by omega)]
      simp only [Res.ok_bind]
      split
      · rfl
      · rename_i hend
        have hhdr : rB.containerHeader o = Res.ok (some (NodeType.Hash, n)) := by
          refine containerHeader_hash ho (by rw [hbr]; exact htype) (by rw [hbr]; exact hn)
            hn24 ?_
          rw [hbufB, ← hsizeB]
          omega
        refine forAllItems_congr fun j _ hj => ?_
        have hj' : j < n := by omega
        obtain ⟨hk, hty, hval⟩ := (hitems _ _ hhdr j hj').2 rfl
        rw [getHashItemOffset_of_lt ho (show j < 2 ^ 24 by omega)]
        simp only [Res.ok_bind]
        rw [← readHashItemWithItemOffset_rev hlen hk hty hval]
        refine Res.bind_congr fun item hitem => ?_
        split
        · rfl
        · refine hchk item.data.raw item.data.type (readHashItemWithItemOffset_eq_ok hitem)
            fun hc => ?_
          have hcell : rB.cellAt NodeType.Hash o j = Res.ok item.data := by
            have hne : ¬ (NodeType.Hash = NodeType.Array) := by decide
            simp only [Reader.cellAt, hne, if_false, hbr,
              getHashItemOffset_of_lt ho (show j < 2 ^ 24 by omega), Res.ok_bind, hitem,
              Res.pure_eq_ok]
          exact mem_childLinks hhdr hj' hcell hc

/-- The node check on the two buffers gives the same result with every recursion budget,
at the root and at every item below it. -/
theorem checkNode_rev {B L : Buffer} (hlen : L.length = B.length) {rB : Reader}
    (hbufB : rB.mBuffer = B) (hbigB : rB.mBigEndian = true)
    {ctxB ctxL : NodeCheckContext}
    (hB : ctxB.br = { mData := B, mBigEndian := true })
    (hL : ctxL.br = { mData := L, mBigEndian := false })
    (hsizeB : ctxB.bufferSize = B.length % 2 ^ 32)
    (hsize : ctxL.bufferSize = ctxB.bufferSize)
    (hkeys : ctxL.hashKeyTableLen = ctxB.hashKeyTableLen)
    (hstrings : ctxL.stringTableLen = ctxB.stringTableLen)
    (hnodes : ∀ o, rB.Reaches o → NodeSwapped B L rB o) :
    ∀ (fuel o : Nat) (type : NodeType), o < 2 ^ 32 →
      (type = NodeType.Array ∨ type = NodeType.Hash → rB.Reaches o) →
      checkNode ctxB fuel o type = checkNode ctxL fuel o type := by
  intro fuel
  induction fuel with
  | zero => intro o type _ _; rfl
  | succ fuel ih =>
    intro o type ho hreach
    unfold checkNode
    rw [hstrings, hsize]
    by_cases hS : type = NodeType.String
    · simp only [hS, if_true]
    · simp only [hS, if_false]
      by_cases hA : type = NodeType.Array
      · simp only [hA, if_true]
        have hr := hreach (Or.inl hA)
        exact checkArrayNode_rev hlen hbufB hbigB hB hL hsizeB hsize ho (hnodes o hr)
          fun c type' hc hchild => ih c type' hc fun hty => reaches_child hr (hchild hty)
      · simp only [hA, if_false]
        by_cases hH : type = NodeType.Hash
        · simp only [hH, if_true]
          have hr := hreach (Or.inr hH)
          exact checkHashNode_rev hlen hbufB hbigB hB hL hsizeB hsize hkeys ho (hnodes o hr)
            fun c type' hc hchild => ih c type' hc fun hty => reaches_child hr (hchild hty)
        · simp only [hH, if_false]

theorem get?_of_take_two {l : Buffer} {a b : Fin 256} (h : l.take 2 = [a, b]) :
    l.get? 0 = some a ∧ l.get? 1 = some b := by
  match l, h with
  | x :: y :: rest, h =>
    simp only [List.take_succ_cons, List.take_zero, List.cons.injEq, and_true] at h
    obtain ⟨rfl, rfl⟩ := h
    exact ⟨rfl, rfl⟩

/-- The reader built on a buffer of at least 16 bytes that starts with one of the two
magics, from the values of its header fields. -/
theorem Reader.new_of_magic (buffer : Buffer) (big : Bool) (hlen : 16 ≤ buffer.length)
    (hmagic : buffer.take 2 = if big then magicBigEndian else magicLittleEndian) :
    ∃ version a b c,
      BinaryReader.read { mData := buffer, mBigEndian := big } 2 2 = Res.ok version ∧
      BinaryReader.read { mData := buffer, mBigEndian := big } 4 4 = Res.ok a ∧
      BinaryReader.read { mData := buffer, mBigEndian := big } 4 8 = Res.ok b ∧
      BinaryReader.read { mData := buffer, mBigEndian := big } 4 12 = Res.ok c ∧
      Reader.new buffer = Res.ok (if version = 2 ∨ version = 3 then
          { mBuffer := buffer, mHashKeyTableOffset := a, mStringTableOffset := b,
            mRootNodeOffset := c, mHasValidHeader := true, mBigEndian := big }
        else { mBuffer := buffer, mBigEndian := big }) := by
  obtain ⟨version, hv, _⟩ := read_of_le { mData := buffer, mBigEndian := big }
    (show 2 + 2 ≤ buffer.length by omega)
  obtain ⟨a, ha, _⟩ := read_of_le { mData := buffer, mBigEndian := big }
    (show 4 + 4 ≤ buffer.length by omega)
  obtain ⟨b, hb, _⟩ := read_of_le { mData := buffer, mBigEndian := big }
    (show 8 + 4 ≤ buffer.length by omega)
  obtain ⟨c, hc, _⟩ := read_of_le { mData := buffer, mBigEndian := big }
    (show 12 + 4 ≤ buffer.length by omega)
  refine ⟨version, a, b, c, hv, ha, hb, hc, ?_⟩
  have hlt : ¬ buffer.length < sizeofResHeader := by
    have : sizeofResHeader = 16 := rfl
    omega
  cases big with
  | true =>
    obtain ⟨g0, g1⟩ := get?_of_take_two (show buffer.take 2 = [0x42, 0x59] from hmagic)
    have h0 : BinaryReader.byte { mData := buffer, mBigEndian := false } 0 = Res.ok 0x42 := by
      simp only [BinaryReader.byte, g0]; rfl
    have h1 : BinaryReader.byte { mData := buffer, mBigEndian := false } 1 = Res.ok 0x59 := by
      simp only [BinaryReader.byte, g1]; rfl
    simp only [Reader.new, hlt, if_false, h0, h1, Res.ok_bind]
    by_cases hver : version = 2 ∨ version = 3
    · have hver' : ¬ (version ≠ 2 ∧ version ≠ 3) := by omega
      norm_num [hv, ha, hb, hc, hver, hver', Res.ok_bind, Res.pure_eq_ok]
    · have hver' : version ≠ 2 ∧ version ≠ 3 := by omega
      norm_num [hv, hver, hver', Res.ok_bind, Res.pure_eq_ok]
  | false =>
    obtain ⟨g0, g1⟩ := get?_of_take_two (show buffer.take 2 = [0x59, 0x42] from hmagic)
    have h0 : BinaryReader.byte { mData := buffer, mBigEndian := false } 0 = Res.ok 0x59 := by
      simp only [BinaryReader.byte, g0]; rfl
    have h1 : BinaryReader.byte { mData := buffer, mBigEndian := false } 1 = Res.ok 0x42 := by
      simp only [BinaryReader.byte, g1]; rfl
    simp only [Reader.new, hlt, if_false, h0, h1, Res.ok_bind]
    by_cases hver : version = 2 ∨ version = 3
    · have hver' : ¬ (version ≠ 2 ∧ version ≠ 3) := by omega
      norm_num [hv, ha, hb, hc, hver, hver', Res.ok_bind, Res.pure_eq_ok]
    · have hver' : version ≠ 2 ∧ version ≠ 3 := by omega
      norm_num [hv, hver, hver', Res.ok_bind, Res.pure_eq_ok]

/-- The readers built on a big-endian buffer and on its counterpart hold the same header
offsets and the same header verdict. -/
theorem Reader.new_rev {B L : Buffer} {rB : Reader} (hc : Counterpart B L rB)
    (hnew : Reader.new B = Res.ok rB) :
    ∃ rL, Reader.new L = Res.ok rL ∧ rB.mBuffer = B ∧ rL.mBuffer = L ∧
      rL.mHashKeyTableOffset = rB.mHashKeyTableOffset ∧
      rL.mStringTableOffset = rB.mStringTableOffset ∧
      rL.mRootNodeOffset = rB.mRootNodeOffset ∧
      rL.mHasValidHeader = rB.mHasValidHeader ∧
      (rB.mHasValidHeader = true → rB.mBigEndian = true ∧ rL.mBigEndian = false) := by
  have hlen := hc.size
  by_cases h16 : 16 ≤ B.length
  · obtain ⟨v, a, b, c, hv, ha, hb, hcc, hB⟩ := Reader.new_of_magic B true h16 hc.magicBig
    obtain ⟨v', a', b', c', hv', ha', hb', hcc', hL⟩ :=
      Reader.new_of_magic L false (by omega) hc.magicLittle
    rw [read_rev hlen hc.version, hv'] at hv
    rw [read_rev hlen hc.hashKeyTableOffset, ha'] at ha
    rw [read_rev hlen hc.stringTableOffset, hb'] at hb
    rw [read_rev hlen hc.rootNodeOffset, hcc'] at hcc
    injection hv with hv
    injection ha with ha
    injection hb with hb
    injection hcc with hcc
    subst hv ha hb hcc
    by_cases hver : v' = 2 ∨ v' = 3
    · rw [if_pos hver] at hB hL
      rw [hnew] at hB
      injection hB with hB
      subst hB
      exact ⟨_, hL, rfl, rfl, rfl, rfl, rfl, rfl, fun _ => ⟨rfl, rfl⟩⟩
    · rw [if_neg hver] at hB hL
      rw [hnew] at hB
      injection hB with hB
      subst hB
      exact ⟨_, hL, rfl, rfl, rfl, rfl, rfl, rfl, fun h => by cases h⟩
  · have hB : Reader.new B = Res.ok { mBuffer := B } := by
      have hlt : B.length < sizeofResHeader := by
        have : sizeofResHeader = 16 := rfl
        omega
      simp only [Reader.new, if_pos hlt, Res.pure_eq_ok]
    have hL : Reader.new L = Res.ok { mBuffer := L } := by
      have hlt : L.length < sizeofResHeader := by
        have : sizeofResHeader = 16 := rfl
        omega
      simp only [Reader.new, if_pos hlt, Res.pure_eq_ok]
    rw [hnew] at hB
    injection hB with hB
    subst hB
    exact ⟨_, hL, rfl, rfl, rfl, rfl, rfl, rfl, fun h => by cases h⟩

/-- The validator gives the same result on a big-endian buffer and on its counterpart, with
every recursion budget. -/
theorem Reader.isValid_rev {B L : Buffer} {rB rL : Reader} (hc : Counterpart B L rB)
    (hbufB : rB.mBuffer = B) (hbufL : rL.mBuffer = L)
    (hk : rL.mHashKeyTableOffset = rB.mHashKeyTableOffset)
    (hs : rL.mStringTableOffset = rB.mStringTableOffset)
    (hr : rL.mRootNodeOffset = rB.mRootNodeOffset)
    (hv : rL.mHasValidHeader = rB.mHasValidHeader)
    (hbig : rB.mHasValidHeader = true → rB.mBigEndian = true ∧ rL.mBigEndian = false)
    (hroot : rB.mRootNodeOffset < 2 ^ 32) (fuel : Nat) :
    rB.isValid fuel = rL.isValid fuel := by
  have hlen := hc.size
  unfold Reader.isValid
  rw [hv, hk, hs, hr, hbufB, hbufL, hlen]
  cases hvalid : rB.mHasValidHeader with
  | false => simp only [Bool.not_false, if_true]
  | true =>
    obtain ⟨hbigB, hbigL⟩ := hbig hvalid
    rw [hbigB, hbigL]
    simp only [Bool.not_true, Bool.false_eq_true, if_false]
    by_cases hb : B.length ≤ rB.mHashKeyTableOffset ∨ B.length ≤ rB.mStringTableOffset
        ∨ B.length ≤ rB.mRootNodeOffset
    · rw [if_pos hb, if_pos hb]
    · rw [if_neg hb, if_neg hb]
      have e1 : (if rB.mHashKeyTableOffset ≠ 0 then
            checkStringTable (NodeCheckContext.mk (BinaryReader.mk B true)
              (B.length % 2 ^ 32) 0 0) rB.mHashKeyTableOffset 0
          else (pure (true, 0) : Res (Bool × Nat)))
          = (if rB.mHashKeyTableOffset ≠ 0 then
            checkStringTable (NodeCheckContext.mk (BinaryReader.mk L false)
              (B.length % 2 ^ 32) 0 0) rB.mHashKeyTableOffset 0
          else pure (true, 0)) := by
        by_cases h0 : rB.mHashKeyTableOffset ≠ 0
        · rw [if_pos h0, if_pos h0]
          exact @checkStringTable_rev B L hlen
            (NodeCheckContext.mk (BinaryReader.mk B true) (B.length % 2 ^ 32) 0 0)
            (NodeCheckContext.mk (BinaryReader.mk L false) (B.length % 2 ^ 32) 0 0)
            rfl rfl rfl _ (hc.hashKeyTable h0) 0
        · rw [if_neg h0, if_neg h0]
      rw [e1]
      refine Res.bind_congr fun keys _ => ?_
      by_cases hk1 : (!keys.1) = true
      · rw [if_pos hk1, if_pos hk1]
      · rw [if_neg hk1, if_neg hk1]
        have e2 : (if rB.mStringTableOffset ≠ 0 then
              checkStringTable (NodeCheckContext.mk (BinaryReader.mk B true)
                (B.length % 2 ^ 32) keys.2 0)
                rB.mStringTableOffset 0
            else (pure (true, 0) : Res (Bool × Nat)))
            = (if rB.mStringTableOffset ≠ 0 then
              checkStringTable (NodeCheckContext.mk (BinaryReader.mk L false)
                (B.length % 2 ^ 32) keys.2 0)
                rB.mStringTableOffset 0
            else pure (true, 0)) := by
          by_cases h0 : rB.mStringTableOffset ≠ 0
          · rw [if_pos h0, if_pos h0]
            exact @checkStringTable_rev B L hlen
              (NodeCheckContext.mk (BinaryReader.mk B true) (B.length % 2 ^ 32) keys.2 0)
              (NodeCheckContext.mk (BinaryReader.mk L false) (B.length % 2 ^ 32) keys.2 0)
              rfl rfl rfl _ (hc.stringTable h0) 0
          · rw [if_neg h0, if_neg h0]
        rw [e2]
        refine Res.bind_congr fun strings _ => ?_
        by_cases hs1 : (!strings.1) = true
        · rw [if_pos hs1, if_pos hs1]
        · rw [if_neg hs1, if_neg hs1]
          by_cases h0 : rB.mRootNodeOffset ≠ 0
          · rw [if_pos h0, if_pos h0]
            refine Res.bind_congr fun rootEnd _ => ?_
            by_cases hre : B.length < rootEnd
            · rw [if_pos hre, if_pos hre]
            · rw [if_neg hre, if_neg hre]
              have hnodes := hc.nodes h0
              rw [← read_one_rev hlen (hnodes _ (Or.inl rfl)).1 true false]
              refine Res.bind_congr fun type _ => ?_
              by_cases hty : type ≠ NodeType.Array ∧ type ≠ NodeType.Hash
              · rw [if_pos hty, if_pos hty]
              · rw [if_neg hty, if_neg hty]
                have hchk := @checkNode_rev B L hlen rB hbufB hbigB
                  (NodeCheckContext.mk (BinaryReader.mk B true) (B.length % 2 ^ 32) keys.2
                    strings.2)
                  (NodeCheckContext.mk (BinaryReader.mk L false) (B.length % 2 ^ 32) keys.2
                    strings.2)
                  rfl rfl rfl rfl rfl rfl hnodes fuel rB.mRootNodeOffset type hroot
                  (fun _ => Or.inl rfl)
                rw [hchk]
          · rw [if_neg h0, if_neg h0]

theorem containerHeader_eq_some {r : Reader} {o n : Nat} {type : NodeType}
    (h : r.containerHeader o = Res.ok (some (type, n))) :
    (type = NodeType.Array ∨ type = NodeType.Hash) ∧
    (getBinaryReader r).read 1 o = Res.ok type ∧
    util.readContainerSize (getBinaryReader r) o = Res.ok n := by
  simp only [Reader.containerHeader, Res.bind_eq_ok, add64_eq_ok] at h
  obtain ⟨a, ⟨_, rfl⟩, h⟩ := h
  split at h
  · cases h
  · simp only [Res.bind_eq_ok] at h
    obtain ⟨t, ht, m, hm, h⟩ := h
    split at h
    · rename_i hA
      simp only [Res.bind_eq_ok] at h
      obtain ⟨_, _, _, _, _, _, h⟩ := h
      split at h
      · cases h
      · injection h with h
        injection h with h
        injection h with h1 h2
        subst h1 h2
        exact ⟨Or.inl hA, ht, hm⟩
    · split at h
      · rename_i hH
        simp only [Res.bind_eq_ok] at h
        obtain ⟨_, _, _, _, _, _, h⟩ := h
        split at h
        · cases h
        · injection h with h
          injection h with h
          injection h with h1 h2
          subst h1 h2
          exact ⟨Or.inr hH, ht, hm⟩
      · cases h

/-- The cells of a container that passes the header and extent checks are the same in the
two buffers. -/
theorem cellAt_rev {B L : Buffer} (hlen : L.length = B.length) {rB rL : Reader}
    (hbufB : rB.mBuffer = B) (hbigB : rB.mBigEndian = true)
    (hbufL : rL.mBuffer = L) (hbigL : rL.mBigEndian = false) {o n i : Nat} {type : NodeType}
    (hnode : NodeSwapped B L rB o)
    (hhdr : rB.containerHeader o = Res.ok (some (type, n))) (hi : i < n) :
    rB.cellAt type o i = rL.cellAt type o i ∧
    (type = NodeType.Hash →
      util.readHashItem (getBinaryReader rB) o i = util.readHashItem (getBinaryReader rL) o i) := by
  obtain ⟨htag, hcount, hitems⟩ := hnode
  obtain ⟨hty, _, hn⟩ := containerHeader_eq_some hhdr
  have hbrB : getBinaryReader rB = { mData := B, mBigEndian := true } := by
    simp only [getBinaryReader, hbufB, hbigB]
  have hbrL : getBinaryReader rL = { mData := L, mBigEndian := false } := by
    simp only [getBinaryReader, hbufL, hbigL]
  rw [hbrB] at hn
  have hnL := hn
  rw [readContainerSize_rev hlen hcount] at hnL
  rcases hty with rfl | rfl
  · obtain ⟨ht, hv⟩ := (hitems _ _ hhdr i hi).1 rfl
    refine ⟨?_, fun h => absurd h (by decide)⟩
    simp only [Reader.cellAt, if_true, hbrB, hbrL, hn, hnL, Res.ok_bind]
    refine Res.bind_congr fun a ha => ?_
    obtain ⟨_, rfl⟩ := add64_eq_ok.mp ha
    refine Res.bind_congr fun b hb => ?_
    simp only [util.getArrayValuesOffset, util.getArrayTypesOffset, Res.bind_eq_ok,
      add64_eq_ok] at hb
    obtain ⟨_, ⟨_, rfl⟩, _, rfl⟩ := hb
    exact readArrayItem_rev hlen ht hv
  · obtain ⟨hk, ht, hv⟩ := (hitems _ _ hhdr i hi).2 rfl
    have hne : ¬ (NodeType.Hash = NodeType.Array) := by decide
    have key : ∀ itemOffset, util.getHashItemOffset o i = Res.ok itemOffset →
        util.readHashItemWithItemOffset { mData := B, mBigEndian := true } itemOffset
          = util.readHashItemWithItemOffset { mData := L, mBigEndian := false } itemOffset := by
      intro itemOffset hio
      simp only [util.getHashItemOffset, util.getHashItemsOffset, Res.bind_eq_ok,
        add64_eq_ok, mul32_eq_ok] at hio
      obtain ⟨_, ⟨_, rfl⟩, _, ⟨_, rfl⟩, _, rfl⟩ := hio
      exact readHashItemWithItemOffset_rev hlen hk ht hv
    constructor
    · simp only [Reader.cellAt, hne, if_false, hbrB, hbrL]
      refine Res.bind_congr fun itemOffset hio => ?_
      rw [key itemOffset hio]
    · intro _
      simp only [util.readHashItem, hbrB, hbrL]
      refine Res.bind_congr fun itemOffset hio => ?_
      exact key itemOffset hio

theorem childLinks_rev {B L : Buffer} (hlen : L.length = B.length) {rB rL : Reader}
    (hbufB : rB.mBuffer = B) (hbigB : rB.mBigEndian = true)
    (hbufL : rL.mBuffer = L) (hbigL : rL.mBigEndian = false) {o : Nat}
    (hnode : NodeSwapped B L rB o) : rB.childLinks o = rL.childLinks o := by
  have hh := containerHeader_rev hlen hbufB hbigB hbufL hbigL hnode.1 hnode.2.1
  unfold Reader.childLinks
  rw [← hh]
  cases hB : rB.containerHeader o with
  | fault e => rfl
  | ok res =>
    cases res with
    | none => rfl
    | some tn =>
      obtain ⟨type, n⟩ := tn
      simp only
      refine List.filterMap_congr fun i hi => ?_
      rw [(cellAt_rev hlen hbufB hbigB hbufL hbigL hnode hB (List.mem_range.mp hi)).1]

theorem reaches_rev {B L : Buffer} (hlen : L.length = B.length) {rB rL : Reader}
    (hbufB : rB.mBuffer = B) (hbigB : rB.mBigEndian = true)
    (hbufL : rL.mBuffer = L) (hbigL : rL.mBigEndian = false)
    (hr : rL.mRootNodeOffset = rB.mRootNodeOffset)
    (hnodes : ∀ o, rB.Reaches o → NodeSwapped B L rB o) {o : Nat} (h : rB.Reaches o) :
    rL.Reaches o := by
  rcases h with rfl | h
  · exact Or.inl hr.symm
  · right
    rw [hr]
    induction h with
    | single hc =>
      refine Relation.TransGen.single ?_
      unfold Reader.IsChild at hc ⊢
      rw [← childLinks_rev hlen hbufB hbigB hbufL hbigL (hnodes _ (Or.inl rfl))]
      exact hc
    | tail hp hc ih =>
      refine Relation.TransGen.tail ih ?_
      unfold Reader.IsChild at hc ⊢
      rw [← childLinks_rev hlen hbufB hbigB hbufL hbigL (hnodes _ (Or.inr hp))]
      exact hc

theorem sampleReaderBE_links :
    ∀ p, p < sampleReaderBE.mBuffer.length → ∀ c ∈ sampleReaderBE.childLinks p,
      p = 52 ∧ c = 72 := by
  decide

theorem sampleReaderBE_reaches {o : Nat} (h : sampleReaderBE.Reaches o) : o = 52 ∨ o = 72 := by
  rcases h with rfl | h
  · exact Or.inl rfl
  · right
    induction h with
    | single hc => exact (sampleReaderBE_links _ (isChild_lt hc) _ hc).2
    | tail _ hc _ => exact (sampleReaderBE_links _ (isChild_lt hc) _ hc).2

theorem sampleDocument_tableSwapped_keys : TableSwapped sampleDocumentBE sampleDocument 16 := by
  refine ⟨by decide, by decide, ?_⟩
  intro n hn i hi
  have h2 : BinaryReader.readU24 { mData := sampleDocumentBE, mBigEndian := true } (16 + 1)
      = Res.ok 2 := by decide
  rw [h2] at hn
  injection hn with hn
  subst hn
  have hi' : i = 0 ∨ i = 1 := by omega
  rcases hi' with rfl | rfl
  · refine ⟨by decide, fun word hw => ?_⟩
    have h16 : BinaryReader.read { mData := sampleDocumentBE, mBigEndian := true } 4
        (16 + 4 + 4 * 0) = Res.ok 16 := by decide
    rw [h16] at hw
    injection hw with hw
    subst hw
    decide
  · refine ⟨by decide, fun word hw => ?_⟩
    have h18 : BinaryReader.read { mData := sampleDocumentBE, mBigEndian := true } 4
        (16 + 4 + 4 * 1) = Res.ok 18 := by decide
    rw [h18] at hw
    injection hw with hw
    subst hw
    decide

theorem sampleDocument_tableSwapped_strings :
    TableSwapped sampleDocumentBE sampleDocument 36 := by
  refine ⟨by decide, by decide, ?_⟩
  intro n hn i hi
  have h1 : BinaryReader.readU24 { mData := sampleDocumentBE, mBigEndian := true } (36 + 1)
      = Res.ok 1 := by decide
  rw [h1] at hn
  injection hn with hn
  subst hn
  have hi' : i = 0 := by omega
  subst hi'
  refine ⟨by decide, fun word hw => ?_⟩
  have h12 : BinaryReader.read { mData := sampleDocumentBE, mBigEndian := true } 4
      (36 + 4 + 4 * 0) = Res.ok 12 := by decide
  rw [h12] at hw
  injection hw with hw
  subst hw
  decide

theorem sampleDocument_nodeSwapped {o : Nat} (h : sampleReaderBE.Reaches o) :
    NodeSwapped sampleDocumentBE sampleDocument sampleReaderBE o := by
  rcases sampleReaderBE_reaches h with rfl | rfl
  · refine ⟨by decide, by decide, ?_⟩
    intro type n hh i hi
    have hhdr : sampleReaderBE.containerHeader 52 = Res.ok (some (NodeType.Hash, 2)) := by
      decide
    rw [hhdr] at hh
    injection hh with hh
    injection hh with hh
    injection hh with h1 h2
    subst h1 h2
    have hi' : i = 0 ∨ i = 1 := by omega
    rcases hi' with rfl | rfl
    · exact ⟨fun hty => absurd hty (by decide), fun _ => by decide⟩
    · exact ⟨fun hty => absurd hty (by decide), fun _ => by decide⟩
  · refine ⟨by decide, by decide, ?_⟩
    intro type n hh i hi
    have hhdr : sampleReaderBE.containerHeader 72 = Res.ok (some (NodeType.Array, 2)) := by
      decide
    rw [hhdr] at hh
    injection hh with hh
    injection hh with hh
    injection hh with h1 h2
    subst h1 h2
    have hi' : i = 0 ∨ i = 1 := by omega
    rcases hi' with rfl | rfl
    · exact ⟨fun _ => by decide, fun hty => absurd hty (by decide)⟩
    · exact ⟨fun _ => by decide, fun hty => absurd hty (by decide)⟩

theorem sampleDocument_counterpart :
    Counterpart sampleDocumentBE sampleDocument sampleReaderBE where
  size := by decide
  magicBig := by decide
  magicLittle := by decide
  version := by decide
  hashKeyTableOffset := by decide
  stringTableOffset := by decide
  rootNodeOffset := by decide
  hashKeyTable := fun _ => sampleDocument_tableSwapped_keys
  stringTable := fun _ => sampleDocument_tableSwapped_strings
  nodes := fun _ _ h => sampleDocument_nodeSwapped h

/-- C20. Endianness invariance. Field level: between a big-endian buffer `B` and a buffer
`L` of the same size, a field of any width (2, 4 or 8 bytes among them) read big-endian
from `B` has the value of the byte-reversed field read little-endian from `L`, and so has
the 24-bit count. Document level: when `L` is the counterpart of `B` (the magic swapped,
every multi-byte field of the header, of the two string tables and of the containers below
the root byte-reversed), the readers on `B` and on `L` hold the same header offsets and
header verdict, `isValid()` gives the same result on both with every recursion budget, and
every container below the root of `B` is below the root of `L` with the same tag and count,
the same raw cells and the same key indices. -/
theorem endianness_invariance (B L : Buffer) (rB : Reader)
    (hnew : Reader.new B = Res.ok rB) (hc : Counterpart B L rB) :
    (∀ bs : List Nat, fromBigEndian bs = fromLittleEndian bs.reverse) ∧
    (∀ offset n, RevAt B L offset n →
      BinaryReader.read { mData := B, mBigEndian := true } n offset
        = BinaryReader.read { mData := L, mBigEndian := false } n offset) ∧
    (∀ offset, RevAt B L offset 3 →
      BinaryReader.readU24 { mData := B, mBigEndian := true } offset
        = BinaryReader.readU24 { mData := L, mBigEndian := false } offset) ∧
    ∃ rL, Reader.new L = Res.ok rL ∧
      rL.mHashKeyTableOffset = rB.mHashKeyTableOffset ∧
      rL.mStringTableOffset = rB.mStringTableOffset ∧
      rL.mRootNodeOffset = rB.mRootNodeOffset ∧
      rL.mHasValidHeader = rB.mHasValidHeader ∧
      (∀ fuel, rB.isValid fuel = rL.isValid fuel) ∧
      (∀ fuel, isValid B fuel = isValid L fuel) ∧
      (rB.mHasValidHeader = true → rB.mRootNodeOffset ≠ 0 → ∀ offset, rB.Reaches offset →
        rL.Reaches offset ∧ rB.containerHeader offset = rL.containerHeader offset ∧
        ∀ type n, rB.containerHeader offset = Res.ok (some (type, n)) → ∀ i, i < n →
          rB.cellAt type offset i = rL.cellAt type offset i ∧
          (type = NodeType.Hash →
            util.readHashItem (getBinaryReader rB) offset i
              = util.readHashItem (getBinaryReader rL) offset i)) := by
  have hlen := hc.size
  obtain ⟨rL, hL, hbufB, hbufL, hk, hs, hr, hv, hbig⟩ := Reader.new_rev hc hnew
  obtain ⟨r, hr', _, _, _, h3, _⟩ := Reader.new_spec B
  rw [hnew] at hr'
  injection hr' with hr'
  subst hr'
  have hvalid : ∀ fuel, rB.isValid fuel = rL.isValid fuel :=
    Reader.isValid_rev hc hbufB hbufL hk hs hr hv hbig h3
  refine ⟨fromBigEndian_eq_reverse, fun offset n h => read_rev hlen h,
    fun offset h => readU24_rev hlen h, rL, hL, hk, hs, hr, hv, hvalid, ?_, ?_⟩
  · intro fuel
    simp only [isValid, hnew, hL, Res.ok_bind]
    exact hvalid fuel
  · intro hheader hroot offset hreach
    obtain ⟨hbigB, hbigL⟩ := hbig hheader
    have hnodes := hc.nodes hroot
    have hnode := hnodes offset hreach
    refine ⟨reaches_rev hlen hbufB hbigB hbufL hbigL hr hnodes hreach,
      containerHeader_rev hlen hbufB hbigB hbufL hbigL hnode.1 hnode.2.1, ?_⟩
    intro type n hhdr i hi
    exact cellAt_rev hlen hbufB hbigB hbufL hbigL hnode hhdr hi

/-- C20, witness: the sample document and its big-endian counterpart. Both are accepted,
and the root map at 52 holds the same cells in both. -/
theorem endianness_invariance_witness :
    Reader.new sampleDocumentBE = Res.ok sampleReaderBE ∧
    Counterpart sampleDocumentBE sampleDocument sampleReaderBE ∧
    (∀ fuel, isValid sampleDocumentBE fuel = isValid sampleDocument fuel) ∧
    isValid sampleDocumentBE 3 = Res.ok true ∧
    BinaryReader.read { mData := sampleDocumentBE, mBigEndian := true } 4 12
      = BinaryReader.read { mData := sampleDocument, mBigEndian := false } 4 12 ∧
    sampleReaderBE.cellAt NodeType.Hash 52 1 = Res.ok { raw := 72, type := NodeType.Array } ∧
    sampleReader.cellAt NodeType.Hash 52 1 = Res.ok { raw := 72, type := NodeType.Array } := by
  have h := endianness_invariance sampleDocumentBE sampleDocument sampleReaderBE (by decide)
    sampleDocument_counterpart
  obtain ⟨_, hread, _, rL, _, _, _, _, _, _, hvalid, _⟩ := h
  exact ⟨by decide, sampleDocument_counterpart, hvalid, by decide, hread 12 4 (by decide),
    by decide, by decide⟩

/-- The check of a wide scalar: `data + 8 < ctx.bufferSize`, the sum taken in 64 bits. -/
theorem checkNode_wide (ctx : NodeCheckContext) (fuel : Nat) {data : Nat} {type : NodeType}
    (hd : data < 2 ^ 32)
    (hwide : type = NodeType.Int64 ∨ type = NodeType.UInt64 ∨ type = NodeType.Double) :
    checkNode ctx (fuel + 1) data type = Res.ok (decide (data + 8 < ctx.bufferSize)) := by
  have h1 : type ≠ NodeType.String := by rcases hwide with h | h | h <;> rw [h] <;> decide
  have h2 : type ≠ NodeType.Array := by rcases hwide with h | h | h <;> rw [h] <;> decide
  have h3 : type ≠ NodeType.Hash := by rcases hwide with h | h | h <;> rw [h] <;> decide
  have h4 : ¬ (type = NodeType.Bool ∨ type = NodeType.Int ∨ type = NodeType.Float
      ∨ type = NodeType.UInt) := by
    rcases hwide with h | h | h <;> rw [h] <;> decide
  unfold checkNode
  rw [if_neg h1, if_neg h2, if_neg h3, if_neg h4, if_pos hwide, add64_of_lt (by omega)]
  rfl

/-- Wide scalars, the general facts: with the size that `isValid` stores in the context, a
cell tagged Int64, UInt64 or Double that passes the check has `raw + 8` below the buffer
size; when the buffer size fits in 32 bits the check passes exactly when `raw + 8` is below
the buffer size; and a value that ends exactly at the end of the buffer never passes. -/
theorem wide_scalar_check (reader : Reader) (k s fuel : Nat) {raw : Nat} {type : NodeType}
    (hraw : raw < 2 ^ 32)
    (hwide : type = NodeType.Int64 ∨ type = NodeType.UInt64 ∨ type = NodeType.Double) :
    (checkNode (reader.checkContext k s) (fuel + 1) raw type = Res.ok true →
      raw + 8 < reader.mBuffer.length) ∧
    (reader.mBuffer.length < 2 ^ 32 →
      (checkNode (reader.checkContext k s) (fuel + 1) raw type = Res.ok true ↔
        raw + 8 < reader.mBuffer.length)) ∧
    (raw + 8 = reader.mBuffer.length →
      checkNode (reader.checkContext k s) (fuel + 1) raw type = Res.ok false) := by
  rw [checkNode_wide _ fuel hraw hwide]
  have hsize : (reader.checkContext k s).bufferSize = reader.mBuffer.length % 2 ^ 32 := rfl
  have hmod := Nat.mod_le reader.mBuffer.length (2 ^ 32)
  rw [hsize]
  refine ⟨?_, ?_, ?_⟩
  · intro h
    injection h with h
    have := of_decide_eq_true h
    omega
  · intro hlt
    rw [Nat.mod_eq_of_lt hlt]
    constructor
    · intro h
      injection h with h
      exact of_decide_eq_true h
    · intro h
      rw [decide_eq_true h]
  · intro h
    have : ¬ raw + 8 < reader.mBuffer.length % 2 ^ 32 := by omega
    rw [decide_eq_false this]

/-- A root array of one item, tagged as a wide scalar, whose `raw + 8` is not below the
buffer size as the context holds it, is rejected. -/
theorem Reader.isValid_wide_item_rejected (r : Reader) (fuel : Nat) {raw : Nat}
    {type : NodeType}
    (hheader : r.mHasValidHeader = true)
    (hkeys : r.mHashKeyTableOffset = 0) (hstrings : r.mStringTableOffset = 0)
    (hroot : 0 < r.mRootNodeOffset) (hlt : r.mRootNodeOffset < 2 ^ 32)
    (hin : r.mRootNodeOffset < r.mBuffer.length)
    (htag : BinaryReader.read { mData := r.mBuffer, mBigEndian := r.mBigEndian } 1
      r.mRootNodeOffset = Res.ok NodeType.Array)
    (hcount : BinaryReader.readU24 { mData := r.mBuffer, mBigEndian := r.mBigEndian }
      (r.mRootNodeOffset + 1) = Res.ok 1)
    (hext : r.mRootNodeOffset + 12 ≤ r.mBuffer.length % 2 ^ 32)
    (hty : BinaryReader.read { mData := r.mBuffer, mBigEndian := r.mBigEndian } 1
      (r.mRootNodeOffset + 4) = Res.ok type)
    (hwide : type = NodeType.Int64 ∨ type = NodeType.UInt64 ∨ type = NodeType.Double)
    (hcell : BinaryReader.read { mData := r.mBuffer, mBigEndian := r.mBigEndian } 4
      (r.mRootNodeOffset + 8) = Res.ok raw)
    (hover : r.mBuffer.length % 2 ^ 32 ≤ raw + 8) :
    r.isValid (fuel + 2) = Res.ok false := by
  have hraw : raw < 2 ^ 32 := by
    have := (read_eq_ok hcell).1
    rw [pow_256_four] at this
    exact this
  have hb : ¬ (r.mBuffer.length ≤ r.mHashKeyTableOffset ∨ r.mBuffer.length ≤ r.mStringTableOffset
      ∨ r.mBuffer.length ≤ r.mRootNodeOffset) := by omega
  have hb' : ¬ (r.mBuffer.length ≤ 0 ∨ r.mBuffer.length ≤ 0
      ∨ r.mBuffer.length ≤ r.mRootNodeOffset) := by omega
  have hne : r.mRootNodeOffset ≠ 0 := by omega
  have hend : ¬ r.mBuffer.length < r.mRootNodeOffset + 1 := by omega
  have hal : AlignUp 1 4 = 4 := by decide
  have h4 : ¬ r.mBuffer.length % 2 ^ 32 < r.mRootNodeOffset + 4 := by omega
  have h12 : ¬ r.mBuffer.length % 2 ^ 32 < r.mRootNodeOffset + 4 + 4 + 4 := by omega
  have hitem : checkNode (NodeCheckContext.mk (BinaryReader.mk r.mBuffer r.mBigEndian)
      (r.mBuffer.length % 2 ^ 32) 0 0) (fuel + 1) raw type = Res.ok false := by
    rw [checkNode_wide _ fuel hraw hwide]
    have : ¬ raw + 8 < r.mBuffer.length % 2 ^ 32 := by omega
    exact congrArg Res.ok (decide_eq_false this)
  simp only [Reader.isValid, hheader, Bool.not_true, Bool.false_eq_true, if_false, if_neg hb,
    if_neg hb', hkeys, hstrings, ne_eq, not_true_eq_false, Res.pure_eq_ok, Res.ok_bind, hne,
    not_false_eq_true, if_true, add64_of_lt (show r.mRootNodeOffset + 1 < 2 ^ 64 by omega),
    hend, htag]
  have hchk : checkNode (NodeCheckContext.mk (BinaryReader.mk r.mBuffer r.mBigEndian)
      (r.mBuffer.length % 2 ^ 32) 0 0) (fuel + 2) r.mRootNodeOffset NodeType.Array
      = Res.ok false := by
    have hA : ¬ (NodeType.Array = NodeType.String) := by decide
    have e8 : add64 (r.mRootNodeOffset + 8) 0 = Res.ok (r.mRootNodeOffset + 8) :=
      add64_of_lt (by omega)
    have e4 : add64 (r.mRootNodeOffset + 4) 0 = Res.ok (r.mRootNodeOffset + 4) :=
      add64_of_lt (by omega)
    rw [checkNode, if_neg hA, if_pos rfl]
    simp only [checkArrayNode, add64_of_lt (show r.mRootNodeOffset + 4 < 2 ^ 64 by omega),
      Res.ok_bind, if_neg h4, htag, ne_eq, not_true_eq_false, if_false,
      util.readContainerSize, add64_of_lt (show r.mRootNodeOffset + 1 < 2 ^ 64 by omega),
      hcount, util.getArrayTypesOffset, util.getArrayValuesOffset, hal,
      add64_of_lt (show r.mRootNodeOffset + 4 + 4 < 2 ^ 64 by omega),
      mul32_of_lt (show 4 * 1 < 2 ^ 32 by norm_num), Nat.mul_one,
      add64_of_lt (show r.mRootNodeOffset + 4 + 4 + 4 < 2 ^ 64 by omega), if_neg h12,
      forAllItems, util.readArrayItem, mul32_of_lt (show 4 * 0 < 2 ^ 32 by norm_num),
      Nat.mul_zero, Nat.add_zero,
      add64_of_lt (show r.mRootNodeOffset + 4 < 2 ^ 64 by omega),
      e8, e4, hcell, hty, hitem, Res.pure_eq_ok, Bool.not_false, if_true]
  have hno : ¬ (False ∧ ¬ NodeType.Array = NodeType.Hash) := fun h => h.1
  rw [if_neg hno, hchk]
  rfl

theorem paddedWideDocument_length : paddedWideDocument.length = 2 ^ 32 + 28 := by
  have h : int64MinDocument.length = 37 := rfl
  have hp : widePaddingLength = 2 ^ 32 - 9 := rfl
  rw [paddedWideDocument, List.length_append, List.length_replicate, h, hp]
  norm_num

theorem paddedWideReader_new : Reader.new paddedWideDocument = Res.ok paddedWideReader := by
  have hlen := paddedWideDocument_length
  refine Reader.new_littleEndian paddedWideDocument (by omega) ?_ ?_ ?_ (Or.inl rfl) ?_ ?_ ?_
  all_goals first
    | (rw [paddedWideDocument, byte_append_left _ _ false false (by decide)]; rfl)
    | (rw [paddedWideDocument, read_append_left _ _ false (by decide)]; rfl)

theorem paddedWideReader_isValid (fuel : Nat) :
    paddedWideReader.isValid (fuel + 2) = Res.ok false := by
  have hlen : paddedWideReader.mBuffer.length = 2 ^ 32 + 28 := paddedWideDocument_length
  refine @Reader.isValid_wide_item_rejected paddedWideReader fuel 28 NodeType.Int64 rfl rfl rfl
    (by decide) (by decide) ?_ ?_ ?_ ?_ ?_ (Or.inl rfl) ?_ ?_
  · rw [hlen]; decide
  · show BinaryReader.read { mData := paddedWideDocument, mBigEndian := false } 1 16 = _
    rw [paddedWideDocument, read_append_left _ _ false (by decide)]; rfl
  · show BinaryReader.readU24 { mData := paddedWideDocument, mBigEndian := false } (16 + 1) = _
    rw [paddedWideDocument, readU24_append_left _ _ false (by decide)]; rfl
  · rw [hlen]; decide
  · show BinaryReader.read { mData := paddedWideDocument, mBigEndian := false } 1 (16 + 4) = _
    rw [paddedWideDocument, read_append_left _ _ false (by decide)]; rfl
  · show BinaryReader.read { mData := paddedWideDocument, mBigEndian := false } 4 (16 + 8) = _
    rw [paddedWideDocument, read_append_left _ _ false (by decide)]; rfl
  · rw [hlen]; decide

/-- A document whose Int64 value ends exactly at the end of the buffer is reported
invalid. -/
theorem wide_scalar_at_end_rejected :
    Reader.new wideAtEndDocument = Res.ok wideAtEndReader ∧
    util.readArrayItem (getBinaryReader wideAtEndReader) 20 24 0
      = Res.ok { raw := 28, type := NodeType.Int64 } ∧
    28 + 8 = wideAtEndDocument.length ∧
    ∀ fuel, wideAtEndReader.isValid (fuel + 2) = Res.ok false := by
  refine ⟨by decide, by decide, by decide, fun fuel => ?_⟩
  have h2 : wideAtEndReader.isValid 2 = Res.ok false := by decide
  exact wideAtEndReader.isValid_mono (by decide) (Nat.le_add_left 2 fuel) h2

/-- C21. Wide scalars in a large buffer: `paddedWideDocument` is a buffer of `2 ^ 32 + 28`
bytes with an accepted header whose root array at 16 holds one cell tagged Int64 with
`raw = 28`; `raw + 8 = 36` is below the buffer size, and `isValid()` returns false, while on
the first 37 bytes alone `isValid()` returns true. -/
theorem wide_scalar_rejected_in_large_buffer :
    Reader.new paddedWideDocument = Res.ok paddedWideReader ∧
    paddedWideReader.mHasValidHeader = true ∧
    paddedWideDocument.length = 2 ^ 32 + 28 ∧
    util.readArrayItem (getBinaryReader paddedWideReader) 20 24 0
      = Res.ok { raw := 28, type := NodeType.Int64 } ∧
    28 + 8 < paddedWideDocument.length ∧
    (∀ fuel, paddedWideReader.isValid (fuel + 2) = Res.ok false) ∧
    paddedWideDocument.take 37 = int64MinDocument ∧
    Reader.new int64MinDocument = Res.ok int64MinReader ∧
    (∀ fuel, int64MinReader.isValid (fuel + 2) = Res.ok true) := by
  have hlen := paddedWideDocument_length
  refine ⟨paddedWideReader_new, rfl, hlen, ?_, ?_, paddedWideReader_isValid, ?_, by decide, ?_⟩
  · show util.readArrayItem { mData := paddedWideDocument, mBigEndian := false } 20 24 0 = _
    have h1 : BinaryReader.read { mData := paddedWideDocument, mBigEndian := false } 4 24
        = Res.ok 28 := by
      rw [paddedWideDocument, read_append_left _ _ false (by decide)]; rfl
    have h2 : BinaryReader.read { mData := paddedWideDocument, mBigEndian := false } 1 20
        = Res.ok NodeType.Int64 := by
      rw [paddedWideDocument, read_append_left _ _ false (by decide)]; rfl
    simp only [util.readArrayItem, mul32_of_lt (show 4 * 0 < 2 ^ 32 by norm_num), Res.ok_bind,
      Nat.mul_zero, add64_of_lt (show 24 + 0 < 2 ^ 64 by norm_num),
      add64_of_lt (show 20 + 0 < 2 ^ 64 by norm_num), Nat.add_zero, h1, h2, Res.pure_eq_ok]
  · rw [hlen]; decide
  · have h37 : int64MinDocument.length = 37 := rfl
    rw [paddedWideDocument, ← h37, List.take_left]
  · intro fuel
    have h2 : int64MinReader.isValid 2 = Res.ok true := by decide
    exact int64MinReader.isValid_mono (by decide) (Nat.le_add_left 2 fuel) h2

/-- The value that `b0 << 16 | b1 << 8 | b2` assembles from three bytes. -/
theorem u24_value {b0 b1 b2 : Nat} (h0 : b0 < 256) (h1 : b1 < 256) (h2 : b2 < 256) :
    b0 <<< 16 ||| b1 <<< 8 ||| b2 = b0 * 65536 + b1 * 256 + b2 ∧
    b0 * 65536 + b1 * 256 + b2 < 2 ^ 24 := by
  refine ⟨?_, by omega⟩
  rw [Nat.or_assoc, Nat.shiftLeft_eq, Nat.shiftLeft_eq]
  have e1 : b1 * 2 ^ 8 ||| b2 = 2 ^ 8 * b1 + b2 := by
    rw [Nat.mul_add_lt_is_or (show b2 < 2 ^ 8 by omega), Nat.mul_comm]
  have e2 : b0 * 2 ^ 16 ||| (2 ^ 8 * b1 + b2) = 2 ^ 16 * b0 + (2 ^ 8 * b1 + b2) := by
    rw [Nat.mul_add_lt_is_or (show 2 ^ 8 * b1 + b2 < 2 ^ 16 by omega), Nat.mul_comm]
  rw [e1, e2]
  omega

/-- C24. 24-bit count: when the three bytes at `offset`, `offset + 1` and `offset + 2` are
`b0`, `b1` and `b2`, `readU24` returns `b0 * 65536 + b1 * 256 + b2` on a big-endian
document and `b2 * 65536 + b1 * 256 + b0` on a little-endian one, a value below `2 ^ 24`;
so the item count of every array view and of every map view is at most `2 ^ 24 - 1`, and
the key index of every map entry is below `2 ^ 24`. -/
theorem readU24_value (br : BinaryReader) (offset b0 b1 b2 : Nat)
    (h0 : br.byte offset = Res.ok b0) (h1 : br.byte (offset + 1) = Res.ok b1)
    (h2 : br.byte (offset + 2) = Res.ok b2) :
    br.readU24 offset = Res.ok (if br.mBigEndian then b0 * 65536 + b1 * 256 + b2
      else b2 * 65536 + b1 * 256 + b0) ∧
    (if br.mBigEndian then b0 * 65536 + b1 * 256 + b2 else b2 * 65536 + b1 * 256 + b0)
      < 2 ^ 24 ∧
    (∀ reader node (a : Array), Array.new reader node = Res.ok a →
      a.base.numItems ≤ 2 ^ 24 - 1) ∧
    (∀ reader node (m : Hash), Hash.new reader node = Res.ok m →
      m.base.numItems ≤ 2 ^ 24 - 1) ∧
    (∀ (reader : BinaryReader) node i (item : util.RawHashItem),
      util.readHashItem reader node i = Res.ok item → item.keyIndex < 2 ^ 24) := by
  have l0 := (byte_eq_ok h0).2
  have l1 := (byte_eq_ok h1).2
  have l2 := (byte_eq_ok h2).2
  refine ⟨?_, ?_, ?_, ?_, ?_⟩
  · simp only [BinaryReader.readU24, h0, h1, h2, Res.ok_bind, Res.pure_eq_ok]
    cases br.mBigEndian with
    | true => simp only [if_true]; rw [(u24_value l0 l1 l2).1]
    | false =>
      simp only [Bool.false_eq_true, if_false]
      rw [(u24_value l2 l1 l0).1]
  · cases br.mBigEndian with
    | true => simp only [if_true]; exact (u24_value l0 l1 l2).2
    | false => simp only [Bool.false_eq_true, if_false]; exact (u24_value l2 l1 l0).2
  · intro reader node a ha
    have := (readContainerSize_eq_ok (array_new_eq_ok ha).2.2).2.1
    show a.base.mNumItems ≤ 2 ^ 24 - 1
    omega
  · intro reader node m hm
    have := (readContainerSize_eq_ok (hash_new_eq_ok hm).2.2).2.1
    show m.base.mNumItems ≤ 2 ^ 24 - 1
    omega
  · intro reader node i item hitem
    simp only [util.readHashItem, util.readHashItemWithItemOffset, Res.bind_eq_ok,
      Res.pure_eq_ok] at hitem
    obtain ⟨io, _, k, hk, _, _, _, _, _, _, _, _, hitem⟩ := hitem
    injection hitem with hitem
    subst hitem
    exact (readU24_eq_ok hk).1

/-- C24, witness: the count of the root map of the sample document, the bytes `02 00 00` at
53..55, read little-endian, and the same three bytes read big-endian. -/
theorem readU24_value_witness :
    (getBinaryReader sampleReader).byte 53 = Res.ok 2 ∧
    (getBinaryReader sampleReader).byte 54 = Res.ok 0 ∧
    (getBinaryReader sampleReader).byte 55 = Res.ok 0 ∧
    (getBinaryReader sampleReader).readU24 53 = Res.ok 2 ∧
    BinaryReader.readU24 { mData := sampleDocument, mBigEndian := true } 53 = Res.ok 131072 ∧
    sampleRootHash.base.numItems ≤ 2 ^ 24 - 1 := by
  have hL := readU24_value (getBinaryReader sampleReader) 53 2 0 0 (by decide) (by decide)
    (by decide)
  have hB := readU24_value { mData := sampleDocument, mBigEndian := true } 53 2 0 0
    (by decide) (by decide) (by decide)
  exact ⟨by decide, by decide, by decide, hL.1, hB.1,
    hL.2.2.2.1 sampleReader 52 sampleRootHash (by decide)⟩

/-- `AlignUp n 4` is the smallest multiple of 4 that is at least `n`. -/
theorem AlignUp_four_least (n : Nat) :
    AlignUp n 4 % 4 = 0 ∧ n ≤ AlignUp n 4 ∧
    ∀ m, m % 4 = 0 → n ≤ m → AlignUp n 4 ≤ m := by
  unfold AlignUp
  refine ⟨by omega, by omega, fun m hm hle => ?_⟩
  omega

/-- C23. Array layout: for an array view built at the node offset `o`, with count `N`, and
an index `i < N` whose value word is inside the buffer, `getByIndex(i)` returns the item
whose type is the byte at `o + 4 + i` and whose raw is the 32-bit word, read in the byte
order of the document, at `o + 4 + round_up(N, 4) + 4 * i`; `round_up(N, 4)` is the
smallest multiple of 4 that is at least `N`, so the `N` type bytes end at or before the
first value word and no type byte is a byte of a value word. -/
theorem array_layout (reader : Reader) (o : Nat) (a : Array) (i : Nat)
    (ho : o < 2 ^ 32) (hnew : Array.new reader o = Res.ok a)
    (hi : i < a.base.numItems)
    (hfit : o + 4 + AlignUp a.base.numItems 4 + 4 * i + 4 ≤ reader.mBuffer.length) :
    (∃ type raw,
      (getBinaryReader reader).byte (o + 4 + i) = Res.ok type ∧
      (getBinaryReader reader).read 4 (o + 4 + AlignUp a.base.numItems 4 + 4 * i)
        = Res.ok raw ∧
      a.getByIndex i = Res.ok (some { reader := reader, raw := { raw := raw, type := type } })) ∧
    (AlignUp a.base.numItems 4 % 4 = 0 ∧ a.base.numItems ≤ AlignUp a.base.numItems 4 ∧
      ∀ m, m % 4 = 0 → a.base.numItems ≤ m → AlignUp a.base.numItems 4 ≤ m) ∧
    o + 4 + a.base.numItems ≤ o + 4 + AlignUp a.base.numItems 4 ∧
    (∀ j k, j < a.base.numItems → k < a.base.numItems →
      o + 4 + j < o + 4 + AlignUp a.base.numItems 4 + 4 * k) := by
  obtain ⟨hr, hoff, hn⟩ := array_new_eq_ok hnew
  have hn24 : a.base.mNumItems < 2 ^ 24 := (readContainerSize_eq_ok hn).2.1
  have hal := AlignUp_four_least a.base.mNumItems
  have hal4 := AlignUp_four a.base.mNumItems
  have hi' : i < a.base.mNumItems := hi
  have hfit' : o + 4 + AlignUp a.base.mNumItems 4 + 4 * i + 4
      ≤ (getBinaryReader reader).mData.length := hfit
  refine ⟨?_, hal, ?_, ?_⟩
  · obtain ⟨type, htype, _⟩ := byte_of_lt (getBinaryReader reader)
      (show o + 4 + i < (getBinaryReader reader).mData.length by omega)
    obtain ⟨raw, hraw, _⟩ := read_of_le (getBinaryReader reader) hfit'
    refine ⟨type, raw, htype, hraw, ?_⟩
    have e1 : util.getArrayTypesOffset o = Res.ok (o + 4) := add64_of_lt (by omega)
    have e2 : mul32 4 i = Res.ok (4 * i) := mul32_of_lt (by omega)
    have e3 : add64 (o + 4 + AlignUp a.base.mNumItems 4) (4 * i)
        = Res.ok (o + 4 + AlignUp a.base.mNumItems 4 + 4 * i) := add64_of_lt (by omega)
    have e4 : add64 (o + 4) i = Res.ok (o + 4 + i) := add64_of_lt (by omega)
    rw [← read_one_eq_byte] at htype
    show a.getByIndex i = _
    simp only [Array.getByIndex, Array.getByIndexImpl, ContainerBase.numItems,
      if_neg (show ¬ a.base.mNumItems ≤ i by omega), hoff, e1, Res.ok_bind,
      getArrayValuesOffset_of_lt ho hn24, util.readArrayItem, e2, e3, e4, hr, hraw, htype,
      Res.pure_eq_ok]
  · show o + 4 + a.base.mNumItems ≤ o + 4 + AlignUp a.base.mNumItems 4
    omega
  · intro j k hj _
    have hj' : j < a.base.mNumItems := hj
    show o + 4 + j < o + 4 + AlignUp a.base.mNumItems 4 + 4 * k
    omega

/-- C23, witness: the array at 72 of the sample document, whose two type bytes are at 76
and 77 and whose two value words are at 80 and 84. -/
theorem array_layout_witness :
    Array.new sampleReader 72 = Res.ok sampleArray ∧
    (∃ type raw,
      (getBinaryReader sampleReader).byte (72 + 4 + 1) = Res.ok type ∧
      (getBinaryReader sampleReader).read 4 (72 + 4 + AlignUp sampleArray.base.numItems 4 + 4 * 1)
        = Res.ok raw ∧
      sampleArray.getByIndex 1
        = Res.ok (some { reader := sampleReader, raw := { raw := raw, type := type } })) ∧
    sampleArray.getByIndex 1
      = Res.ok (some { reader := sampleReader, raw := { raw := 5, type := NodeType.Int } }) ∧
    AlignUp sampleArray.base.numItems 4 = 4 :=
  ⟨by decide,
    (array_layout sampleReader 72 sampleArray 1 (by decide) (by decide) (by decide)
      (by decide)).1,
    by decide, by decide⟩

/-- C22. On a buffer that `isValid()` accepts, for every entry `i` of a map reachable from
the root: the hash key table is present; the 24-bit key index of the entry is below the
count of the hash key table; `getByIndex(i)` returns the entry, and its key starts at
`getStringOffset(hashKeyTableOffset, keyIndex)`, a position below the buffer size that a
NUL byte follows before the end of the buffer, so that the key is a C string inside the
buffer. -/
theorem map_key_in_table (buffer : Buffer) (reader : Reader) (fuel : Nat)
    (hnew : Reader.new buffer = Res.ok reader) (hvalid : reader.isValid fuel = Res.ok true)
    (map : Hash) (hreach : Reachable reader (.hash map)) (i : Nat)
    (hi : i < map.base.numItems) :
    reader.mHashKeyTableOffset ≠ 0 ∧
    ∃ count raw entry,
      (getBinaryReader reader).readU24 (reader.mHashKeyTableOffset + 1) = Res.ok count ∧
      util.readHashItem (getBinaryReader reader) map.base.mOffset i = Res.ok raw ∧
      raw.keyIndex < count ∧
      map.getByIndex i = Res.ok (some entry) ∧
      util.getStringOffset (getBinaryReader reader) reader.mHashKeyTableOffset raw.keyIndex
        = Res.ok entry.name ∧
      entry.name < buffer.length ∧
      (∃ q, entry.name ≤ q ∧ q < buffer.length ∧
        (getBinaryReader reader).byte q = Res.ok 0) ∧
      ∃ key, (getBinaryReader reader).cstrAt entry.name = Res.ok key := by
  obtain ⟨hbuf, ctx, hc⟩ := validated hnew hvalid
  have hv := reachable_checked hc hreach
  have hi' : i < map.base.mNumItems := hi
  obtain ⟨raw, p, f, hget, hread, hklt, hp, hplt, ⟨q, hpq, hq, hnul⟩, _⟩ :=
    hash_items hc.tables hc.offsets.1 hv hi'
  have hsize := hc.tables.size_le
  rw [hbuf] at hsize
  have hr : map.base.mReader = reader := hv.1
  rcases hc.tables.2.1 with ⟨_, h0⟩ | ⟨hne, hcount, _, _, _⟩
  · omega
  · rw [hc.tables.br_eq] at hcount
    refine ⟨hne, ctx.hashKeyTableLen, raw, ⟨p, { reader := reader, raw := raw.data }⟩, hcount,
      hread, hklt, ?_, hp, (by show p < buffer.length; omega), ⟨q, hpq, by omega, hnul⟩, ?_⟩
    · simp only [Hash.getByIndex, Hash.getByIndexImpl, ContainerBase.numItems,
        if_neg (show ¬ map.base.mNumItems ≤ i by omega), hr, hget, Res.ok_bind,
        Res.pure_eq_ok]
    · exact cstrAt_of_byte_zero (getBinaryReader reader) hpq hnul

/-- C22, witness: the entry 1 of the root map of the sample document has the key index 1,
below the count 2 of the hash key table, and its key `b` starts at 34. -/
theorem map_key_in_table_witness :
    Reader.new sampleDocument = Res.ok sampleReader ∧ sampleReader.isValid 3 = Res.ok true ∧
    Reachable sampleReader (.hash sampleRootHash) ∧
    sampleReader.mHashKeyTableOffset ≠ 0 ∧
    ∃ count raw entry,
      (getBinaryReader sampleReader).readU24 (sampleReader.mHashKeyTableOffset + 1)
        = Res.ok count ∧
      util.readHashItem (getBinaryReader sampleReader) sampleRootHash.base.mOffset 1
        = Res.ok raw ∧
      raw.keyIndex < count ∧
      sampleRootHash.getByIndex 1 = Res.ok (some entry) ∧
      util.getStringOffset (getBinaryReader sampleReader) sampleReader.mHashKeyTableOffset
        raw.keyIndex = Res.ok entry.name ∧
      entry.name < sampleDocument.length ∧
      (∃ q, entry.name ≤ q ∧ q < sampleDocument.length ∧
        (getBinaryReader sampleReader).byte q = Res.ok 0) ∧
      ∃ key, (getBinaryReader sampleReader).cstrAt entry.name = Res.ok key :=
  ⟨by decide, by decide, sampleRootHash_reachable,
    map_key_in_table sampleDocument sampleReader 3 (by decide) (by decide) sampleRootHash
      sampleRootHash_reachable 1 (by decide)⟩

theorem toS32_of_nonneg {raw : Nat} (hraw : raw < 2 ^ 32) (h : 0 ≤ toS32 raw) :
    toS32 raw = (raw : Int) := by
  unfold toS32 at h ⊢
  rw [Nat.mod_eq_of_lt hraw] at h ⊢
  split
  · rfl
  · rename_i hge
    rw [if_neg hge] at h
    omega

theorem toS64_of_nonneg {word : Nat} (hword : word < 2 ^ 64) (h : ¬ toS64 word < 0) :
    toS64 word = (word : Int) := by
  unfold toS64 at h ⊢
  rw [Nat.mod_eq_of_lt hword] at h ⊢
  split
  · rfl
  · rename_i hge
    rw [if_neg hge] at h
    omega

/-- C26. Widening accessors are consistent: for an item whose cell is a 32-bit value, if
`getInt()` returns `v` then `getInt64()` returns `v`; if `getUInt()` returns `v` then
`getUInt64()` and `getInt64()` both return `v`; and when `getInt64()` and `getUInt64()`
both return a value, the two values are the same number, which is not negative. -/
theorem widening_consistent (item : ItemData) (hraw : item.raw.raw < 2 ^ 32) :
    (∀ v, item.getInt = some v → item.getInt64 = Res.ok (some v)) ∧
    (∀ v, item.getUInt = some v →
      item.getUInt64 = Res.ok (some v) ∧ item.getInt64 = Res.ok (some (v : Int))) ∧
    (∀ s u, item.getInt64 = Res.ok (some s) → item.getUInt64 = Res.ok (some u) →
      s = (u : Int) ∧ 0 ≤ s) := by
  refine ⟨?_, ?_, ?_⟩
  · intro v hv
    unfold ItemData.getInt at hv
    by_cases hI : item.raw.type = NodeType.Int
    · simp only [ne_eq, hI, not_true_eq_false, if_false, Option.some.injEq] at hv
      subst hv
      simp only [ItemData.getInt64, hI, if_true, Res.pure_eq_ok]
    · simp only [ne_eq, hI, not_false_eq_true, if_true] at hv
      cases hv
  · intro v hv
    unfold ItemData.getUInt at hv
    by_cases hI : item.raw.type = NodeType.Int
    · rw [if_pos hI] at hv
      by_cases hs : toS32 item.raw.raw ≥ 0
      · rw [if_pos hs] at hv
        injection hv with hv
        subst hv
        refine ⟨?_, ?_⟩
        · simp only [ItemData.getUInt64, ItemData.getUInt, if_pos hI, if_pos hs, Res.pure_eq_ok]
        · simp only [ItemData.getInt64, if_pos hI, Res.pure_eq_ok,
            toS32_of_nonneg hraw hs]
      · rw [if_neg hs] at hv
        cases hv
    · rw [if_neg hI] at hv
      by_cases hU : item.raw.type = NodeType.UInt
      · rw [if_pos hU] at hv
        injection hv with hv
        subst hv
        refine ⟨?_, ?_⟩
        · simp only [ItemData.getUInt64, ItemData.getUInt, if_neg hI, if_pos hU,
            Res.pure_eq_ok]
        · simp only [ItemData.getInt64, if_neg hI, if_pos hU, Res.pure_eq_ok]
      · rw [if_neg hU] at hv
        cases hv
  · intro s u hs hu
    by_cases hI : item.raw.type = NodeType.Int
    · simp only [ItemData.getInt64, if_pos hI, Res.pure_eq_ok, Res.ok.injEq,
        Option.some.injEq] at hs
      by_cases hn : toS32 item.raw.raw ≥ 0
      · simp only [ItemData.getUInt64, ItemData.getUInt, if_pos hI, if_pos hn, Res.pure_eq_ok,
          Res.ok.injEq, Option.some.injEq] at hu
        subst hs hu
        exact ⟨toS32_of_nonneg hraw hn, hn⟩
      · have hne1 : item.raw.type ≠ NodeType.Int64 := by rw [hI]; decide
        have hne2 : item.raw.type ≠ NodeType.UInt64 := by rw [hI]; decide
        simp only [ItemData.getUInt64, ItemData.getUInt, if_pos hI, if_neg hn, ne_eq, hne1,
          hne2, not_false_eq_true, and_self, if_true, Res.pure_eq_ok, Res.ok.injEq] at hu
        cases hu
    · by_cases hU : item.raw.type = NodeType.UInt
      · simp only [ItemData.getInt64, if_neg hI, if_pos hU, Res.pure_eq_ok, Res.ok.injEq,
          Option.some.injEq] at hs
        simp only [ItemData.getUInt64, ItemData.getUInt, if_neg hI, if_pos hU, Res.pure_eq_ok,
          Res.ok.injEq, Option.some.injEq] at hu
        subst hs hu
        exact ⟨rfl, Int.ofNat_nonneg _⟩
      · by_cases h64 : item.raw.type = NodeType.Int64
        · simp only [ItemData.getInt64, if_neg hI, if_neg hU, if_pos h64, Res.bind_eq_ok,
            Res.pure_eq_ok, Res.ok.injEq, Option.some.injEq] at hs
          obtain ⟨word, hword, hs⟩ := hs
          have hlt : word < 2 ^ 64 := by
            have := (read_eq_ok hword).1
            norm_num at this
            omega
          have hne : ¬ (item.raw.type ≠ NodeType.Int64 ∧ item.raw.type ≠ NodeType.UInt64) :=
            fun h => h.1 h64
          simp only [ItemData.getUInt64, ItemData.getUInt, if_neg hI, if_neg hU, if_neg hne,
            hword, Res.ok_bind, h64, true_and] at hu
          by_cases hneg : toS64 word < 0
          · rw [if_pos hneg] at hu
            cases hu
          · rw [if_neg hneg] at hu
            injection hu with hu
            injection hu with hu
            subst hs hu
            rw [toS64_of_nonneg hlt hneg]
            exact ⟨rfl, Int.ofNat_nonneg _⟩
        · simp only [ItemData.getInt64, if_neg hI, if_neg hU, if_neg h64, Res.pure_eq_ok,
            Res.ok.injEq] at hs
          cases hs

/-- C26, witness: the Int item of the array of the sample document, which holds 5. -/
theorem widening_consistent_witness :
    sampleArray.getByIndex 1
      = Res.ok (some { reader := sampleReader, raw := { raw := 5, type := NodeType.Int } }) ∧
    ItemData.getInt { reader := sampleReader, raw := { raw := 5, type := NodeType.Int } }
      = some 5 ∧
    ItemData.getUInt { reader := sampleReader, raw := { raw := 5, type := NodeType.Int } }
      = some 5 ∧
    ItemData.getInt64 { reader := sampleReader, raw := { raw := 5, type := NodeType.Int } }
      = Res.ok (some 5) ∧
    ItemData.getUInt64 { reader := sampleReader, raw := { raw := 5, type := NodeType.Int } }
      = Res.ok (some 5) := by
  have h := widening_consistent
    { reader := sampleReader, raw := { raw := 5, type := NodeType.Int } } (by decide)
  exact ⟨by decide, by decide, by decide, h.1 5 (by decide), (h.2.1 5 (by decide)).1⟩

theorem ItemData.getHash_own {item : ItemData} (h : item.raw.type = NodeType.Hash) :
    item.getHash ≠ Res.ok none := by
  simp only [ItemData.getHash, ne_eq, h, not_true_eq_false, if_false]
  cases Hash.new item.reader item.raw.raw with
  | ok v => simp
  | fault e => simp

theorem ItemData.getArray_own {item : ItemData} (h : item.raw.type = NodeType.Array) :
    item.getArray ≠ Res.ok none := by
  simp only [ItemData.getArray, ne_eq, h, not_true_eq_false, if_false]
  cases Array.new item.reader item.raw.raw with
  | ok v => simp
  | fault e => simp

theorem ItemData.getInt64_own {item : ItemData} (h : item.raw.type = NodeType.Int64) :
    item.getInt64 ≠ Res.ok none := by
  simp only [ItemData.getInt64, h, NodeType.Int64, NodeType.Int, NodeType.UInt]
  norm_num
  cases (getBinaryReader item.reader).read 8 item.raw.raw with
  | ok v => simp
  | fault e => simp

theorem ItemData.getUInt64_own {item : ItemData} (h : item.raw.type = NodeType.UInt64) :
    item.getUInt64 ≠ Res.ok none := by
  simp only [ItemData.getUInt64, ItemData.getUInt, h, NodeType.UInt64, NodeType.Int64,
    NodeType.Int, NodeType.UInt]
  norm_num
  cases (getBinaryReader item.reader).read 8 item.raw.raw with
  | ok v => simp
  | fault e => simp

theorem ItemData.getDouble_own {item : ItemData} (h : item.raw.type = NodeType.Double) :
    item.getDouble ≠ Res.ok none := by
  simp only [ItemData.getDouble, ItemData.getFloat, h, NodeType.Double, NodeType.Float]
  norm_num
  cases (getBinaryReader item.reader).read 8 item.raw.raw with
  | ok v => simp
  | fault e => simp

theorem map_bind_ne_none {α : Type} {x : Res (Option α)} (alt : α → Variant)
    (h : x ≠ Res.ok none) : (x >>= fun value => pure (value.map alt)) ≠ Res.ok none := by
  cases x with
  | fault e => simp
  | ok v =>
    cases v with
    | none => exact absurd rfl h
    | some a => simp

/-- In no case does `val()` apply `*` to an empty optional: the typed accessor it calls is
the one of the tag of the item. -/
theorem ItemData.val_ne_none (item : ItemData) : item.val ≠ Res.ok none := by
  unfold ItemData.val
  split
  · rename_i h; exact map_bind_ne_none _ (ItemData.getHash_own h)
  split
  · rename_i h; exact map_bind_ne_none _ (ItemData.getArray_own h)
  split
  · cases item.getString with
    | ok v => simp
    | fault e => simp
  split
  · rename_i h; simp [ItemData.getBool, h]
  split
  · rename_i h; simp [ItemData.getInt, h]
  split
  · rename_i h1 h; simp [ItemData.getUInt, h, NodeType.UInt, NodeType.Int]
  split
  · rename_i h; simp [ItemData.getFloat, h]
  split
  · rename_i h; exact map_bind_ne_none _ (ItemData.getInt64_own h)
  split
  · rename_i h; exact map_bind_ne_none _ (ItemData.getUInt64_own h)
  split
  · rename_i h; exact map_bind_ne_none _ (ItemData.getDouble_own h)
  · simp

/-- C25. Tagged-value accessor: for an item whose tag is one of Hash, Array, String, Bool,
Int, UInt, Float, Int64, UInt64, Double, `val()` returns the alternative of the variant that
corresponds to the tag, holding the value that the typed accessor of that tag returns; the
accessor returns a value for its own tag, so `val()` never applies `*` to an empty optional;
for the tag Null and every other tag `val()` returns the constant `0x0badbadbadbadbad`. The
accessors of Hash, Array, String, Int64, UInt64 and Double read the buffer: the bytes they
read are taken to be inside it, for every value of `raw` (the index of a String is scaled
in `u32`, which wraps). -/
theorem val_spec (item : ItemData)
    (hstring : item.raw.type = NodeType.String →
      ∃ stringOffset, util.getStringOffset (getBinaryReader item.reader)
        item.reader.mStringTableOffset item.raw.raw = Res.ok stringOffset)
    (hcontainer : item.raw.type = NodeType.Array ∨ item.raw.type = NodeType.Hash →
      ∃ numItems, util.readContainerSize (getBinaryReader item.reader) item.raw.raw
        = Res.ok numItems)
    (hwide : item.raw.type = NodeType.Int64 ∨ item.raw.type = NodeType.UInt64
      ∨ item.raw.type = NodeType.Double → item.raw.raw + 8 ≤ item.reader.mBuffer.length) :
    (item.raw.type = NodeType.Hash → ∃ value,
      item.getHash = Res.ok (some value) ∧ item.val = Res.ok (some (Variant.ofHash value))) ∧
    (item.raw.type = NodeType.Array → ∃ value,
      item.getArray = Res.ok (some value) ∧ item.val = Res.ok (some (Variant.ofArray value))) ∧
    (item.raw.type = NodeType.String → ∃ pointer,
      item.getString = Res.ok (some pointer) ∧
      item.val = Res.ok (some (Variant.ofString (some pointer)))) ∧
    (item.raw.type = NodeType.Bool → ∃ value,
      item.getBool = some value ∧ item.val = Res.ok (some (Variant.ofBool value))) ∧
    (item.raw.type = NodeType.Int → ∃ value,
      item.getInt = some value ∧ item.val = Res.ok (some (Variant.ofS32 value))) ∧
    (item.raw.type = NodeType.UInt → ∃ value,
      item.getUInt = some value ∧ item.val = Res.ok (some (Variant.ofU32 value))) ∧
    (item.raw.type = NodeType.Float → ∃ value,
      item.getFloat = some value ∧ item.val = Res.ok (some (Variant.ofF32 value))) ∧
    (item.raw.type = NodeType.Int64 → ∃ value,
      item.getInt64 = Res.ok (some value) ∧ item.val = Res.ok (some (Variant.ofS64 value))) ∧
    (item.raw.type = NodeType.UInt64 → ∃ value,
      item.getUInt64 = Res.ok (some value) ∧ item.val = Res.ok (some (Variant.ofU64 value))) ∧
    (item.raw.type = NodeType.Double → ∃ value,
      item.getDouble = Res.ok (some value) ∧ item.val = Res.ok (some (Variant.ofF64 value))) ∧
    (¬ (item.raw.type = NodeType.Hash ∨ item.raw.type = NodeType.Array
        ∨ item.raw.type = NodeType.String ∨ item.raw.type = NodeType.Bool
        ∨ item.raw.type = NodeType.Int ∨ item.raw.type = NodeType.UInt
        ∨ item.raw.type = NodeType.Float ∨ item.raw.type = NodeType.Int64
        ∨ item.raw.type = NodeType.UInt64 ∨ item.raw.type = NodeType.Double) →
      item.val = Res.ok (some (Variant.ofS64 0x0badbadbadbadbad))) ∧
    item.val ≠ Res.ok none := by
  have hread : item.raw.type = NodeType.Int64 ∨ item.raw.type = NodeType.UInt64
      ∨ item.raw.type = NodeType.Double →
      ∃ word, (getBinaryReader item.reader).read 8 item.raw.raw = Res.ok word := by
    intro h
    obtain ⟨v, hv, _⟩ := read_of_le (getBinaryReader item.reader)
      (show item.raw.raw + 8 ≤ (getBinaryReader item.reader).mData.length from hwide h)
    exact ⟨v, hv⟩
  refine ⟨?_, ?_, ?_, ?_, ?_, ?_, ?_, ?_, ?_, ?_, ?_, item.val_ne_none⟩
  · intro h
    obtain ⟨n, hn⟩ := hcontainer (Or.inr h)
    have hget : item.getHash
        = Res.ok (some (Hash.mk (ContainerBase.mk item.reader item.raw.raw n))) := by
      simp [ItemData.getHash, Hash.new, ContainerBase.new, h, hn]
    exact ⟨_, hget, by simp [ItemData.val, h, hget]⟩
  · intro h
    obtain ⟨n, hn⟩ := hcontainer (Or.inl h)
    have hget : item.getArray
        = Res.ok (some (Array.mk (ContainerBase.mk item.reader item.raw.raw n))) := by
      simp [ItemData.getArray, Array.new, ContainerBase.new, h, hn]
    exact ⟨_, hget, by simp [ItemData.val, h, hget, NodeType.Array, NodeType.Hash]⟩
  · intro h
    obtain ⟨p, hp⟩ := hstring h
    have hget : item.getString
        = Res.ok (some ((getBinaryReader item.reader).getString p)) := by
      simp [ItemData.getString, h, hp]
    exact ⟨_, hget, by
      simp [ItemData.val, h, hget, NodeType.Array, NodeType.Hash, NodeType.String]⟩
  · intro h
    exact ⟨decide (item.raw.raw ≠ 0), by simp [ItemData.getBool, h], by
      simp [ItemData.val, ItemData.getBool, h, NodeType.Array, NodeType.Hash, NodeType.String,
        NodeType.Bool]⟩
  · intro h
    exact ⟨toS32 item.raw.raw, by simp [ItemData.getInt, h], by
      simp [ItemData.val, ItemData.getInt, h, NodeType.Array, NodeType.Hash, NodeType.String,
        NodeType.Bool, NodeType.Int]⟩
  · intro h
    exact ⟨item.raw.raw, by simp [ItemData.getUInt, h, NodeType.UInt, NodeType.Int], by
      simp [ItemData.val, ItemData.getUInt, h, NodeType.Array, NodeType.Hash, NodeType.String,
        NodeType.Bool, NodeType.Int, NodeType.UInt]⟩
  · intro h
    exact ⟨{ bits := item.raw.raw }, by simp [ItemData.getFloat, h], by
      simp [ItemData.val, ItemData.getFloat, h, NodeType.Array, NodeType.Hash, NodeType.String,
        NodeType.Bool, NodeType.Int, NodeType.UInt, NodeType.Float]⟩
  · intro h
    obtain ⟨word, hword⟩ := hread (Or.inl h)
    have hget : item.getInt64 = Res.ok (some (toS64 word)) := by
      simp [ItemData.getInt64, h, hword, NodeType.Int64, NodeType.Int, NodeType.UInt]
    exact ⟨_, hget, by
      simp [ItemData.val, h, hget, NodeType.Array, NodeType.Hash, NodeType.String,
        NodeType.Bool, NodeType.Int, NodeType.UInt, NodeType.Float, NodeType.Int64]⟩
  · intro h
    obtain ⟨word, hword⟩ := hread (Or.inr (Or.inl h))
    have hget : item.getUInt64 = Res.ok (some word) := by
      simp [ItemData.getUInt64, ItemData.getUInt, h, hword, NodeType.Int64, NodeType.Int,
        NodeType.UInt, NodeType.UInt64]
    exact ⟨_, hget, by
      simp [ItemData.val, h, hget, NodeType.Array, NodeType.Hash, NodeType.String,
        NodeType.Bool, NodeType.Int, NodeType.UInt, NodeType.Float, NodeType.Int64,
        NodeType.UInt64]⟩
  · intro h
    obtain ⟨word, hword⟩ := hread (Or.inr (Or.inr h))
    have hget : item.getDouble = Res.ok (some (f64.ofBits word)) := by
      simp [ItemData.getDouble, ItemData.getFloat, h, hword, NodeType.Double, NodeType.Float]
    exact ⟨_, hget, by
      simp [ItemData.val, h, hget, NodeType.Array, NodeType.Hash, NodeType.String,
        NodeType.Bool, NodeType.Int, NodeType.UInt, NodeType.Float, NodeType.Int64,
        NodeType.UInt64, NodeType.Double]⟩
  · intro h
    simp only [not_or] at h
    obtain ⟨h1, h2, h3, h4, h5, h6, h7, h8, h9, h10⟩ := h
    simp only [ItemData.val, if_neg h1, if_neg h2, if_neg h3, if_neg h4, if_neg h5, if_neg h6,
      if_neg h7, if_neg h8, if_neg h9, if_neg h10, Res.pure_eq_ok]

/-- C25, witness: on the Int64 item of the array of the sample document, whose 8 bytes at
88 hold -2, `val()` is the `s64` alternative holding -2, the value of `getInt64()`; on an
item tagged Null it is the constant; on a String item whose raw is `0x40000000`, for which
`4 * raw` wraps to 0 in `u32`, it is the `const char*` alternative holding the pointer 48
that `getString()` returns. -/
theorem val_spec_witness :
    sampleArray.getByIndex 0
      = Res.ok (some { reader := sampleReader, raw := { raw := 88, type := NodeType.Int64 } }) ∧
    (∃ value,
      ItemData.getInt64 { reader := sampleReader, raw := { raw := 88, type := NodeType.Int64 } }
        = Res.ok (some value) ∧
      ItemData.val { reader := sampleReader, raw := { raw := 88, type := NodeType.Int64 } }
        = Res.ok (some (Variant.ofS64 value))) ∧
    ItemData.val { reader := sampleReader, raw := { raw := 88, type := NodeType.Int64 } }
      = Res.ok (some (Variant.ofS64 (-2))) ∧
    ItemData.val { reader := sampleReader, raw := { raw := 0, type := NodeType.Null } }
      = Res.ok (some (Variant.ofS64 0x0badbadbadbadbad)) ∧
    (∃ pointer,
      ItemData.getString
        { reader := sampleReader, raw := { raw := 0x40000000, type := NodeType.String } }
          = Res.ok (some pointer) ∧
      ItemData.val
        { reader := sampleReader, raw := { raw := 0x40000000, type := NodeType.String } }
          = Res.ok (some (Variant.ofString (some pointer)))) ∧
    ItemData.val
      { reader := sampleReader, raw := { raw := 0x40000000, type := NodeType.String } }
        = Res.ok (some (Variant.ofString (some 48))) :=
  ⟨by decide,
    (val_spec { reader := sampleReader, raw := { raw := 88, type := NodeType.Int64 } }
      (fun h => absurd h (by decide)) (fun h => absurd h (by decide))
      (fun _ => by decide)).2.2.2.2.2.2.2.1 rfl,
    by decide, by decide,
    (val_spec { reader := sampleReader, raw := { raw := 0x40000000, type := NodeType.String } }
      (fun _ => ⟨48, by decide⟩) (fun h => absurd h (by decide))
      (fun h => absurd h (by decide))).2.2.1 rfl,
    by decide⟩

end byml
